import Mathlib

/-!
Verification of the geUtilities memory allocators and quadtree.

This file gives a shallow embedding, in Lean 4, of:

* `FrameAlloc` (geFrameAlloc.cpp): bump-pointer arena with `markFrame` /
  `clear` checkpoints, block growth, block reuse and block merging;
* `MemStackInternal` (geStackAlloc.h): LIFO stack allocator with hidden
  size headers and block merge-on-drain;
* `Quadtree` (geQuadtree.h): loose quadtree with pooled element groups,
  split/collapse, and the box-intersection iterator.

Machine integers are modelled as `Nat` with explicit wraparound
(`% 2 ^ 64` or `% 2 ^ 32`) exactly where the C++ arithmetic can wrap.
Memory addresses are modelled as `Nat`; blocks receive their base
addresses from an oracle counter in the state that only hands out
16-byte-aligned bases, mirroring `ge_alloc_aligned16`.  Block identity
(needed to model pointer range checks against a `std::vector` whose
indices shift) is modelled with unique ids.
-/

namespace GeUtil

/-- Size of `SIZE_T` (the hidden size header) on the modelled platform. -/
def szWord : Nat := 8

/-! ## FrameAlloc (geFrameAlloc.cpp) -/

namespace FrameAlloc

/-- Model of `FrameAlloc::MemBlock`: a heap block with its base address
(address of `m_data`), capacity `m_size` and bump offset `m_freePtr`.
The `id` field models pointer identity of the block. -/
structure MemBlock where
  id : Nat
  base : Nat
  size : Nat
  freePtr : Nat
deriving Repr, DecidableEq

instance : Inhabited MemBlock := ⟨⟨0, 0, 0, 0⟩⟩

/-- A pointer returned by an allocation: the id of the block it lives in,
its offset from the block's `m_data`, and its absolute address. -/
structure Ptr where
  bid : Nat
  off : Nat
  addr : Nat
deriving Repr, DecidableEq

/-- Model of the `FrameAlloc` object.  `dbg` selects the
`GE_DEBUG_MODE` build.  `headers` models the hidden size words written
in front of debug allocations (address of the word, stored value);
newest entries shadow older ones at the same address, like memory.
`lastFrame` models the checkpoint chain threaded through arena memory
(`m_lastFrame` plus the stored back pointers), newest first.
`nextId`/`nextBase` are the block identity and base-address oracles. -/
structure State where
  dbg : Bool
  blockSize : Nat
  blocks : List MemBlock
  nextBlockIdx : Nat
  freeBlock : Option Nat
  totalAllocBytes : Int
  lastFrame : List Ptr
  headers : List (Nat × Nat)
  nextId : Nat
  nextBase : Nat
deriving Repr

/-- Size of the hidden debug header added by `GE_DEBUG_ONLY(amount += sizeof(SIZE_T))`. -/
def State.hdr (s : State) : Nat := if s.dbg then szWord else 0

/-- Fresh `FrameAlloc(blockSize)`: no blocks, no marks, zero counters. -/
def State.init (dbg : Bool) (blockSize : Nat) (firstBase : Nat) : State :=
  ⟨dbg, blockSize, [], 0, none, 0, [], [], 0, firstBase⟩

/-- Model of `FrameAlloc::allocBlock`.  Scans the pooled blocks from
`m_nextBlockIdx`: empty blocks that are too small are deallocated and
erased, the first large enough one is reused; if none fits a fresh block
of `max(m_blockSize, wantedSize)` is appended.  Either way the chosen
block is at index `m_nextBlockIdx`, which is then incremented, and
becomes `m_freeBlock`. -/
def State.allocBlock (s : State) (wantedSize : Nat) : State :=
  let blockSize := max s.blockSize wantedSize
  let pre := s.blocks.take s.nextBlockIdx
  let rest := (s.blocks.drop s.nextBlockIdx).dropWhile (fun b => b.size < blockSize)
  match rest with
  | [] =>
    { s with blocks := pre ++ [⟨s.nextId, s.nextBase, blockSize, 0⟩],
             nextBlockIdx := s.nextBlockIdx + 1,
             freeBlock := some s.nextBlockIdx,
             nextId := s.nextId + 1,
             nextBase := s.nextBase + 16 * (blockSize / 16 + 1) }
  | _ :: _ =>
    { s with blocks := pre ++ rest,
             nextBlockIdx := s.nextBlockIdx + 1,
             freeBlock := some s.nextBlockIdx }

/-- Model of `FrameAlloc::alloc`.  In debug the amount is padded by the
hidden size word, which is also recorded in `headers`; the returned
pointer points past the header. -/
def State.alloc (s : State) (amount0 : Nat) : State × Ptr :=
  let amount := amount0 + s.hdr
  let freeMem :=
    match s.freeBlock with
    | some i => (s.blocks.getD i default).size - (s.blocks.getD i default).freePtr
    | none => 0
  let s1 := if freeMem < amount then s.allocBlock amount else s
  let i := s1.freeBlock.getD 0
  let b := s1.blocks.getD i default
  let dataAddr := b.base + b.freePtr
  let s2 :=
    { s1 with blocks := s1.blocks.set i { b with freePtr := b.freePtr + amount },
              totalAllocBytes :=
                if s.dbg then s1.totalAllocBytes + amount else s1.totalAllocBytes,
              headers := if s.dbg then (dataAddr, amount) :: s1.headers else s1.headers }
  (s2, ⟨b.id, b.freePtr + s.hdr, dataAddr + s.hdr⟩)

/-- Model of `FrameAlloc::allocAligned`.  The padding is computed with
the source's bit masks (`& (alignment - 1)`), so it is only meaningful
for power-of-two alignments, as in the source. -/
def State.allocAligned (s : State) (amount0 alignment : Nat) : State × Ptr :=
  let amount1 := amount0 + s.hdr
  let freeMem :=
    match s.freeBlock with
    | some i => (s.blocks.getD i default).size - (s.blocks.getD i default).freePtr
    | none => 0
  let freePtr :=
    match s.freeBlock with
    | some i => (s.blocks.getD i default).freePtr + s.hdr
    | none => 0
  let alignOffset0 := (alignment - (freePtr &&& (alignment - 1))) &&& (alignment - 1)
  let grow := freeMem < amount1 + alignOffset0
  let alignOffset :=
    if grow then
      if s.dbg then (alignment - (szWord &&& (alignment - 1))) &&& (alignment - 1)
      else if 16 < alignment then alignment - 16 else 0
    else alignOffset0
  let s1 := if grow then s.allocBlock (amount1 + alignOffset) else s
  let amount := amount1 + alignOffset
  let i := s1.freeBlock.getD 0
  let b := s1.blocks.getD i default
  let dataAddr := b.base + b.freePtr
  let s2 :=
    { s1 with blocks := s1.blocks.set i { b with freePtr := b.freePtr + amount },
              totalAllocBytes :=
                if s.dbg then s1.totalAllocBytes + amount else s1.totalAllocBytes,
              headers :=
                if s.dbg then (dataAddr + alignOffset, amount) :: s1.headers
                else s1.headers }
  (s2, ⟨b.id, b.freePtr + alignOffset + s.hdr, dataAddr + alignOffset + s.hdr⟩)

/-- Model of `FrameAlloc::free`.  In debug builds it reads the hidden
size word in front of the pointer and subtracts it from
`m_totalAllocBytes`; nothing else is touched.  In release builds it does
nothing. -/
def State.free (s : State) (p : Ptr) : State :=
  if s.dbg then
    match s.headers.lookup (p.addr - szWord) with
    | some stored => { s with totalAllocBytes := s.totalAllocBytes - (stored : Int) }
    | none => s
  else s

/-- Model of `FrameAlloc::markFrame`: allocate a pointer-sized slot,
store the previous checkpoint in it (modelled by the `lastFrame` stack)
and make it the new checkpoint. -/
def State.markFrame (s : State) : State × Ptr :=
  let (s1, p) := s.alloc szWord
  ({ s1 with lastFrame := p :: s1.lastFrame }, p)

/-- The walk in `FrameAlloc::clear`: starting at block index
`startBlockIdx = m_nextBlockIdx - 1` and going down, zero every block
until the one containing the checkpoint (identified here by block id,
modelling the source's address range test), trim that one to the
checkpoint offset `fOff`, and track `m_nextBlockIdx` and the number of
blocks that became empty.  Returns (blocks, nextBlockIdx, numFreedBlocks). -/
def clearWalk (bid fOff : Nat) :
    Nat → List MemBlock → Nat → Nat → List MemBlock × Nat × Nat
  | i, blocks, nextIdx, numFreed =>
    let cur := blocks.getD i default
    if cur.id = bid then
      let blocks' := blocks.set i { cur with freePtr := fOff }
      if fOff = 0 then
        if 1 < numFreed + 1 then (blocks', i, numFreed + 1)
        else (blocks', nextIdx, numFreed + 1)
      else (blocks', nextIdx, numFreed)
    else
      let blocks' := blocks.set i { cur with freePtr := 0 }
      match i with
      | 0 => (blocks', 0, numFreed + 1)
      | i' + 1 => clearWalk bid fOff i' blocks' (i' + 1) (numFreed + 1)

/-- Model of `FrameAlloc::clear`.  With an outstanding checkpoint it
pops it, walks the blocks backwards (see `clearWalk`), and if more than
one block was emptied it deallocates them and allocates one combined
block; `m_freeBlock` is then pointed at the first non-full block.
Without a checkpoint, the debug build throws if `m_totalAllocBytes > 0`
(modelled by `none`); otherwise all blocks are merged into one (if more
than one) or the single block's offset is reset.  The source indexes
`m_blocks[m_nextBlockIdx - 1]` in the checkpoint path, so
`m_nextBlockIdx = 0` there is undefined behaviour, modelled as `none`. -/
def State.clear (s : State) : Option State :=
  match s.lastFrame with
  | p :: restMarks =>
    if s.nextBlockIdx = 0 then none else
    let s0 := s.free p
    let fOff := p.off - s.hdr
    let w := clearWalk p.bid fOff (s.nextBlockIdx - 1) s.blocks s.nextBlockIdx 0
    let blocks' := w.1
    let nextIdx' := w.2.1
    let numFreed := w.2.2
    if 1 < numFreed then
      let freed := (blocks'.drop nextIdx').take numFreed
      let totalBytes := freed.foldl (fun a b => a + b.size) 0
      let s2 := { s0 with blocks := blocks'.take nextIdx' ++ blocks'.drop (nextIdx' + numFreed),
                          nextBlockIdx := nextIdx',
                          lastFrame := restMarks }
      let s3 := s2.allocBlock totalBytes
      some (if 0 < nextIdx' then { s3 with freeBlock := some (nextIdx' - 1) } else s3)
    else
      some { s0 with blocks := blocks', nextBlockIdx := nextIdx',
                     freeBlock := some (nextIdx' - 1), lastFrame := restMarks }
  | [] =>
    if s.dbg ∧ 0 < s.totalAllocBytes then none
    else if 1 < s.blocks.length then
      let totalBytes := s.blocks.foldl (fun a b => a + b.size) 0
      some (({ s with blocks := [], nextBlockIdx := 0 }).allocBlock totalBytes)
    else
      match s.blocks with
      | [] => some s
      | b :: rest => some { s with blocks := { b with freePtr := 0 } :: rest }

/-- The per-block free offsets, in pool order: the "free-offset state"
of the arena. -/
def State.offsets (s : State) : List Nat := s.blocks.map (·.freePtr)

/-- Two free-offset lists describe the same allocation state when they
agree up to trailing empty (offset-0) blocks: blocks past the high-water
mark hold no allocations. -/
def padEq (a b : List Nat) : Prop :=
  ∃ n m, a ++ List.replicate n 0 = b ++ List.replicate m 0

/-- Well-formedness of a `FrameAlloc` state, as maintained by the
implementation: the next-block index stays within the pool, a null
`m_freeBlock` only occurs before the first block exists, every block
past `m_freeBlock` (in particular every block from `m_nextBlockIdx` on,
which `allocBlock` may hand out without resetting) is empty, offsets
stay within capacities, and block ids are distinct and below the id
oracle. -/
def State.WF (s : State) : Prop :=
  s.nextBlockIdx ≤ s.blocks.length ∧
  (∀ b ∈ s.blocks, b.freePtr ≤ b.size) ∧
  (∀ b ∈ s.blocks, b.id < s.nextId) ∧
  (s.blocks.map (·.id)).Nodup ∧
  (match s.freeBlock with
   | some f => f < s.nextBlockIdx ∧
       ∀ i, f < i → i < s.blocks.length → (s.blocks.getD i default).freePtr = 0
   | none => s.blocks = [] ∧ s.nextBlockIdx = 0)

/-- The ordering of two outstanding checkpoints in the arena: the newer
one sits in a later block, or in the same block past the older one's
own pointer-sized slot (`h` is the debug-header size of the state). -/
def Below (k1 F1 k2 F2 h : Nat) : Prop :=
  k1 < k2 ∨ (k1 = k2 ∧ F1 + szWord + h ≤ F2)

/-- The invariant tying an outstanding `markFrame` checkpoint `p` to the
arena: the checkpoint lives in block `k` (which the pool has not moved
past), at frame offset `F`; the block's bump offset is beyond the
checkpoint's own slot; and trimming the pool back to `(k, F)`
reproduces the free-offset state `base` the mark was taken in (up to
trailing empty blocks). -/
def State.MarkInv (s : State) (p : Ptr) (k F : Nat) (base : List Nat) : Prop :=
  s.WF ∧
  k < s.nextBlockIdx ∧
  (∃ fb, s.freeBlock = some fb ∧ k ≤ fb) ∧
  (s.blocks.getD k default).id = p.bid ∧
  p.off = F + s.hdr ∧
  F + szWord + s.hdr ≤ (s.blocks.getD k default).freePtr ∧
  padEq base (s.offsets.take k ++ [F])

end FrameAlloc

/-! ## MemStackInternal (geStackAlloc.h) -/

namespace MemStack

/-- Model of `MemStackInternal::MemBlock`.  The doubly linked chain is
modelled as a list (`StackState.chain`) in prev-to-next order, so the
`m_prevBlock` / `m_nextBlock` links are list adjacency. -/
structure MemBlock where
  base : Nat
  size : Nat
  freePtr : Nat
deriving Repr, DecidableEq

instance : Inhabited MemBlock := ⟨⟨0, 0, 0⟩⟩

/-- Model of a `MemStackInternal<BlockCapacity>` object.  `cur` is the
index of `m_freeBlock` in the chain (`none` models a null
`m_freeBlock`).  `headers` models the size words written in front of
each allocation (absolute address ↦ stored value, newest first).
`assertOk` records whether every `GE_ASSERT` so far held; `m_freePtr`
arithmetic wraps modulo `2 ^ 64` like the `SIZE_T` it models.
`nextBase` is the base-address oracle for new blocks. -/
structure StackState where
  cap : Nat
  chain : List MemBlock
  cur : Option Nat
  headers : List (Nat × Nat)
  assertOk : Bool
  nextBase : Nat
deriving Repr

/-- Model of `MemStackInternal::allocBlock`.  Searches the `m_nextBlock`
chain from `m_freeBlock` for an existing block of at least the required
size; that block simply becomes current.  Otherwise a new block of
`max(BlockCapacity, wantedSize)` is created and spliced in right after
the current block. -/
def StackState.allocBlock (s : StackState) (wantedSize : Nat) : StackState :=
  let blockSize := max s.cap wantedSize
  let found :=
    match s.cur with
    | some c =>
      ((s.chain.drop (c + 1)).findIdx? (fun (b : MemBlock) => blockSize ≤ b.size)).map
        (c + 1 + ·)
    | none => none
  match found with
  | some j => { s with cur := some j }
  | none =>
    let pos := match s.cur with | some c => c + 1 | none => 0
    { s with chain := s.chain.take pos ++ [(⟨s.nextBase, blockSize, 0⟩ : MemBlock)] ++
               s.chain.drop pos,
             cur := some pos,
             nextBase := s.nextBase + 16 * (blockSize + 16) }

/-- Model of `MemStackInternal::alloc`: pad the request with the hidden
size word, grow if the current block is too small, bump the current
block, record the size word, and return the address past it. -/
def StackState.alloc (s : StackState) (amount0 : Nat) : StackState × Nat :=
  let amount := amount0 + szWord
  let freeMem :=
    match s.cur with
    | some c => (s.chain.getD c default).size - (s.chain.getD c default).freePtr
    | none => 0
  let s1 := if freeMem < amount then s.allocBlock amount else s
  let c := s1.cur.getD 0
  let b := s1.chain.getD c default
  let dataAddr := b.base + b.freePtr
  let s2 := { s1 with chain := s1.chain.set c { b with freePtr := b.freePtr + amount },
                      headers := (dataAddr, amount) :: s1.headers }
  (s2, dataAddr + szWord)

/-- Model of `MemStackInternal::dealloc`.  Reads the stored size word,
rewinds the current block's `m_freePtr` (`SIZE_T` arithmetic, so it
wraps), checks the out-of-order assertion
`&m_data[m_freePtr] == data`, and if the block drained completely moves
current back to its `m_prevBlock` and merges with its `m_nextBlock`
(deallocating both and allocating one of combined size; the source cuts
the chain at `m_prevBlock` first, so anything after the merged pair is
dropped from the chain). -/
def StackState.dealloc (s : StackState) (ptrAddr : Nat) : StackState :=
  let dataAddr := ptrAddr - szWord
  let storedSize := (s.headers.lookup dataAddr).getD 0
  let c := s.cur.getD 0
  let b := s.chain.getD c default
  let newFreePtr := (b.freePtr + 2 ^ 64 - storedSize % 2 ^ 64) % 2 ^ 64
  let ok := (b.base + newFreePtr) % 2 ^ 64 = dataAddr
  let s1 := { s with chain := s.chain.set c { b with freePtr := newFreePtr },
                     assertOk := s.assertOk && decide ok }
  if newFreePtr = 0 then
    let hasPrev := 0 < c
    let s2 := if hasPrev then { s1 with cur := some (c - 1) } else s1
    if c + 1 < s1.chain.length then
      let nextB := s1.chain.getD (c + 1) default
      let emptyB := s1.chain.getD c default
      let totalSize := emptyB.size + nextB.size
      let s3 :=
        if hasPrev then { s2 with chain := s2.chain.take c }
        else { s2 with chain := s2.chain.take c, cur := none }
      s3.allocBlock totalSize
    else s2
  else s1

/-- Fresh `MemStackInternal`: the constructor allocates one block of
`BlockCapacity`. -/
def StackState.init (cap firstBase : Nat) : StackState :=
  StackState.allocBlock ⟨cap, [], none, [], true, firstBase⟩ cap

/-- Runs a list of allocation requests, returning the final state and
the returned pointers in order. -/
def StackState.runAllocs : StackState → List Nat → StackState × List Nat
  | s, [] => (s, [])
  | s, n :: rest =>
    let s1p := s.alloc n
    let rec2 := s1p.1.runAllocs rest
    (rec2.1, s1p.2 :: rec2.2)

/-- Runs a list of deallocations, in order. -/
def StackState.runDeallocs : StackState → List Nat → StackState
  | s, [] => s
  | s, p :: rest => (s.dealloc p).runDeallocs rest

end MemStack

/-! ## Quadtree (geQuadtree.h)

Coordinates are modelled with exact rationals; the 4-wide
single-precision SIMD lanes of `geSIMD.h` become pointwise operations on
a 4-lane record `F4` (lane order x, y, z, w, with the z/w lanes carrying
the zeroes stored there by `simd::Rect2`).  Elements are identified by
natural-number payloads; the element policy (`Options::getBounds`) is a
function in `QOpts`, and the `setElementId` callback is modelled by
returning the assigned indices. -/

namespace Quadtree

/-- Exact scalar standing for the single-precision SIMD lane values: a
numerator/denominator pair (denominator positive at every use site),
with arithmetic written directly on `Int`/`Nat` so that concrete tree
computations evaluate by kernel reduction.  `toRat` interprets a scalar
as the rational it denotes. -/
structure Scalar where
  num : Int
  den : Nat
deriving Repr, DecidableEq

instance (n : Nat) : OfNat Scalar n := ⟨⟨(n : Int), 1⟩⟩

instance : Neg Scalar := ⟨fun a => ⟨-a.num, a.den⟩⟩

instance : Add Scalar :=
  ⟨fun a b => ⟨a.num * (b.den : Int) + b.num * (a.den : Int), a.den * b.den⟩⟩

instance : Sub Scalar :=
  ⟨fun a b => ⟨a.num * (b.den : Int) - b.num * (a.den : Int), a.den * b.den⟩⟩

instance : Mul Scalar := ⟨fun a b => ⟨a.num * b.num, a.den * b.den⟩⟩

instance : Div Scalar :=
  ⟨fun a b =>
    if 0 ≤ b.num then ⟨a.num * (b.den : Int), a.den * b.num.toNat⟩
    else ⟨-(a.num * (b.den : Int)), a.den * (-b.num).toNat⟩⟩

instance : LT Scalar := ⟨fun a b => a.num * (b.den : Int) < b.num * (a.den : Int)⟩

instance : LE Scalar := ⟨fun a b => a.num * (b.den : Int) ≤ b.num * (a.den : Int)⟩

instance (a b : Scalar) : Decidable (a < b) :=
  inferInstanceAs (Decidable (a.num * (b.den : Int) < b.num * (a.den : Int)))

instance (a b : Scalar) : Decidable (a ≤ b) :=
  inferInstanceAs (Decidable (a.num * (b.den : Int) ≤ b.num * (a.den : Int)))

/-- Lane absolute value. -/
def Scalar.qabs (a : Scalar) : Scalar := ⟨(a.num.natAbs : Int), a.den⟩

/-- Lane minimum (`simd::min`). -/
def Scalar.qmin (a b : Scalar) : Scalar := if a < b then a else b

/-- The rational a scalar denotes. -/
def Scalar.toRat (a : Scalar) : ℚ := (a.num : ℚ) / (a.den : ℚ)

/-- Positive denominator (holds for every scalar the model builds). -/
def Scalar.pden (a : Scalar) : Prop := 0 < a.den

/-- Four SIMD lanes of exact values. -/
structure F4 where
  x : Scalar
  y : Scalar
  z : Scalar
  w : Scalar
deriving Repr, DecidableEq

namespace F4

def add (a b : F4) : F4 := ⟨a.x + b.x, a.y + b.y, a.z + b.z, a.w + b.w⟩

def sub (a b : F4) : F4 := ⟨a.x - b.x, a.y - b.y, a.z - b.z, a.w - b.w⟩

def fmin (a b : F4) : F4 := ⟨a.x.qmin b.x, a.y.qmin b.y, a.z.qmin b.z, a.w.qmin b.w⟩

def fabs (a : F4) : F4 := ⟨a.x.qabs, a.y.qabs, a.z.qabs, a.w.qabs⟩

/-- Model of `test_bits_any(bit_cast<uint32x4>(cmp_gt(a, b)))`: true iff
some lane of `a` is greater than the matching lane of `b`. -/
def anyGT (a b : F4) : Bool :=
  decide (b.x < a.x) || decide (b.y < a.y) || decide (b.z < a.z) || decide (b.w < a.w)

def splat (v : Scalar) : F4 := ⟨v, v, v, v⟩

end F4

/-- Model of `simd::Rect2`: center and extents, whose z/w lanes are 0. -/
structure Rect2 where
  cx : Scalar
  cy : Scalar
  ex : Scalar
  ey : Scalar
deriving Repr, DecidableEq

instance : Inhabited Rect2 := ⟨⟨0, 0, 0, 0⟩⟩

/-- The `center` member as loaded into a SIMD register. -/
def Rect2.centerF4 (r : Rect2) : F4 := ⟨r.cx, r.cy, 0, 0⟩

/-- The `extents` member as loaded into a SIMD register. -/
def Rect2.extentsF4 (r : Rect2) : F4 := ⟨r.ex, r.ey, 0, 0⟩

/-- Model of `simd::Rect2::overlaps`. -/
def Rect2.overlaps (r o : Rect2) : Bool :=
  let diff := (r.centerF4.sub o.centerF4).fabs
  let tmpExtents := r.extentsF4.add o.extentsF4
  !(diff.anyGT tmpExtents)

/-- Exact power with a natural exponent (`Math::pow` with the integer
`maxDepth` exponent), written recursively so it evaluates by kernel
reduction. -/
def qpow (q : Scalar) : Nat → Scalar
  | 0 => 1
  | n + 1 => q * qpow q n

/-- The tree options (`Options` template parameter).  `getBounds` is the
static element policy `Options::getBounds` with its context applied. -/
structure QOpts where
  loosePadding : Scalar
  minElementsPerNode : Nat
  maxElementsPerNode : Nat
  maxDepth : Nat
  getBounds : Nat → Rect2

/-- The child extent scale `0.5f * (1.0f + 1.0f / Options::loosePadding)`. -/
def chldExtentScl (o : QOpts) : Scalar := (1 / 2) * (1 + 1 / o.loosePadding)

/-- Model of `Quadtree::NodeBounds`: node bounds plus the derived child
extent and child center offset. -/
structure NodeBounds where
  bounds : Rect2
  childExtent : Scalar
  childOffset : Scalar
deriving Repr, DecidableEq

/-- The `NodeBounds` constructor. -/
def NodeBounds.ofRect (o : QOpts) (r : Rect2) : NodeBounds :=
  let ce := r.ex * chldExtentScl o
  ⟨r, ce, r.ex - ce⟩

/-- Model of `NodeBounds::findContainingChild`.  Returns the child index
(`x + 2 * y` as in the `HChildNode` bitfield) or `none` for an empty
handle. -/
def NodeBounds.findContainingChild (nb : NodeBounds) (b : Rect2) : Option (Fin 4) :=
  let queryCenter := b.centerF4
  let nodeCenter := nb.bounds.centerF4
  let childOffset := F4.splat nb.childOffset
  let negativeCenter := nodeCenter.sub childOffset
  let negativeDiff := queryCenter.sub negativeCenter
  let positiveCenter := nodeCenter.add childOffset
  let positiveDiff := positiveCenter.sub queryCenter
  let diff := negativeDiff.fmin positiveDiff
  let queryExtents := b.extentsF4
  let childExtent := F4.splat nb.childExtent
  if (queryExtents.add diff).anyGT childExtent then none
  else
    some ⟨(if nodeCenter.x < queryCenter.x then 1 else 0) +
          2 * (if nodeCenter.y < queryCenter.y then 1 else 0), by
            split <;> split <;> omega⟩

/-- Model of `Quadtree::NodeChildRange` (the four mask bits). -/
structure NodeChildRange where
  posX : Bool
  posY : Bool
  negX : Bool
  negY : Bool
deriving Repr, DecidableEq

/-- Model of `NodeChildRange::contains` for the range of a single child:
the child's positive bit must be set on the axis where its coordinate
bit is 1, and the negative bit where it is 0. -/
def NodeChildRange.containsChild (r : NodeChildRange) (i : Fin 4) : Bool :=
  (if i.val % 2 = 1 then r.posX else r.negX) &&
  (if i.val / 2 = 1 then r.posY else r.negY)

/-- Model of `NodeBounds::findIntersectingChildren`. -/
def NodeBounds.findIntersectingChildren (nb : NodeBounds) (b : Rect2) : NodeChildRange :=
  let queryCenter := b.centerF4
  let queryExtents := b.extentsF4
  let queryMax := queryCenter.add queryExtents
  let queryMin := queryCenter.sub queryExtents
  let nodeCenter := nb.bounds.centerF4
  let childOffset := F4.splat nb.childOffset
  let negativeCenter := nodeCenter.sub childOffset
  let positiveCenter := nodeCenter.add childOffset
  let childExtent := F4.splat nb.childExtent
  let negativeMax := negativeCenter.add childExtent
  let positiveMin := positiveCenter.sub childExtent
  { posX := decide (positiveMin.x < queryMax.x),
    posY := decide (positiveMin.y < queryMax.y),
    negX := decide (queryMin.x ≤ negativeMax.x),
    negY := decide (queryMin.y ≤ negativeMax.y) }

/-- Model of `NodeBounds::getChild`. -/
def NodeBounds.getChild (o : QOpts) (nb : NodeBounds) (i : Fin 4) : NodeBounds :=
  let mx : Scalar := if i.val % 2 = 1 then 1 else -1
  let my : Scalar := if i.val / 2 = 1 then 1 else -1
  NodeBounds.ofRect o
    ⟨nb.bounds.cx + nb.childOffset * mx, nb.bounds.cy + nb.childOffset * my,
     nb.childExtent, nb.childExtent⟩

/-- `Math::divideAndRoundUp`. -/
def divideAndRoundUp (a b : Nat) : Nat := (a + b - 1) / b

/-- Model of `Quadtree::NodeElements`: the linked group lists become
lists of fixed-capacity groups (newest group first, like the source's
intrusive lists), plus the element count. -/
structure NodeElements where
  values : List (List Nat)
  bounds : List (List Rect2)
  count : Nat
deriving Repr, DecidableEq

instance : Inhabited NodeElements := ⟨⟨[], [], 0⟩⟩

/-- Model of `Node::mapToGroup`: number of `next` hops to the group
holding the element, and the index inside that group.  (For an invalid
`elementIdx` the `uint32` arithmetic of the source wraps; callers only
use valid indices.) -/
def mapToGroup (o : QOpts) (count elementIdx : Nat) : Nat × Nat :=
  let numGroups := divideAndRoundUp count o.maxElementsPerNode
  (numGroups - elementIdx / o.maxElementsPerNode - 1, elementIdx % o.maxElementsPerNode)

/-- Sets entry `j` of group `g` in a group list. -/
def setGrp {α : Type} (l : List (List α)) (g j : Nat) (v : α) : List (List α) :=
  l.set g ((l.getD g []).set j v)

/-- Model of `Quadtree::pushElement` restricted to the element storage:
grab a fresh group when the first group is full, write the element and
its bounds, and report the index passed to `setElementId`
(`QuadtreeElementId(node, elements.count)`). -/
def NodeElements.push (o : QOpts) (es : NodeElements) (v : Nat) (b : Rect2) :
    NodeElements × Nat :=
  let freeIdx := es.count % o.maxElementsPerNode
  let es1 :=
    if freeIdx = 0 then
      { es with values := List.replicate o.maxElementsPerNode 0 :: es.values,
                bounds := List.replicate o.maxElementsPerNode default :: es.bounds }
    else es
  ({ values := setGrp es1.values 0 freeIdx v,
     bounds := setGrp es1.bounds 0 freeIdx b,
     count := es.count + 1 }, es.count)

/-- Model of `Quadtree::popElement` restricted to the element storage.
Swaps the removed element with the last one (when there are at least
two), reports the `setElementId` calls made (pairs of moved element and
the index stored in its new id — the source passes the index returned
by `mapToGroup`), drops the first group when it empties, and returns
the removed element. -/
def NodeElements.pop (o : QOpts) (es : NodeElements) (elementIdx0 : Nat) :
    NodeElements × List (Nat × Nat) × Nat :=
  let m := mapToGroup o es.count elementIdx0
  let gIdx := m.1
  let elementIdx := m.2
  let ml := mapToGroup o es.count (es.count - 1)
  let lgIdx := ml.1
  let lastElementIdx := ml.2
  let v1 := (es.values.getD gIdx []).getD elementIdx 0
  let v2 := (es.values.getD lgIdx []).getD lastElementIdx 0
  let b1 := (es.bounds.getD gIdx []).getD elementIdx default
  let b2 := (es.bounds.getD lgIdx []).getD lastElementIdx default
  let es1 :=
    if 1 < es.count then
      { es with
        values := setGrp (setGrp es.values gIdx elementIdx v2) lgIdx lastElementIdx v1,
        bounds := setGrp (setGrp es.bounds gIdx elementIdx b2) lgIdx lastElementIdx b1 }
    else es
  let log := if 1 < es.count then [(v2, elementIdx)] else []
  let es2 :=
    if lastElementIdx = 0 then
      { es1 with values := es1.values.tail, bounds := es1.bounds.tail }
    else es1
  ({ es2 with count := es.count - 1 }, log, v1)

/-- The number of used entries in the first group
(`count - (numGroups - 1) * maxElementsPerNode`; later groups are always
full). -/
def elemsInFirstGroup (o : QOpts) (count : Nat) : Nat :=
  count - (divideAndRoundUp count o.maxElementsPerNode - 1) * o.maxElementsPerNode

/-- The (element, bounds) pairs of a node's storage in the order
`Quadtree::ElementIterator` walks them. -/
def iterPairs (o : QOpts) (es : NodeElements) : List (Nat × Rect2) :=
  match es.values, es.bounds with
  | g :: gs, b :: bs =>
    let eig := elemsInFirstGroup o es.count
    (g.take eig).zip (b.take eig) ++
      (gs.zip bs).flatMap
        (fun p => (p.1.take o.maxElementsPerNode).zip (p.2.take o.maxElementsPerNode))
  | _, _ => []

/-- The elements of a node's storage in iteration order. -/
def iterElems (o : QOpts) (es : NodeElements) : List Nat := (iterPairs o es).map Prod.fst

/-- Model of `Quadtree::Node`: element storage, the incremental
`m_totalNumElements` counter, the `m_isLeaf` flag, and the four child
pointers.  The `m_parent` back pointer is represented by paths from the
root. -/
inductive QNode : Type where
  | mk (elems : NodeElements) (total : Nat) (isLeaf : Bool)
       (c0 c1 c2 c3 : Option QNode) : QNode

/-- The fresh leaf node built by `Node(parent)`. -/
def QNode.leaf : QNode := .mk default 0 true none none none none

instance : Inhabited QNode := ⟨QNode.leaf⟩

def QNode.elems : QNode → NodeElements
  | .mk e _ _ _ _ _ _ => e

def QNode.total : QNode → Nat
  | .mk _ t _ _ _ _ _ => t

def QNode.isLeaf : QNode → Bool
  | .mk _ _ l _ _ _ _ => l

def QNode.child : QNode → Fin 4 → Option QNode
  | .mk _ _ _ c0 c1 c2 c3, i =>
    match i with
    | 0 => c0
    | 1 => c1
    | 2 => c2
    | 3 => c3

def QNode.withElems : QNode → NodeElements → QNode
  | .mk _ t l c0 c1 c2 c3, e => .mk e t l c0 c1 c2 c3

def QNode.withTotal : QNode → Nat → QNode
  | .mk e _ l c0 c1 c2 c3, t => .mk e t l c0 c1 c2 c3

def QNode.withLeaf : QNode → Bool → QNode
  | .mk e t _ c0 c1 c2 c3, l => .mk e t l c0 c1 c2 c3

def QNode.setChild : QNode → Fin 4 → Option QNode → QNode
  | .mk e t l c0 c1 c2 c3, i, c =>
    match i with
    | 0 => .mk e t l c c1 c2 c3
    | 1 => .mk e t l c0 c c2 c3
    | 2 => .mk e t l c0 c1 c c3
    | 3 => .mk e t l c0 c1 c2 c

/-- Model of `Quadtree::addElementToNode`, processing a work list of
elements front to back (a singleton list is one `addElementToNode`
call; the split path's re-insertion loop becomes the work list
`iterElems` of the node's previous elements, and the subsequent
insertion of the current element a singleton recursion).  The C++
recursion terminates because child extents shrink below
`m_minNodeExtent`; here a structurally decreasing fuel argument plays
that role and `none` means the fuel ran out. -/
def addListToNode (o : QOpts) (minNodeExtent : Scalar) :
    Nat → List Nat → QNode → NodeBounds → Option QNode
  | _, [], node, _ => some node
  | 0, _ :: _, _, _ => none
  | fuel + 1, elemVal :: rest, node0, nodeBounds =>
    let elemBounds := o.getBounds elemVal
    let node := node0.withTotal (node0.total + 1)
    let one : Option QNode :=
      if node.isLeaf then
        if o.maxElementsPerNode < node.elems.count + 1 ∧
           minNodeExtent < nodeBounds.bounds.ex then
          let elements := node.elems
          let node1 := ((node.withElems default).withLeaf false).withTotal 0
          match addListToNode o minNodeExtent fuel (iterElems o elements) node1 nodeBounds with
          | none => none
          | some node2 => addListToNode o minNodeExtent fuel [elemVal] node2 nodeBounds
        else
          some (node.withElems (node.elems.push o elemVal elemBounds).1)
      else
        match nodeBounds.findContainingChild elemBounds with
        | none => some (node.withElems (node.elems.push o elemVal elemBounds).1)
        | some i =>
          let childNode := (node.child i).getD QNode.leaf
          match addListToNode o minNodeExtent fuel [elemVal] childNode
              (nodeBounds.getChild o i) with
          | none => none
          | some c => some (node.setChild i (some c))
    match one with
    | none => none
    | some node1 => addListToNode o minNodeExtent fuel rest node1 nodeBounds

/-- A single `Quadtree::addElementToNode` call. -/
def addElementToNode (o : QOpts) (minNodeExtent : Scalar) (fuel : Nat) (elemVal : Nat)
    (node : QNode) (nodeBounds : NodeBounds) : Option QNode :=
  addListToNode o minNodeExtent (fuel + 1) [elemVal] node nodeBounds

/-- Model of the `Quadtree` object: root node, root bounds and the
derived minimum node extent. -/
structure QTree where
  root : QNode
  rootBounds : NodeBounds
  minNodeExtent : Scalar

/-- The `Quadtree(center, extent, context)` constructor. -/
def QTree.init (o : QOpts) (cx cy extent : Scalar) : QTree :=
  { root := QNode.leaf,
    rootBounds := NodeBounds.ofRect o ⟨cx, cy, extent, extent⟩,
    minNodeExtent := extent * qpow (chldExtentScl o) o.maxDepth }

/-- Model of `Quadtree::addElement`. -/
def QTree.addElement (o : QOpts) (fuel : Nat) (t : QTree) (v : Nat) : Option QTree :=
  (addElementToNode o t.minNodeExtent fuel v t.root t.rootBounds).map
    (fun r => { t with root := r })

/-- Adds a list of elements in order. -/
def QTree.addElements (o : QOpts) (fuel : Nat) : QTree → List Nat → Option QTree
  | t, [] => some t
  | t, v :: rest => (t.addElement o fuel v).bind (fun t1 => t1.addElements o fuel rest)

/-- The node at a path of child indices. -/
def QNode.nodeAt : QNode → List (Fin 4) → Option QNode
  | n, [] => some n
  | n, i :: rest => (n.child i).bind (fun c => c.nodeAt rest)

/-- Rebuilds the tree with the node at `path` replaced by `f` of it. -/
def QNode.updateAt : QNode → List (Fin 4) → (QNode → Option QNode) → Option QNode
  | n, [], f => f n
  | n, i :: rest, f =>
    match n.child i with
    | none => none
    | some c => (c.updateAt rest f).map (fun c1 => n.setChild i (some c1))

/-- The walk up the parent chain in `Quadtree::removeElement`:
decrements `m_totalNumElements` on the removed element's node and every
ancestor, and reports whether some node on the chain dropped below
`Options::minElementsPerNode` (i.e. whether `nodeToCollapse` is set). -/
def decTotalsAlong (o : QOpts) : QNode → List (Fin 4) → Option (QNode × Bool)
  | n, [] => some (n.withTotal (n.total - 1), decide (n.total - 1 < o.minElementsPerNode))
  | n, i :: rest =>
    match n.child i with
    | none => none
    | some c =>
      match decTotalsAlong o c rest with
      | none => none
      | some (c1, flagged) =>
        some ((n.withTotal (n.total - 1)).setChild i (some c1),
              decide (n.total - 1 < o.minElementsPerNode) || flagged)

/-- The collapse sweep of `Quadtree::removeElement`: a stack of nodes
(`FrameStack<Node*> todo`), popping one node at a time, collecting each
existing child's elements (and bounds) with an `ElementIterator` and
pushing the child to be processed in turn.  Fueled; the `FrameAlloc`
mark/clear bracket around the sweep only manages transient storage. -/
def collectDesc (o : QOpts) : Nat → List QNode → Option (List (Nat × Rect2))
  | _, [] => some []
  | 0, _ :: _ => none
  | fuel + 1, n :: rest =>
    let cs := [n.child 0, n.child 1, n.child 2, n.child 3].filterMap id
    (collectDesc o fuel (cs.reverse ++ rest)).map
      (fun tailPairs => cs.flatMap (fun c => iterPairs o c.elems) ++ tailPairs)

/-- The collapse applied to the node `removeElement` calls `node`: all
descendant elements are pushed into it, it is marked a leaf, and its
child subtrees are destroyed. -/
def collapseNode (o : QOpts) (fuel : Nat) (n : QNode) : Option QNode :=
  (collectDesc o fuel [n]).map
    (fun pairs =>
      QNode.mk (pairs.foldl (fun es p => (es.push o p.1 p.2).1) n.elems)
        n.total true none none none none)

/-- Model of `Quadtree::removeElement` for the id `(path, elementIdx)`.
Pops the element from its node, decrements the counts up the chain, and
if any node on the chain dropped below the minimum, collapses — as the
source does — the node the element was removed from.  `none` models
undefined behaviour on invalid ids (and exhausted sweep fuel). -/
def QTree.removeElement (o : QOpts) (fuel : Nat) (t : QTree) (path : List (Fin 4))
    (elementIdx : Nat) : Option QTree :=
  match t.root.nodeAt path with
  | none => none
  | some n =>
    if n.elems.count ≤ elementIdx then none
    else
      match t.root.updateAt path
          (fun m => some (m.withElems (m.elems.pop o elementIdx).1)) with
      | none => none
      | some root1 =>
        match decTotalsAlong o root1 path with
        | none => none
        | some (root2, flagged) =>
          if flagged then
            (root2.updateAt path (collapseNode o fuel)).map
              (fun r => { t with root := r })
          else
            some { t with root := root2 }

/-- Model of `Quadtree::ElementIterator`: current index, the remaining
group lists (the source's group pointers) and the entry count of the
current group.  The `uint32` expression computing the latter wraps for
an empty node; the wrap is modelled exactly. -/
structure EIState where
  currentIdx : Int
  groups : List (List Nat)
  bgroups : List (List Rect2)
  elemsInGroup : Nat

instance : Inhabited EIState := ⟨⟨-1, [], [], 0⟩⟩

/-- Truncated `uint32` subtraction. -/
def sub32 (a b : Nat) : Nat := (a % 2 ^ 32 + 2 ^ 32 - b % 2 ^ 32) % 2 ^ 32

/-- The `ElementIterator(node)` constructor. -/
def EIState.ofNode (o : QOpts) (n : QNode) : EIState :=
  let numGroups := divideAndRoundUp n.elems.count o.maxElementsPerNode
  { currentIdx := -1,
    groups := n.elems.values,
    bgroups := n.elems.bounds,
    elemsInGroup := sub32 n.elems.count (sub32 numGroups 1 * o.maxElementsPerNode) }

/-- Model of `ElementIterator::moveNext`. -/
def EIState.moveNext (o : QOpts) (ei : EIState) : Bool × EIState :=
  match ei.groups with
  | [] => (false, ei)
  | _ :: gs =>
    let idx := ei.currentIdx + 1
    if idx = (ei.elemsInGroup : Int) then
      let ei1 : EIState :=
        { currentIdx := 0, groups := gs, bgroups := ei.bgroups.tail,
          elemsInGroup := o.maxElementsPerNode }
      match gs with
      | [] => (false, ei1)
      | _ :: _ => (true, ei1)
    else (true, { ei with currentIdx := idx })

/-- `ElementIterator::getCurrentElem`. -/
def EIState.curElem (ei : EIState) : Nat :=
  (ei.groups.headD []).getD ei.currentIdx.toNat 0

/-- `ElementIterator::getCurrentBounds`. -/
def EIState.curBounds (ei : EIState) : Rect2 :=
  (ei.bgroups.headD []).getD ei.currentIdx.toNat default

/-- Model of `Quadtree::BoxIntersectIterator` (which owns a
`NodeIterator` and an `ElementIterator`): the node stack with the top at
the head, the current node handle, the element iterator, and the query
bounds. -/
structure BIState where
  stack : List (QNode × NodeBounds)
  cur : Option (QNode × NodeBounds)
  ei : EIState
  bounds : Rect2

/-- The `BoxIntersectIterator(tree, bounds)` constructor. -/
def BIState.ofTree (t : QTree) (q : Rect2) : BIState :=
  { stack := [(t.root, t.rootBounds)],
    cur := some (t.root, t.rootBounds),
    ei := default,
    bounds := q }

/-- Model of `BoxIntersectIterator::moveNext`.  One fuel unit is spent
per iteration of the source's loops. -/
def biMoveNext (o : QOpts) : Nat → BIState → Option (Bool × BIState)
  | 0, _ => none
  | fuel + 1, st =>
    match st.ei.moveNext o with
    | (true, ei1) =>
      if (ei1.curBounds).overlaps st.bounds then some (true, { st with ei := ei1 })
      else biMoveNext o fuel { st with ei := ei1 }
    | (false, ei1) =>
      match st.stack with
      | [] => some (false, { st with ei := ei1, cur := none })
      | h :: rest =>
        let node := h.1
        let nb := h.2
        let childRange := nb.findIntersectingChildren st.bounds
        let pushes := (List.finRange 4).filter
          (fun i => childRange.containsChild i && (node.child i).isSome)
        let newStack :=
          (pushes.reverse.map (fun i => ((node.child i).getD QNode.leaf, nb.getChild o i)))
            ++ rest
        biMoveNext o fuel
          { st with stack := newStack, cur := some h, ei := EIState.ofNode o node }

/-- Drives `biMoveNext` to exhaustion, collecting `getElement()` after
every successful step: the element sequence produced by a
box-intersection iteration. -/
def biCollect (o : QOpts) : Nat → BIState → Option (List Nat)
  | 0, _ => none
  | fuel + 1, st =>
    match biMoveNext o (fuel + 1) st with
    | none => none
    | some (false, _) => some []
    | some (true, st1) => (biCollect o fuel st1).map (fun l => st1.ei.curElem :: l)

/-- A full box-intersection query over a tree. -/
def QTree.query (o : QOpts) (fuel : Nat) (t : QTree) (q : Rect2) : Option (List Nat) :=
  biCollect o fuel (BIState.ofTree t q)

/-- The one-directional leaf invariant: a node whose `m_isLeaf` flag is
set has no allocated children (recursively, everywhere in the tree). -/
def QNode.leafOk : QNode → Prop
  | .mk _ _ l c0 c1 c2 c3 =>
    (l = true → c0 = none ∧ c1 = none ∧ c2 = none ∧ c3 = none) ∧
    (match c0 with | none => True | some n => n.leafOk) ∧
    (match c1 with | none => True | some n => n.leafOk) ∧
    (match c2 with | none => True | some n => n.leafOk) ∧
    (match c3 with | none => True | some n => n.leafOk)

/-- Trees reachable from a freshly constructed quadtree by any sequence
of successful `addElement` and `removeElement` calls. -/
inductive QTree.Reach (o : QOpts) : QTree → Prop where
  | init : ∀ cx cy ext, QTree.Reach o (QTree.init o cx cy ext)
  | add : ∀ t fuel v t', QTree.Reach o t → t.addElement o fuel v = some t' →
      QTree.Reach o t'
  | remove : ∀ t fuel path idx t', QTree.Reach o t →
      t.removeElement o fuel path idx = some t' → QTree.Reach o t'

/-- All (element, bounds) pairs stored in a subtree, in the order the
box-intersection traversal reaches them (each node's own elements first,
then the subtrees of its children, child 3 first, since pushed child
handles pop in reverse order). -/
def QNode.storedRev (o : QOpts) : QNode → List (Nat × Rect2)
  | .mk e _ _ c0 c1 c2 c3 =>
    iterPairs o e ++
      ((match c3 with | none => [] | some n => n.storedRev o) ++
       ((match c2 with | none => [] | some n => n.storedRev o) ++
        ((match c1 with | none => [] | some n => n.storedRev o) ++
         (match c0 with | none => [] | some n => n.storedRev o))))

/-- Weight of a subtree: one per node plus its stored elements.  Upper
bound scaffold for iteration fuel. -/
def QNode.wt (o : QOpts) : QNode → Nat
  | .mk e _ _ c0 c1 c2 c3 =>
    1 + (iterPairs o e).length +
      ((match c0 with | none => 0 | some n => n.wt o) +
       ((match c1 with | none => 0 | some n => n.wt o) +
        ((match c2 with | none => 0 | some n => n.wt o) +
         (match c3 with | none => 0 | some n => n.wt o))))

/-- The elements the element iterator has not yet yielded, with their
bounds. -/
def eiPend (o : QOpts) (ei : EIState) : List (Nat × Rect2) :=
  match ei.groups, ei.bgroups with
  | g :: gs, b :: bs =>
    ((g.take ei.elemsInGroup).zip (b.take ei.elemsInGroup)).drop (ei.currentIdx + 1).toNat ++
      (gs.zip bs).flatMap
        (fun p => (p.1.take o.maxElementsPerNode).zip (p.2.take o.maxElementsPerNode))
  | _, _ => []

/-- Well-formed element storage: group counts match the element count,
every group has the configured capacity, and the count fits in the
`uint32` the iterator computes with. -/
def NodeElements.WF (o : QOpts) (es : NodeElements) : Prop :=
  es.values.length = divideAndRoundUp es.count o.maxElementsPerNode ∧
  es.bounds.length = es.values.length ∧
  (∀ g ∈ es.values, g.length = o.maxElementsPerNode) ∧
  (∀ b ∈ es.bounds, b.length = o.maxElementsPerNode) ∧
  es.count < 2 ^ 32

/-- Well-formed nodes: storage is well-formed, recursively. -/
def QNode.WF (o : QOpts) : QNode → Prop
  | .mk e _ _ c0 c1 c2 c3 =>
    e.WF o ∧
    (match c0 with | none => True | some n => n.WF o) ∧
    (match c1 with | none => True | some n => n.WF o) ∧
    (match c2 with | none => True | some n => n.WF o) ∧
    (match c3 with | none => True | some n => n.WF o)

/-- Node bounds handles as they are actually derived: square bounds of
positive extent with the child extent and offset of the constructor. -/
def NBWf (o : QOpts) (nb : NodeBounds) : Prop :=
  nb = NodeBounds.ofRect o nb.bounds ∧ nb.bounds.ey = nb.bounds.ex ∧ 0 < nb.bounds.ex

/-- `q` encompasses the rectangle `r`. -/
def covers (q r : Rect2) : Prop :=
  q.cx - q.ex ≤ r.cx - r.ex ∧ r.cx + r.ex ≤ q.cx + q.ex ∧
  q.cy - q.ey ≤ r.cy - r.ey ∧ r.cy + r.ey ≤ q.cy + q.ey

/-- All four components have positive denominators. -/
def Rect2.pdens (r : Rect2) : Prop :=
  r.cx.pden ∧ r.cy.pden ∧ r.ex.pden ∧ r.ey.pden

/-- Sane tuning options: nonempty groups and a loose padding that is a
genuine factor `≥ 1` (the source's `loosePadding` is such a constant). -/
def QOpts.sane (o : QOpts) : Prop :=
  0 < o.maxElementsPerNode ∧ o.loosePadding.pden ∧ (1 : Scalar) ≤ o.loosePadding

/-- A node-bounds handle fit for a full-cover traversal of query `q`:
well formed, encompassed by `q`, with positive denominators. -/
def GoodNB (o : QOpts) (q : Rect2) (nb : NodeBounds) : Prop :=
  NBWf o nb ∧ covers q nb.bounds ∧
  nb.bounds.cx.pden ∧ nb.bounds.cy.pden ∧ nb.bounds.ex.pden

/-- Every stored pair carries the bounds the element policy computes
for its element (insertion stores `Options::getBounds` verbatim). -/
def BdOk (o : QOpts) (n : QNode) : Prop :=
  ∀ pr ∈ n.storedRev o, pr.2 = o.getBounds pr.1

/-- The stored pairs under an optional child handle. -/
def optStored (o : QOpts) : Option QNode → List (Nat × Rect2)
  | none => []
  | some n => n.storedRev o

/-- Well-formedness of an optional child handle. -/
def optWF (o : QOpts) : Option QNode → Prop
  | none => True
  | some n => n.WF o

/-- The weight of an optional child handle. -/
def optWt (o : QOpts) : Option QNode → Nat
  | none => 0
  | some n => n.wt o

/-- Consistency of an element-iterator state: bounds groups mirror the
value groups, every group has the configured capacity, and the cursor
sits inside the tracked extent of the current group. -/
def EIInv (o : QOpts) (ei : EIState) : Prop :=
  ei.bgroups.length = ei.groups.length ∧
  (∀ g ∈ ei.groups, g.length = o.maxElementsPerNode) ∧
  (∀ b ∈ ei.bgroups, b.length = o.maxElementsPerNode) ∧
  (ei.groups ≠ [] →
    ei.elemsInGroup ≤ o.maxElementsPerNode ∧ 0 < ei.elemsInGroup ∧
    -1 ≤ ei.currentIdx ∧ ei.currentIdx < (ei.elemsInGroup : Int))

/-- The pairs a box-intersection iterator has not yet considered: the
rest of the current node's elements, then everything stored under the
stacked nodes. -/
def pendAll (o : QOpts) (st : BIState) : List (Nat × Rect2) :=
  eiPend o st.ei ++ st.stack.flatMap (fun h => h.1.storedRev o)

/-- Invariant of the box-intersection traversal: every stacked node is
well formed and its bounds handle is good for the query. -/
def SInv (o : QOpts) (st : BIState) : Prop :=
  ∀ h ∈ st.stack, h.1.WF o ∧ GoodNB o st.bounds h.2

/-- Loop measure of the traversal: pending elements of the current node
plus the weights of the stacked subtrees. -/
def msr (o : QOpts) (st : BIState) : Nat :=
  (eiPend o st.ei).length + (st.stack.map (fun h => h.1.wt o)).sum

/-- Tuning policy for the collapse scenario: at most 2 elements per
node, collapse below 2; element 1 at (50, 50), element 2 at (52, 52)
(both inside child quadrant 3), element 3 at (-50, -50) (child
quadrant 0), all of half-size 1. -/
def optsCollapse : QOpts :=
  ⟨16, 2, 2, 4, fun v =>
    if v = 1 then ⟨50, 50, 1, 1⟩
    else if v = 2 then ⟨52, 52, 1, 1⟩
    else ⟨-50, -50, 1, 1⟩⟩

/-- The tree of the collapse scenario after inserting elements 1, 2, 3:
the third insert splits the root; elements 1, 2 end up in child 3 and
element 3 in child 0. -/
def treeCollapse : Option QTree := (QTree.init optsCollapse 0 0 100).addElements optsCollapse 20 [1, 2, 3]

/-- Tuning policy for the swap-id scenario: groups of 4 elements,
bounds irrelevant. -/
def optsSwap : QOpts := ⟨16, 1, 4, 4, fun _ => ⟨0, 0, 1, 1⟩⟩

/-- A node storage holding elements 0..5 (two groups: the newest group
holds 4, 5; the older, full group holds 0, 1, 2, 3). -/
def esSix : NodeElements :=
  (List.range 6).foldl (fun es v => (es.push optsSwap v default).1) default

/-- Tuning policy for the straddling scenario: at most 2 per node,
every element centered on the origin with half-size 10, so no element
ever fits a child quadrant. -/
def optsStraddle : QOpts := ⟨16, 1, 2, 4, fun _ => ⟨0, 0, 10, 10⟩⟩

/-- Tuning policy whose single element lies at (300, 0), outside a tree
of extent 100 centered on the origin. -/
def optsOutside : QOpts := ⟨16, 1, 2, 4, fun _ => ⟨300, 0, 1, 1⟩⟩

end Quadtree

/-- The stack-allocator trace for the LIFO claim: capacity 1024, four
allocations of 508, 512, 492 and 8 bytes (with the 8-byte header:
516 in block 0; 520 spills to block 1; 500 fits block 1; 16 spills to
block 2), then the same pointers deallocated in exact reverse order. -/
def MemStack.lifoTrace : MemStack.StackState × List Nat :=
  (MemStack.StackState.init 1024 4096).runAllocs [508, 512, 492, 8]

end GeUtil

/-! ## Theorems -/

namespace GeUtil

namespace Quadtree

/-- Claim C2 (code bug), failing input: a node holding six elements
with `maxElementsPerNode = 4`.  `popElement` at global index 4 swaps in
the last element (5) and — because the source passes the index already
mapped through `mapToGroup` — tells it via `setElementId` that its new
id has index 0, although its global index is 4.  A subsequent
`popElement` with the id it was given removes element 0 instead of
element 5; the id with index 4 would have removed it. -/
theorem popElement_swapped_id_group_local :
    (esSix.pop optsSwap 4).2.1 = [(5, 0)] ∧
    (esSix.pop optsSwap 4).2.2 = 4 ∧
    ((esSix.pop optsSwap 4).1.pop optsSwap 0).2.2 = 0 ∧
    ((esSix.pop optsSwap 4).1.pop optsSwap 4).2.2 = 5 := by
  decide

/-- Claim C1 (code bug), failing input: in `treeCollapse`, remove
element 3 (id: child 0, index 0; only its own node drops below the
minimum), then element 1 (id: child 3, index 0).  The second removal
drops the root's count to 1 < `minElementsPerNode = 2`, so the root is
the shallowest flagged ancestor (`nodeToCollapse`); the source
nevertheless sweeps and collapses only `node` — the leaf the element
was removed from — so afterwards the root is still internal, both child
nodes are still allocated, and element 2 still sits in child 3 instead
of having been absorbed into the root. -/
theorem removeElement_collapses_removal_node_not_ancestor :
    ((treeCollapse.bind (fun t => t.removeElement optsCollapse 20 [0] 0)).bind
        (fun t => t.removeElement optsCollapse 20 [3] 0)).map
      (fun t => (t.root.isLeaf, t.root.total, (t.root.child 0).isSome,
                 (t.root.child 3).isSome,
                 (t.root.nodeAt [3]).map (fun n => iterElems optsCollapse n.elems))) =
      some (false, 1, true, true, some [2]) := by
  decide

/-- Claim C3, counterexample to the stated equivalence: inserting three
elements that all straddle the root's center (max 2 per node) splits
the root — `m_isLeaf` becomes false — but every re-inserted element
stays at the root, so no child is ever allocated: a node with
`m_isLeaf = false` and four null children. -/
theorem internal_node_without_children :
    ((QTree.init optsStraddle 0 0 100).addElements optsStraddle 20 [1, 2, 3]).map
      (fun t => (t.root.isLeaf, (t.root.child 0).isSome, (t.root.child 1).isSome,
                 (t.root.child 2).isSome, (t.root.child 3).isSome,
                 t.root.elems.count)) =
      some (false, false, false, false, false, 3) := by
  decide

/-- Claim C7, counterexample: one element inserted with bounds centered
at (300, 0) — insertion does not clip to the tree extent — is stored at
the root, but a query over the full tree extent (center (0, 0), extent
100) yields nothing, because the element's bounds do not overlap the
query rectangle. -/
theorem query_misses_outside_element :
    (((QTree.init optsOutside 0 0 100).addElement optsOutside 20 5).bind
        (fun t => t.query optsOutside 50 ⟨0, 0, 100, 100⟩)) = some [] ∧
    ((QTree.init optsOutside 0 0 100).addElement optsOutside 20 5).map
        (fun t => iterElems optsOutside t.root.elems) = some [5] := by
  decide

end Quadtree

namespace MemStack

/-- Claim C5 (code bug), failing input: the `lifoTrace` allocations
followed by deallocation in exact reverse order.  Deallocating the
second allocation drains block 1, which still has block 2 linked after
it, so the two get merged into a fresh block that also becomes
`m_freeBlock`; the final deallocation (of the first allocation, living
in block 0) then rewinds the fresh empty block's `m_freePtr` below
zero and the out-of-order assertion fires even though the order was
exactly LIFO. -/
theorem lifo_dealloc_assert_fires :
    lifoTrace.2 = [4104, 20744, 21264, 37384] ∧
    (lifoTrace.1.runDeallocs lifoTrace.2.reverse).assertOk = false ∧
    ((((MemStack.StackState.init 1024 4096).runAllocs [100, 100, 100]).1.runDeallocs
        (((MemStack.StackState.init 1024 4096).runAllocs [100, 100, 100]).2.reverse)).assertOk
      = true) := by
  decide

end MemStack

namespace FrameAlloc

/-- Claim C8, counterexample: blocks are only guaranteed to start on a
16-byte boundary.  With a block base of 32 in a release build (the
padding `alignment - 16` lands at offset 16 of the fresh block), and a
base of 48 in a debug build, `allocAligned(8, 32)` returns an address
≡ 16 (mod 32) — not a multiple of the requested power-of-two
alignment 32. -/
theorem allocAligned_32_misaligned :
    ((State.init false 1024 32).allocAligned 8 32).2.addr % 32 = 16 ∧
    ((State.init true 1024 48).allocAligned 8 32).2.addr % 32 = 16 := by
  decide

theorem foldl_add_sizes (l : List MemBlock) (n : Nat) :
    l.foldl (fun a b => a + b.size) n = n + (l.map (·.size)).sum := by
  induction l generalizing n with
  | nil => simp
  | cons b t ih => simp only [List.foldl_cons, ih, List.map_cons, List.sum_cons]; omega

/-- Claim C9: `FrameAlloc::free` never reclaims memory: it leaves the
block pool, every free offset, the next-block index, the current block
and the checkpoint chain unchanged.  In a debug build it only
subtracts the allocation's stored size word from the cumulative byte
counter; in a release build it is a no-op. -/
theorem free_frame_effect (s : State) (p : Ptr) (a : Nat)
    (h : s.dbg = true → s.headers.lookup (p.addr - szWord) = some a) :
    (s.free p).blocks = s.blocks ∧
    (s.free p).offsets = s.offsets ∧
    (s.free p).nextBlockIdx = s.nextBlockIdx ∧
    (s.free p).freeBlock = s.freeBlock ∧
    (s.free p).lastFrame = s.lastFrame ∧
    (s.free p).headers = s.headers ∧
    (s.dbg = true → (s.free p).totalAllocBytes = s.totalAllocBytes - a) ∧
    (s.dbg = false → s.free p = s) := by
  cases hd : s.dbg with
  | false => simp [State.free, State.offsets, hd]
  | true => simp [State.free, State.offsets, hd, h hd]

/-- Witness for `free_frame_effect` at a concrete debug-mode state with
one 16-byte allocation recorded at address 100. -/
theorem free_frame_effect_witness :
    ((⟨true, 1024, [], 0, none, 16, [], [(100, 16)], 0, 0⟩ : State).free
        ⟨0, 100, 108⟩).totalAllocBytes = 0 ∧
    ((⟨true, 1024, [], 0, none, 16, [], [(100, 16)], 0, 0⟩ : State).free
        ⟨0, 100, 108⟩).blocks = [] := by
  have h := free_frame_effect (⟨true, 1024, [], 0, none, 16, [], [(100, 16)], 0, 0⟩ : State)
    ⟨0, 100, 108⟩ 16 (fun _ => by decide)
  constructor
  · rw [h.2.2.2.2.2.2.1 rfl]; decide
  · rw [h.1]

/-- Claim C6: `FrameAlloc::clear` with no outstanding checkpoint.  In a
debug build it first checks that the cumulative allocated byte count is
zero and raises otherwise; then, if more than one block is owned, all
blocks are replaced by one block of their combined capacity (and zero
offset), while a sole block merely has its free offset reset to 0. -/
theorem clear_noMark_spec (s : State) (hm : s.lastFrame = [])
    (hsz : ∀ b ∈ s.blocks, s.blockSize ≤ b.size) :
    (s.dbg = true → 0 < s.totalAllocBytes → s.clear = none) ∧
    ((s.dbg = true → s.totalAllocBytes ≤ 0) → 1 < s.blocks.length →
      ∃ s', s.clear = some s' ∧ s'.blocks.length = 1 ∧
        (s'.blocks.getD 0 default).size = (s.blocks.map (·.size)).sum ∧
        (s'.blocks.getD 0 default).freePtr = 0) ∧
    (∀ b, s.blocks = [b] → (s.dbg = true → s.totalAllocBytes ≤ 0) →
      s.clear = some { s with blocks := [{ b with freePtr := 0 }] }) := by
  refine ⟨fun hd ht => ?_, fun hd hlen => ?_, fun b hb hd => ?_⟩
  · simp [State.clear, hm, hd, ht]
  · have hcond : ¬(s.dbg = true ∧ 0 < s.totalAllocBytes) := by
      rintro ⟨h1, h2⟩; exact absurd (hd h1) (by omega)
    have hsum : s.blockSize ≤ (s.blocks.map (·.size)).sum := by
      match hb : s.blocks, hlen with
      | b :: rest, _ =>
        calc s.blockSize ≤ b.size := hsz b (by rw [hb]; exact List.mem_cons_self b rest)
        _ ≤ ((b :: rest).map (·.size)).sum := by
            simp only [List.map_cons, List.sum_cons]; omega
    have hclear : s.clear = some (({ s with blocks := [], nextBlockIdx := 0 } : State).allocBlock
        (s.blocks.foldl (fun a b => a + b.size) 0)) := by
      simp only [State.clear, hm]
      rw [if_neg (by simpa using hcond), if_pos hlen]
    refine ⟨_, hclear, ?_, ?_, ?_⟩
    · simp [State.allocBlock]
    · simp [State.allocBlock, foldl_add_sizes, Nat.max_eq_right hsum]
    · simp [State.allocBlock]
  · have hcond : ¬(s.dbg = true ∧ 0 < s.totalAllocBytes) := by
      rintro ⟨h1, h2⟩; exact absurd (hd h1) (by omega)
    simp only [State.clear, hm, hb]
    rw [if_neg (by simpa using hcond), if_neg (by simp)]

/-- Witness for `clear_noMark_spec`: a release-mode allocator owning two
blocks of sizes 2048 and 1024 merges them into one empty block of size
3072; a debug-mode allocator with one partially used block and leaked
bytes raises; a sole block is reset in place. -/
theorem clear_noMark_spec_witness :
    (∃ s', ({ State.init false 1024 0 with
        blocks := [⟨0, 0, 2048, 100⟩, ⟨1, 4096, 1024, 50⟩],
        nextBlockIdx := 2, freeBlock := some 1, nextId := 2 }).clear = some s' ∧
      s'.blocks.length = 1 ∧ (s'.blocks.getD 0 default).size = 3072 ∧
      (s'.blocks.getD 0 default).freePtr = 0) ∧
    ({ State.init true 1024 0 with
        blocks := [⟨0, 0, 2048, 100⟩], nextBlockIdx := 1, freeBlock := some 0,
        totalAllocBytes := 84, nextId := 1 }).clear = none ∧
    ({ State.init false 1024 0 with
        blocks := [⟨0, 0, 2048, 100⟩], nextBlockIdx := 1, freeBlock := some 0,
        nextId := 1 }).clear = some { State.init false 1024 0 with
        blocks := [⟨0, 0, 2048, 0⟩], nextBlockIdx := 1, freeBlock := some 0,
        nextId := 1 } := by
  refine ⟨?_, ?_, ?_⟩
  · have h := (clear_noMark_spec ({ State.init false 1024 0 with
        blocks := [⟨0, 0, 2048, 100⟩, ⟨1, 4096, 1024, 50⟩],
        nextBlockIdx := 2, freeBlock := some 1, nextId := 2 }) rfl
        (by intro b hb; fin_cases hb <;> decide)).2.1
        (by intro hd; cases hd) (by decide)
    simpa using h
  · exact (clear_noMark_spec _ rfl (by intro b hb; fin_cases hb; decide)).1 rfl
      (by decide)
  · have h := (clear_noMark_spec ({ State.init false 1024 0 with
        blocks := [⟨0, 0, 2048, 100⟩], nextBlockIdx := 1, freeBlock := some 0,
        nextId := 1 }) rfl (by intro b hb; fin_cases hb; decide)).2.2
        ⟨0, 0, 2048, 100⟩ rfl (by intro hd; cases hd)
    simpa using h

theorem land_mask_of_dvd (y a : Nat) (ha : a ∣ 16) (ha0 : 0 < a) :
    y &&& (a - 1) = y % a := by
  have h16 : a ≤ 16 := Nat.le_of_dvd (by norm_num) ha
  have hcases : a = 1 ∨ a = 2 ∨ a = 4 ∨ a = 8 ∨ a = 16 := by
    interval_cases a <;> revert ha <;> decide
  rcases hcases with rfl | rfl | rfl | rfl | rfl
  · exact Nat.and_pow_two_sub_one_eq_mod y 0
  · exact Nat.and_pow_two_sub_one_eq_mod y 1
  · exact Nat.and_pow_two_sub_one_eq_mod y 2
  · exact Nat.and_pow_two_sub_one_eq_mod y 3
  · exact Nat.and_pow_two_sub_one_eq_mod y 4

/-- The padding computed by `allocAligned` makes `x` a multiple of the
alignment, for the power-of-two alignments up to the 16-byte block
alignment. -/
theorem alignPad_mod (a x : Nat) (ha : a ∣ 16) (ha0 : 0 < a) :
    (x + ((a - (x &&& (a - 1))) &&& (a - 1))) % a = 0 := by
  rw [land_mask_of_dvd x a ha ha0, land_mask_of_dvd _ a ha ha0]
  have h1 : x % a < a := Nat.mod_lt x ha0
  by_cases h : x % a = 0
  · rw [h, Nat.sub_zero, Nat.mod_self, Nat.add_zero, h]
  · have hlt : a - x % a < a := by omega
    rw [Nat.mod_eq_of_lt hlt]
    have hxle : x % a ≤ x := Nat.mod_le x a
    have hdm := Nat.div_add_mod x a
    have hrw : x + (a - x % a) = a * (x / a) + a := by omega
    rw [hrw, Nat.add_mod_right, Nat.mul_mod_right]

/-- Where `allocBlock` leaves the pool: the chosen block sits at the old
`m_nextBlockIdx`, is empty, and has a 16-byte aligned base. -/
theorem allocBlock_spec (s : State) (w : Nat) (hidx : s.nextBlockIdx ≤ s.blocks.length)
    (hempty : ∀ b ∈ s.blocks.drop s.nextBlockIdx, b.freePtr = 0)
    (hbase : ∀ b ∈ s.blocks, 16 ∣ b.base) (hnb : 16 ∣ s.nextBase) :
    (s.allocBlock w).freeBlock = some s.nextBlockIdx ∧
    ((s.allocBlock w).blocks.getD s.nextBlockIdx default).freePtr = 0 ∧
    16 ∣ ((s.allocBlock w).blocks.getD s.nextBlockIdx default).base := by
  have hlen : (s.blocks.take s.nextBlockIdx).length = s.nextBlockIdx :=
    List.length_take_of_le hidx
  simp only [State.allocBlock]
  split
  next hdw =>
    refine ⟨rfl, ?_, ?_⟩ <;>
      (rw [List.getD_append_right _ _ _ _ (by omega)]; simp [hlen, hnb])
  next b rest hdw =>
    have hbmem : b ∈ s.blocks.drop s.nextBlockIdx := by
      have hsub : List.Sublist ((s.blocks.drop s.nextBlockIdx).dropWhile
          (fun b => decide (b.size < max s.blockSize w)))
          (s.blocks.drop s.nextBlockIdx) := List.dropWhile_sublist _
      rw [hdw] at hsub
      exact hsub.mem (List.mem_cons_self b rest)
    have hgd : ((s.blocks.take s.nextBlockIdx ++ b :: rest).getD s.nextBlockIdx default) = b := by
      rw [List.getD_append_right _ _ _ _ (by omega)]
      simp [hlen]
    refine ⟨rfl, ?_, ?_⟩ <;> rw [hdw] <;> simp only [hgd]
    · exact hempty b hbmem
    · exact hbase b ((List.drop_sublist _ _).mem hbmem)

/-- Claim C8 as amended: for every allocation size `n > 0` and every
power-of-two alignment dividing the 16-byte block alignment, the
address returned by `allocAligned` is a multiple of the alignment, in
debug and release builds alike, on every well-formed state whose block
bases respect the 16-byte guarantee of `ge_alloc_aligned16`. -/
theorem mul_mod_helper (a k F AO H : Nat) (h : (F + H + AO) % a = 0) :
    (a * k + F + AO + H) % a = 0 := by
  rw [show a * k + F + AO + H = a * k + (F + H + AO) from by omega, Nat.mul_add_mod, h]

theorem allocAligned_aligned_of_dvd_16 (s : State) (n a : Nat)
    (ha : a ∣ 16) (ha0 : 0 < a) (hn : 0 < n)
    (hidx : s.nextBlockIdx ≤ s.blocks.length)
    (hempty : ∀ b ∈ s.blocks.drop s.nextBlockIdx, b.freePtr = 0)
    (hbase : ∀ b ∈ s.blocks, 16 ∣ b.base) (hnb : 16 ∣ s.nextBase) :
    ((s.allocAligned n a).2.addr) % a = 0 := by
  have ha16 : a ≤ 16 := Nat.le_of_dvd (by norm_num) ha
  have h16n : ¬ (16 < a) := by omega
  have hpad : ∀ x : Nat, (x + ((a - (x &&& (a - 1))) &&& (a - 1))) % a = 0 :=
    fun x => alignPad_mod a x ha ha0
  have habl := fun w => allocBlock_spec s w hidx hempty hbase hnb
  unfold State.allocAligned
  rcases hfb : s.freeBlock with _ | f
  · -- null m_freeBlock: the request must grow (n > 0)
    simp only [hfb]
    have hg : (0 : Nat) < n + s.hdr + ((a - (0 &&& (a - 1))) &&& (a - 1)) := by omega
    rw [if_pos hg, if_pos hg]
    obtain ⟨h1, h2, h3⟩ := habl _
    rw [h1]
    simp only [Option.getD_some, h2]
    obtain ⟨k, hk⟩ := dvd_trans ha h3
    rw [hk]
    cases hdb : s.dbg with
    | true =>
      rw [if_pos rfl, show s.hdr = szWord from by simp [State.hdr, hdb]]
      exact mul_mod_helper a k 0 _ szWord (by simpa using hpad szWord)
    | false =>
      rw [if_neg (by decide), if_neg h16n,
        show s.hdr = 0 from by simp [State.hdr, hdb]]
      exact mul_mod_helper a k 0 0 0 (by simp)
  · -- current block exists
    simp only [hfb]
    by_cases hg : (s.blocks.getD f default).size - (s.blocks.getD f default).freePtr <
        n + s.hdr +
        ((a - (((s.blocks.getD f default).freePtr + s.hdr) &&& (a - 1))) &&& (a - 1))
    · rw [if_pos hg, if_pos hg]
      obtain ⟨h1, h2, h3⟩ := habl _
      rw [h1]
      simp only [Option.getD_some, h2]
      obtain ⟨k, hk⟩ := dvd_trans ha h3
      rw [hk]
      cases hdb : s.dbg with
      | true =>
        rw [if_pos rfl, show s.hdr = szWord from by simp [State.hdr, hdb]]
        exact mul_mod_helper a k 0 _ szWord (by simpa using hpad szWord)
      | false =>
        rw [if_neg (by decide), if_neg h16n,
          show s.hdr = 0 from by simp [State.hdr, hdb]]
        exact mul_mod_helper a k 0 0 0 (by simp)
    · rw [if_neg hg, if_neg hg]
      simp only [hfb, Option.getD_some]
      have hdvd : 16 ∣ (s.blocks.getD f default).base := by
        by_cases hf : f < s.blocks.length
        · rw [List.getD_eq_getElem s.blocks default hf]
          exact hbase _ (List.getElem_mem hf)
        · rw [List.getD_eq_default s.blocks default (by omega)]
          exact Dvd.intro 0 rfl
      obtain ⟨k, hk⟩ := dvd_trans ha hdvd
      rw [hk]
      exact mul_mod_helper a k _ _ s.hdr (hpad _)

/-- Witness for `allocAligned_aligned_of_dvd_16`: 16-byte alignment on
fresh release- and debug-mode allocators with 16-byte aligned block
bases. -/
theorem allocAligned_aligned_witness :
    ((State.init false 1024 32).allocAligned 8 16).2.addr % 16 = 0 ∧
    ((State.init true 1024 48).allocAligned 8 16).2.addr % 16 = 0 := by
  constructor
  · exact allocAligned_aligned_of_dvd_16 (State.init false 1024 32) 8 16
      (by decide) (by decide) (by decide) (by decide)
      (by intro b hb; simp [State.init] at hb) (by intro b hb; simp [State.init] at hb)
      (by decide)
  · exact allocAligned_aligned_of_dvd_16 (State.init true 1024 48) 8 16
      (by decide) (by decide) (by decide) (by decide)
      (by intro b hb; simp [State.init] at hb) (by intro b hb; simp [State.init] at hb)
      (by decide)

/-! ### Toolkit for the mark/clear round-trip (C4) -/

theorem WF_iff (s : State) : s.WF ↔
    (s.nextBlockIdx ≤ s.blocks.length ∧
     (∀ b ∈ s.blocks, b.freePtr ≤ b.size) ∧
     (∀ b ∈ s.blocks, b.id < s.nextId) ∧
     (s.blocks.map (·.id)).Nodup ∧
     (match s.freeBlock with
      | some f => f < s.nextBlockIdx ∧
          ∀ i, f < i → i < s.blocks.length → (s.blocks.getD i default).freePtr = 0
      | none => s.blocks = [] ∧ s.nextBlockIdx = 0)) := Iff.rfl

theorem MarkInv_iff (s : State) (p : Ptr) (k F : Nat) (base : List Nat) :
    s.MarkInv p k F base ↔
    (s.WF ∧
     k < s.nextBlockIdx ∧
     (∃ fb, s.freeBlock = some fb ∧ k ≤ fb) ∧
     (s.blocks.getD k default).id = p.bid ∧
     p.off = F + s.hdr ∧
     F + szWord + s.hdr ≤ (s.blocks.getD k default).freePtr ∧
     padEq base (s.offsets.take k ++ [F])) := Iff.rfl

theorem hdr_eq_of_dbg {s t : State} (h : t.dbg = s.dbg) : t.hdr = s.hdr := by
  unfold State.hdr
  rw [h]

theorem getD_set_self {α : Type} (d : α) (l : List α) (i : Nat) (b : α)
    (h : i < l.length) : (l.set i b).getD i d = b := by
  rw [List.getD_eq_getElem _ _ (by simpa using h)]
  exact List.getElem_set_self _

theorem getD_set_ne {α : Type} (d : α) (l : List α) (i j : Nat) (b : α)
    (h : i ≠ j) : (l.set i b).getD j d = l.getD j d := by
  by_cases hj : j < l.length
  · rw [List.getD_eq_getElem _ _ (by simpa using hj), List.getD_eq_getElem _ _ hj]
    exact List.getElem_set_ne h _
  · rw [List.getD_eq_default _ _ (by simpa using le_of_not_lt hj),
        List.getD_eq_default _ _ (le_of_not_lt hj)]

theorem getD_take_lt {α : Type} (d : α) (l : List α) (n j : Nat) (h : j < n) :
    (l.take n).getD j d = l.getD j d := by
  rw [List.getD_eq_getElem?_getD, List.getD_eq_getElem?_getD, List.getElem?_take, if_pos h]

theorem listEq_of_getD {α : Type} (d : α) (l₁ l₂ : List α) (hlen : l₁.length = l₂.length)
    (h : ∀ j, j < l₁.length → l₁.getD j d = l₂.getD j d) : l₁ = l₂ := by
  apply List.ext_getElem hlen
  intro j h1 h2
  have hj := h j h1
  rwa [List.getD_eq_getElem _ _ h1, List.getD_eq_getElem _ _ h2] at hj

theorem take_eq_of_getD {α : Type} (d : α) (l₁ l₂ : List α) (n : Nat)
    (h1 : n ≤ l₁.length) (h2 : n ≤ l₂.length)
    (h : ∀ j, j < n → l₁.getD j d = l₂.getD j d) : l₁.take n = l₂.take n := by
  apply listEq_of_getD d
  · rw [List.length_take, List.length_take]
    omega
  · intro j hj
    rw [List.length_take] at hj
    have hjn : j < n := by omega
    rw [getD_take_lt d _ _ _ hjn, getD_take_lt d _ _ _ hjn]
    exact h j hjn

theorem drop_eq_of_getD {α : Type} (d : α) (l₁ l₂ : List α) (n : Nat)
    (hlen : l₁.length = l₂.length)
    (h : ∀ j, n ≤ j → j < l₁.length → l₁.getD j d = l₂.getD j d) :
    l₁.drop n = l₂.drop n := by
  apply listEq_of_getD d
  · rw [List.length_drop, List.length_drop, hlen]
  · intro j hj
    rw [List.length_drop] at hj
    have hb1 : n + j < l₁.length := by omega
    have hb2 : n + j < l₂.length := by omega
    rw [List.getD_eq_getElem _ _ (by rw [List.length_drop]; omega),
        List.getD_eq_getElem _ _ (by rw [List.length_drop]; omega),
        List.getElem_drop, List.getElem_drop]
    have hx := h (n + j) (by omega) hb1
    rwa [List.getD_eq_getElem _ _ hb1, List.getD_eq_getElem _ _ hb2] at hx

theorem getD_of_take_eq {α : Type} (d : α) (l₁ l₂ : List α) (n j : Nat)
    (h : l₁.take n = l₂.take n) (hj : j < n) : l₁.getD j d = l₂.getD j d := by
  rw [← getD_take_lt d l₁ n j hj, ← getD_take_lt d l₂ n j hj, h]

theorem offsets_length (s : State) : s.offsets.length = s.blocks.length := by
  simp [State.offsets]

theorem offsets_getD (s : State) (j : Nat) :
    s.offsets.getD j 0 = (s.blocks.getD j default).freePtr := by
  by_cases hj : j < s.blocks.length
  · rw [List.getD_eq_getElem _ _ (by simpa [State.offsets] using hj),
        List.getD_eq_getElem _ _ hj]
    simp [State.offsets]
  · rw [List.getD_eq_default _ _ (by simpa [State.offsets] using le_of_not_lt hj),
        List.getD_eq_default _ _ (le_of_not_lt hj)]
    rfl

theorem nodup_id_getD_ne (l : List MemBlock) (h : (l.map (·.id)).Nodup) (i j : Nat)
    (hi : i < l.length) (hj : j < l.length) (hij : i ≠ j) :
    (l.getD i default).id ≠ (l.getD j default).id := by
  intro he
  rw [List.getD_eq_getElem _ _ hi, List.getD_eq_getElem _ _ hj] at he
  have h1 : (l.map (·.id)).get ⟨i, by simpa using hi⟩ =
      (l.map (·.id)).get ⟨j, by simpa using hj⟩ := by
    rw [List.get_eq_getElem, List.get_eq_getElem, List.getElem_map, List.getElem_map]
    exact he
  rw [List.get_eq_getElem, List.get_eq_getElem] at h1
  exact hij (h.getElem_inj_iff.1 h1)

theorem forall_mem_of_getD {P : MemBlock → Prop} (l : List MemBlock)
    (h : ∀ j, j < l.length → P (l.getD j default)) : ∀ b ∈ l, P b := by
  intro b hb
  obtain ⟨i, hi, he⟩ := List.mem_iff_getElem.1 hb
  rw [← he, ← List.getD_eq_getElem l default hi]
  exact h i hi

theorem mapId_eq_of_getD (l₁ l₂ : List MemBlock) (hlen : l₁.length = l₂.length)
    (h : ∀ j, j < l₁.length → (l₁.getD j default).id = (l₂.getD j default).id) :
    l₁.map (·.id) = l₂.map (·.id) := by
  apply listEq_of_getD 0
  · simp [hlen]
  · intro j hj
    simp only [List.length_map] at hj
    rw [List.getD_eq_getElem _ _ (by simpa using hj),
        List.getD_eq_getElem _ _ (by rw [List.length_map, ← hlen]; exact hj),
        List.getElem_map, List.getElem_map]
    have hx := h j hj
    rwa [List.getD_eq_getElem _ _ hj, List.getD_eq_getElem _ _ (by omega)] at hx

theorem padEq_refl (a : List Nat) : padEq a a := ⟨0, 0, rfl⟩

theorem padEq_symm {a b : List Nat} (h : padEq a b) : padEq b a := by
  obtain ⟨n, m, e⟩ := h
  exact ⟨m, n, e.symm⟩

theorem padEq_trans {a b c : List Nat} (h1 : padEq a b) (h2 : padEq b c) : padEq a c := by
  obtain ⟨n, m, e1⟩ := h1
  obtain ⟨p, q, e2⟩ := h2
  refine ⟨n + p, q + m, ?_⟩
  rw [List.replicate_add, ← List.append_assoc, e1, List.append_assoc,
      ← List.replicate_add, show m + p = p + m from Nat.add_comm m p, List.replicate_add,
      ← List.append_assoc, e2, List.append_assoc, ← List.replicate_add]

theorem getD_replicate_zero (n j : Nat) : (List.replicate n (0 : Nat)).getD j 0 = 0 := by
  by_cases h : j < n
  · rw [List.getD_eq_getElem _ _ (by simpa using h)]
    exact List.getElem_replicate _ _
  · exact List.getD_eq_default _ _ (by simpa using le_of_not_lt h)

theorem padEq_of_pointwise (A pre : List Nat) (F : Nat)
    (hlen : pre.length + 1 ≤ A.length)
    (h1 : ∀ j, j < pre.length → A.getD j 0 = pre.getD j 0)
    (h2 : A.getD pre.length 0 = F)
    (h3 : ∀ j, pre.length < j → j < A.length → A.getD j 0 = 0) :
    padEq A (pre ++ [F]) := by
  have hA : A = (pre ++ [F]) ++ List.replicate (A.length - (pre.length + 1)) 0 := by
    apply listEq_of_getD 0
    · simp only [List.length_append, List.length_replicate, List.length_cons,
        List.length_nil]
      omega
    · intro j hj
      by_cases hj1 : j < pre.length
      · rw [h1 j hj1, List.getD_append _ _ _ _ (by simp only [List.length_append]; omega),
            List.getD_append _ _ _ _ (by simpa using hj1)]
      · by_cases hj2 : j = pre.length
        · subst hj2
          rw [h2, List.getD_append _ _ _ _ (by simp),
              List.getD_append_right _ _ _ _ (Nat.le_refl _)]
          simp
        · rw [h3 j (by omega) hj,
              List.getD_append_right _ _ _ _ (by simp only [List.length_append,
                List.length_cons, List.length_nil]; omega),
              getD_replicate_zero]
  refine ⟨0, A.length - (pre.length + 1), ?_⟩
  rw [show (List.replicate 0 (0 : Nat)) = [] from rfl, List.append_nil]
  exact hA

theorem padEq_take_zero (l : List Nat) (j F : Nat)
    (hF : (j < l.length ∧ l.getD j 0 = F) ∨ (l.length ≤ j ∧ F = 0))
    (hz : ∀ i, j < i → i < l.length → l.getD i 0 = 0) :
    padEq l (l.take j ++ [F]) := by
  rcases hF with ⟨hjl, hgd⟩ | ⟨hjl, hf0⟩
  · have hlt : (l.take j).length = j := List.length_take_of_le (by omega)
    apply padEq_of_pointwise l (l.take j) F
    · omega
    · intro i hi
      rw [hlt] at hi
      exact (getD_take_lt 0 l j i hi).symm
    · rw [hlt]
      exact hgd
    · intro i hi1 hi2
      rw [hlt] at hi1
      exact hz i hi1 hi2
  · subst hf0
    rw [List.take_of_length_le hjl]
    exact ⟨1, 0, by simp⟩

theorem free_fields (s : State) (p : Ptr) :
    (s.free p).blocks = s.blocks ∧ (s.free p).nextBlockIdx = s.nextBlockIdx ∧
    (s.free p).freeBlock = s.freeBlock ∧ (s.free p).lastFrame = s.lastFrame ∧
    (s.free p).dbg = s.dbg ∧ (s.free p).blockSize = s.blockSize ∧
    (s.free p).nextId = s.nextId ∧ (s.free p).nextBase = s.nextBase := by
  unfold State.free
  split
  · split
    · exact ⟨rfl, rfl, rfl, rfl, rfl, rfl, rfl, rfl⟩
    · exact ⟨rfl, rfl, rfl, rfl, rfl, rfl, rfl, rfl⟩
  · exact ⟨rfl, rfl, rfl, rfl, rfl, rfl, rfl, rfl⟩

theorem take_mono_eq {α : Type} (d : α) (l₁ l₂ : List α) (n m : Nat)
    (h : l₁.take n = l₂.take n) (hm : m ≤ n) (h1 : m ≤ l₁.length) (h2 : m ≤ l₂.length) :
    l₁.take m = l₂.take m :=
  take_eq_of_getD d _ _ m h1 h2 (fun j hj => getD_of_take_eq d _ _ n j h (by omega))

theorem offsets_take_eq (t s : State) (n : Nat) (h : t.blocks.take n = s.blocks.take n)
    (m : Nat) (hm : m ≤ n) (h1 : m ≤ s.blocks.length) (h2 : m ≤ t.blocks.length) :
    t.offsets.take m = s.offsets.take m := by
  apply take_eq_of_getD 0 _ _ m (by rw [offsets_length]; omega) (by rw [offsets_length]; omega)
  intro j hj
  rw [offsets_getD, offsets_getD, getD_of_take_eq default t.blocks s.blocks n j h (by omega)]

theorem alloc_shape_nogrow (s : State) (a f : Nat) (hfb : s.freeBlock = some f)
    (hg : ¬((s.blocks.getD f default).size - (s.blocks.getD f default).freePtr
      < a + s.hdr)) :
    (s.alloc a).1.blocks = s.blocks.set f
      { s.blocks.getD f default with
        freePtr := (s.blocks.getD f default).freePtr + (a + s.hdr) } ∧
    (s.alloc a).1.nextBlockIdx = s.nextBlockIdx ∧
    (s.alloc a).1.freeBlock = some f ∧
    (s.alloc a).1.dbg = s.dbg ∧
    (s.alloc a).1.blockSize = s.blockSize ∧
    (s.alloc a).1.lastFrame = s.lastFrame ∧
    (s.alloc a).1.nextId = s.nextId ∧
    (s.alloc a).2 = ⟨(s.blocks.getD f default).id,
      (s.blocks.getD f default).freePtr + s.hdr,
      (s.blocks.getD f default).base + (s.blocks.getD f default).freePtr + s.hdr⟩ := by
  simp only [State.alloc, hfb]
  rw [if_neg hg]
  simp only [hfb, Option.getD_some]
  and_intros <;> trivial

theorem alloc_shape_grow_some (s : State) (a f : Nat) (hfb : s.freeBlock = some f)
    (hg : (s.blocks.getD f default).size - (s.blocks.getD f default).freePtr
      < a + s.hdr) :
    (s.alloc a).1.blocks = (s.allocBlock (a + s.hdr)).blocks.set
      ((s.allocBlock (a + s.hdr)).freeBlock.getD 0)
      { (s.allocBlock (a + s.hdr)).blocks.getD
          ((s.allocBlock (a + s.hdr)).freeBlock.getD 0) default with
        freePtr := ((s.allocBlock (a + s.hdr)).blocks.getD
          ((s.allocBlock (a + s.hdr)).freeBlock.getD 0) default).freePtr + (a + s.hdr) } ∧
    (s.alloc a).1.nextBlockIdx = (s.allocBlock (a + s.hdr)).nextBlockIdx ∧
    (s.alloc a).1.freeBlock = (s.allocBlock (a + s.hdr)).freeBlock ∧
    (s.alloc a).1.dbg = (s.allocBlock (a + s.hdr)).dbg ∧
    (s.alloc a).1.blockSize = (s.allocBlock (a + s.hdr)).blockSize ∧
    (s.alloc a).1.lastFrame = (s.allocBlock (a + s.hdr)).lastFrame ∧
    (s.alloc a).1.nextId = (s.allocBlock (a + s.hdr)).nextId ∧
    (s.alloc a).2 = ⟨((s.allocBlock (a + s.hdr)).blocks.getD
        ((s.allocBlock (a + s.hdr)).freeBlock.getD 0) default).id,
      ((s.allocBlock (a + s.hdr)).blocks.getD
        ((s.allocBlock (a + s.hdr)).freeBlock.getD 0) default).freePtr + s.hdr,
      ((s.allocBlock (a + s.hdr)).blocks.getD
        ((s.allocBlock (a + s.hdr)).freeBlock.getD 0) default).base +
      ((s.allocBlock (a + s.hdr)).blocks.getD
        ((s.allocBlock (a + s.hdr)).freeBlock.getD 0) default).freePtr + s.hdr⟩ := by
  simp only [State.alloc, hfb]
  rw [if_pos hg]
  and_intros <;> trivial

theorem alloc_shape_grow_none (s : State) (a : Nat) (hfb : s.freeBlock = none)
    (hg : 0 < a + s.hdr) :
    (s.alloc a).1.blocks = (s.allocBlock (a + s.hdr)).blocks.set
      ((s.allocBlock (a + s.hdr)).freeBlock.getD 0)
      { (s.allocBlock (a + s.hdr)).blocks.getD
          ((s.allocBlock (a + s.hdr)).freeBlock.getD 0) default with
        freePtr := ((s.allocBlock (a + s.hdr)).blocks.getD
          ((s.allocBlock (a + s.hdr)).freeBlock.getD 0) default).freePtr + (a + s.hdr) } ∧
    (s.alloc a).1.nextBlockIdx = (s.allocBlock (a + s.hdr)).nextBlockIdx ∧
    (s.alloc a).1.freeBlock = (s.allocBlock (a + s.hdr)).freeBlock ∧
    (s.alloc a).1.dbg = (s.allocBlock (a + s.hdr)).dbg ∧
    (s.alloc a).1.blockSize = (s.allocBlock (a + s.hdr)).blockSize ∧
    (s.alloc a).1.lastFrame = (s.allocBlock (a + s.hdr)).lastFrame ∧
    (s.alloc a).1.nextId = (s.allocBlock (a + s.hdr)).nextId ∧
    (s.alloc a).2 = ⟨((s.allocBlock (a + s.hdr)).blocks.getD
        ((s.allocBlock (a + s.hdr)).freeBlock.getD 0) default).id,
      ((s.allocBlock (a + s.hdr)).blocks.getD
        ((s.allocBlock (a + s.hdr)).freeBlock.getD 0) default).freePtr + s.hdr,
      ((s.allocBlock (a + s.hdr)).blocks.getD
        ((s.allocBlock (a + s.hdr)).freeBlock.getD 0) default).base +
      ((s.allocBlock (a + s.hdr)).blocks.getD
        ((s.allocBlock (a + s.hdr)).freeBlock.getD 0) default).freePtr + s.hdr⟩ := by
  simp only [State.alloc, hfb]
  rw [if_pos hg]
  and_intros <;> trivial

theorem drop_zero_of_after (l : List MemBlock) (n : Nat)
    (hz : ∀ i, n ≤ i → i < l.length → (l.getD i default).freePtr = 0) :
    ∀ b ∈ l.drop n, b.freePtr = 0 := by
  intro b hb
  obtain ⟨i, hi, he⟩ := List.mem_iff_getElem.1 hb
  rw [List.getElem_drop] at he
  have hlen2 : n + i < l.length := by
    rw [List.length_drop] at hi
    omega
  have hx := hz (n + i) (by omega) hlen2
  rw [List.getD_eq_getElem _ _ hlen2, he] at hx
  exact hx

/-- The full effect of `FrameAlloc::allocBlock` on a well-formed pool:
the prefix below `m_nextBlockIdx` is untouched, the chosen block sits at
the old `m_nextBlockIdx` (now `m_freeBlock`), is empty and large enough,
everything from the chosen block on is empty, and the structural
invariants survive. -/
theorem allocBlock_pack (s : State) (w : Nat)
    (hidx : s.nextBlockIdx ≤ s.blocks.length)
    (hfz : ∀ b ∈ s.blocks.drop s.nextBlockIdx, b.freePtr = 0)
    (hfs : ∀ b ∈ s.blocks, b.freePtr ≤ b.size)
    (hid : ∀ b ∈ s.blocks, b.id < s.nextId)
    (hnd : (s.blocks.map (·.id)).Nodup) :
    (s.allocBlock w).blocks.take s.nextBlockIdx = s.blocks.take s.nextBlockIdx ∧
    (s.allocBlock w).nextBlockIdx = s.nextBlockIdx + 1 ∧
    (s.allocBlock w).freeBlock = some s.nextBlockIdx ∧
    s.nextBlockIdx < (s.allocBlock w).blocks.length ∧
    ((s.allocBlock w).blocks.getD s.nextBlockIdx default).freePtr = 0 ∧
    w ≤ ((s.allocBlock w).blocks.getD s.nextBlockIdx default).size ∧
    (∀ j, s.nextBlockIdx ≤ j → j < (s.allocBlock w).blocks.length →
      ((s.allocBlock w).blocks.getD j default).freePtr = 0) ∧
    (∀ b ∈ (s.allocBlock w).blocks, b.freePtr ≤ b.size) ∧
    (∀ b ∈ (s.allocBlock w).blocks, b.id < (s.allocBlock w).nextId) ∧
    ((s.allocBlock w).blocks.map (·.id)).Nodup ∧
    s.nextId ≤ (s.allocBlock w).nextId ∧
    (s.allocBlock w).dbg = s.dbg ∧ (s.allocBlock w).blockSize = s.blockSize ∧
    (s.allocBlock w).lastFrame = s.lastFrame ∧
    (s.allocBlock w).totalAllocBytes = s.totalAllocBytes ∧
    (s.allocBlock w).headers = s.headers := by
  have hlen : (s.blocks.take s.nextBlockIdx).length = s.nextBlockIdx :=
    List.length_take_of_le hidx
  simp only [State.allocBlock]
  split
  next hdw =>
    refine ⟨List.take_left' hlen, rfl, rfl, ?_, ?_, ?_, ?_, ?_, ?_, ?_,
      Nat.le_succ _, rfl, rfl, rfl, rfl, rfl⟩
    · simp only [List.length_append, hlen, List.length_cons, List.length_nil]
      omega
    · rw [List.getD_append_right _ _ _ _ (by omega)]
      simp [hlen]
    · rw [List.getD_append_right _ _ _ _ (by omega)]
      simp only [hlen, Nat.sub_self, List.getD_cons_zero]
      exact Nat.le_max_right _ _
    · intro j hj1 hj2
      simp only [List.length_append, hlen, List.length_cons, List.length_nil] at hj2
      have hje : j = s.nextBlockIdx := by omega
      subst hje
      rw [List.getD_append_right _ _ _ _ (by omega)]
      simp [hlen]
    · intro b hb
      rcases List.mem_append.1 hb with h | h
      · exact hfs b (List.take_subset _ _ h)
      · rw [List.mem_singleton] at h
        subst h
        exact Nat.zero_le _
    · intro b hb
      rcases List.mem_append.1 hb with h | h
      · exact Nat.lt_succ_of_lt (hid b (List.take_subset _ _ h))
      · rw [List.mem_singleton] at h
        subst h
        exact Nat.lt_succ_self _
    · rw [List.map_append]
      apply List.Nodup.append
      · exact (((List.take_sublist _ _).map _).nodup hnd)
      · simp
      · intro x hx hx2
        obtain ⟨bb, hbm, hbe⟩ := List.mem_map.1 hx
        simp only [List.map_cons, List.map_nil, List.mem_singleton] at hx2
        have hlt := hid bb (List.take_subset _ _ hbm)
        omega
  next b rest hdw =>
    have hsub0 : List.Sublist (b :: rest) (s.blocks.drop s.nextBlockIdx) := by
      have hsub : List.Sublist ((s.blocks.drop s.nextBlockIdx).dropWhile
          (fun bb => decide (bb.size < max s.blockSize w)))
          (s.blocks.drop s.nextBlockIdx) := List.dropWhile_sublist _
      rwa [hdw] at hsub
    have hsub1 : List.Sublist (s.blocks.take s.nextBlockIdx ++ b :: rest) s.blocks := by
      have hx := List.Sublist.append_left hsub0 (s.blocks.take s.nextBlockIdx)
      rwa [List.take_append_drop] at hx
    have hgd : (s.blocks.take s.nextBlockIdx ++ b :: rest).getD s.nextBlockIdx default = b := by
      rw [List.getD_append_right _ _ _ _ (by omega)]
      simp [hlen]
    have hbsz : max s.blockSize w ≤ b.size := by
      have hne : (s.blocks.drop s.nextBlockIdx).dropWhile
          (fun bb => decide (bb.size < max s.blockSize w)) ≠ [] := by
        rw [hdw]
        simp
      have hhead := List.head_dropWhile_not
        (fun bb => decide (bb.size < max s.blockSize w)) (s.blocks.drop s.nextBlockIdx) hne
      simp only [hdw, List.head_cons, decide_eq_false_iff_not, Nat.not_lt] at hhead
      exact hhead
    rw [hdw]
    refine ⟨List.take_left' hlen, rfl, rfl, ?_, ?_, ?_, ?_, ?_, ?_, ?_,
      Nat.le_refl _, rfl, rfl, rfl, rfl, rfl⟩
    · simp only [List.length_append, hlen, List.length_cons]
      omega
    · rw [hgd]
      exact hfz b (hsub0.subset (List.mem_cons_self b rest))
    · rw [hgd]
      exact Nat.le_trans (Nat.le_max_right _ _) hbsz
    · intro j hj1 hj2
      simp only [List.length_append, hlen, List.length_cons] at hj2
      rw [List.getD_append_right _ _ _ _ (by omega), hlen]
      have hjr : j - s.nextBlockIdx < (b :: rest).length := by
        simp only [List.length_cons]
        omega
      rw [List.getD_eq_getElem _ _ hjr]
      exact hfz _ (hsub0.subset (List.getElem_mem hjr))
    · intro bb hbb
      exact hfs bb (hsub1.subset hbb)
    · intro bb hbb
      exact hid bb (hsub1.subset hbb)
    · exact ((hsub1.map _).nodup hnd)

theorem alloc_spec_grow_core (s : State) (a : Nat)
    (hidx : s.nextBlockIdx ≤ s.blocks.length)
    (hfs : ∀ b ∈ s.blocks, b.freePtr ≤ b.size)
    (hid : ∀ b ∈ s.blocks, b.id < s.nextId)
    (hnd : (s.blocks.map (·.id)).Nodup)
    (hz2 : ∀ i, s.nextBlockIdx ≤ i → i < s.blocks.length →
      (s.blocks.getD i default).freePtr = 0)
    (hshape :
      (s.alloc a).1.blocks = (s.allocBlock (a + s.hdr)).blocks.set
        ((s.allocBlock (a + s.hdr)).freeBlock.getD 0)
        { (s.allocBlock (a + s.hdr)).blocks.getD
            ((s.allocBlock (a + s.hdr)).freeBlock.getD 0) default with
          freePtr := ((s.allocBlock (a + s.hdr)).blocks.getD
            ((s.allocBlock (a + s.hdr)).freeBlock.getD 0) default).freePtr + (a + s.hdr) } ∧
      (s.alloc a).1.nextBlockIdx = (s.allocBlock (a + s.hdr)).nextBlockIdx ∧
      (s.alloc a).1.freeBlock = (s.allocBlock (a + s.hdr)).freeBlock ∧
      (s.alloc a).1.dbg = (s.allocBlock (a + s.hdr)).dbg ∧
      (s.alloc a).1.blockSize = (s.allocBlock (a + s.hdr)).blockSize ∧
      (s.alloc a).1.lastFrame = (s.allocBlock (a + s.hdr)).lastFrame ∧
      (s.alloc a).1.nextId = (s.allocBlock (a + s.hdr)).nextId ∧
      (s.alloc a).2 = ⟨((s.allocBlock (a + s.hdr)).blocks.getD
          ((s.allocBlock (a + s.hdr)).freeBlock.getD 0) default).id,
        ((s.allocBlock (a + s.hdr)).blocks.getD
          ((s.allocBlock (a + s.hdr)).freeBlock.getD 0) default).freePtr + s.hdr,
        ((s.allocBlock (a + s.hdr)).blocks.getD
          ((s.allocBlock (a + s.hdr)).freeBlock.getD 0) default).base +
        ((s.allocBlock (a + s.hdr)).blocks.getD
          ((s.allocBlock (a + s.hdr)).freeBlock.getD 0) default).freePtr + s.hdr⟩) :
    (s.alloc a).1.WF ∧
    (s.alloc a).1.freeBlock = some s.nextBlockIdx ∧
    s.nextBlockIdx < (s.alloc a).1.nextBlockIdx ∧
    (s.alloc a).1.dbg = s.dbg ∧
    (s.alloc a).1.blockSize = s.blockSize ∧
    (s.alloc a).1.lastFrame = s.lastFrame ∧
    (s.alloc a).1.blocks.take s.nextBlockIdx = s.blocks.take s.nextBlockIdx ∧
    (s.alloc a).2.bid = ((s.alloc a).1.blocks.getD s.nextBlockIdx default).id ∧
    (s.alloc a).2.off = 0 + s.hdr ∧
    ((s.alloc a).1.blocks.getD s.nextBlockIdx default).freePtr = 0 + (a + s.hdr) ∧
    padEq s.offsets ((s.alloc a).1.offsets.take s.nextBlockIdx ++ [0]) := by
  have hfz : ∀ b ∈ s.blocks.drop s.nextBlockIdx, b.freePtr = 0 :=
    drop_zero_of_after s.blocks s.nextBlockIdx hz2
  obtain ⟨hp1, hp2, hp3, hp4, hp5, hp6, hp7, hp8, hp9, hp10, hp11, hp12, hp13,
    hp14, hp15, hp16⟩ := allocBlock_pack s (a + s.hdr) hidx hfz hfs hid hnd
  obtain ⟨hb1, hb2, hb3, hb4, hb5, hb6, hb7, hb8⟩ := hshape
  have hieq : (s.allocBlock (a + s.hdr)).freeBlock.getD 0 = s.nextBlockIdx := by
    rw [hp3]
    rfl
  rw [hieq] at hb1 hb8
  set B := (s.allocBlock (a + s.hdr)).blocks.getD s.nextBlockIdx default with hBdef
  have hBmem : B ∈ (s.allocBlock (a + s.hdr)).blocks := by
    rw [hBdef, List.getD_eq_getElem _ _ hp4]
    exact List.getElem_mem hp4
  have htake : (s.alloc a).1.blocks.take s.nextBlockIdx = s.blocks.take s.nextBlockIdx := by
    rw [hb1]
    apply take_eq_of_getD default _ _ _ (by rw [List.length_set]; omega) (by omega)
    intro j hj
    rw [getD_set_ne default _ _ _ _ (by omega)]
    exact getD_of_take_eq default _ _ s.nextBlockIdx j hp1 hj
  have hWF' : (s.alloc a).1.WF := by
    rw [WF_iff]
    refine ⟨?_, ?_, ?_, ?_, ?_⟩
    · rw [hb2, hp2, hb1, List.length_set]
      omega
    · rw [hb1]
      intro b hb
      rcases List.mem_or_eq_of_mem_set hb with h | h
      · exact hp8 b h
      · subst h
        show B.freePtr + (a + s.hdr) ≤ B.size
        omega
    · rw [hb1, hb7]
      intro b hb
      rcases List.mem_or_eq_of_mem_set hb with h | h
      · exact hp9 b h
      · subst h
        show B.id < _
        exact hp9 B hBmem
    · rw [hb1]
      have hmeq : (((s.allocBlock (a + s.hdr)).blocks.set s.nextBlockIdx
          { B with freePtr := B.freePtr + (a + s.hdr) }).map (·.id)) =
          ((s.allocBlock (a + s.hdr)).blocks.map (·.id)) := by
        apply mapId_eq_of_getD _ _ (by rw [List.length_set])
        intro j hj
        rw [List.length_set] at hj
        by_cases hje : j = s.nextBlockIdx
        · subst hje
          rw [getD_set_self default _ _ _ hp4]
        · rw [getD_set_ne default _ _ _ _ (fun h => hje h.symm)]
      rw [hmeq]
      exact hp10
    · rw [hb3, hp3]
      refine ⟨by rw [hb2, hp2]; omega, ?_⟩
      intro i hi1 hi2
      rw [hb1] at hi2 ⊢
      rw [List.length_set] at hi2
      rw [getD_set_ne default _ _ _ _ (by omega)]
      exact hp7 i (by omega) hi2
  refine ⟨hWF', by rw [hb3]; exact hp3, by rw [hb2, hp2]; omega,
    by rw [hb4]; exact hp12, by rw [hb5]; exact hp13, by rw [hb6]; exact hp14,
    htake, ?_, ?_, ?_, ?_⟩
  · rw [hb8, hb1, getD_set_self default _ _ _ hp4]
  · rw [hb8]
    show B.freePtr + s.hdr = 0 + s.hdr
    rw [hp5]
  · rw [hb1, getD_set_self default _ _ _ hp4]
    show B.freePtr + (a + s.hdr) = 0 + (a + s.hdr)
    rw [hp5]
  · have hlen' : s.nextBlockIdx ≤ (s.alloc a).1.blocks.length := by
      rw [hb1, List.length_set]
      omega
    have hto : (s.alloc a).1.offsets.take s.nextBlockIdx =
        s.offsets.take s.nextBlockIdx :=
      offsets_take_eq _ s s.nextBlockIdx htake s.nextBlockIdx (Nat.le_refl _) hidx hlen'
    rw [hto]
    apply padEq_take_zero
    · by_cases hl : s.nextBlockIdx < s.blocks.length
      · exact Or.inl ⟨by rw [offsets_length]; omega,
          by rw [offsets_getD]; exact hz2 _ (Nat.le_refl _) hl⟩
      · exact Or.inr ⟨by rw [offsets_length]; omega, rfl⟩
    · intro i hi1 hi2
      rw [offsets_length] at hi2
      rw [offsets_getD]
      exact hz2 i (by omega) hi2

theorem alloc_spec (s : State) (a : Nat) (hWF : s.WF)
    (ha : s.freeBlock = none → 0 < a) :
    ∃ j F,
      (s.alloc a).1.WF ∧
      (s.alloc a).1.freeBlock = some j ∧
      j < (s.alloc a).1.nextBlockIdx ∧
      s.nextBlockIdx ≤ (s.alloc a).1.nextBlockIdx ∧
      (s.alloc a).1.dbg = s.dbg ∧
      (s.alloc a).1.blockSize = s.blockSize ∧
      (s.alloc a).1.lastFrame = s.lastFrame ∧
      (∀ f, s.freeBlock = some f → f ≤ j ∧
        (s.alloc a).1.blocks.take f = s.blocks.take f ∧
        ((s.alloc a).1.blocks.getD f default).id = (s.blocks.getD f default).id ∧
        (s.blocks.getD f default).freePtr ≤ ((s.alloc a).1.blocks.getD f default).freePtr) ∧
      (s.alloc a).2.bid = ((s.alloc a).1.blocks.getD j default).id ∧
      (s.alloc a).2.off = F + s.hdr ∧
      ((s.alloc a).1.blocks.getD j default).freePtr = F + (a + s.hdr) ∧
      padEq s.offsets ((s.alloc a).1.offsets.take j ++ [F]) ∧
      (∀ f, s.freeBlock = some f →
        ((j = f ∧ F = (s.blocks.getD f default).freePtr) ∨ s.nextBlockIdx ≤ j)) := by
  have hWF0 := hWF
  rw [WF_iff] at hWF0
  obtain ⟨hidx, hfs, hid, hnd, hfb5⟩ := hWF0
  cases hfb : s.freeBlock with
  | none =>
    simp only [hfb] at hfb5
    obtain ⟨hbe, hn0⟩ := hfb5
    refine ⟨s.nextBlockIdx, 0, ?_⟩
    have hz2 : ∀ i, s.nextBlockIdx ≤ i → i < s.blocks.length →
        (s.blocks.getD i default).freePtr = 0 := by
      intro i h1 h2
      rw [hbe] at h2
      simp at h2
    obtain ⟨c1, c2, c3, c4, c5, c6, c7, c8, c9, c10, c11⟩ :=
      alloc_spec_grow_core s a hidx hfs hid hnd hz2
        (alloc_shape_grow_none s a hfb (by have := ha hfb; omega))
    refine ⟨c1, c2, c3, by omega, c4, c5, c6, ?_, c8, c9, c10, c11, ?_⟩
    · intro f hf
      exact Option.noConfusion hf
    · intro f hf
      exact Option.noConfusion hf
  | some f =>
    simp only [hfb] at hfb5
    obtain ⟨hflt, hzafter⟩ := hfb5
    have hfl : f < s.blocks.length := by omega
    by_cases hg : (s.blocks.getD f default).size - (s.blocks.getD f default).freePtr
        < a + s.hdr
    · refine ⟨s.nextBlockIdx, 0, ?_⟩
      have hz2 : ∀ i, s.nextBlockIdx ≤ i → i < s.blocks.length →
          (s.blocks.getD i default).freePtr = 0 :=
        fun i h1 h2 => hzafter i (by omega) h2
      obtain ⟨c1, c2, c3, c4, c5, c6, c7, c8, c9, c10, c11⟩ :=
        alloc_spec_grow_core s a hidx hfs hid hnd hz2
          (alloc_shape_grow_some s a f hfb hg)
      have hlen' : f < (s.alloc a).1.blocks.length := by
        have hww := c1
        rw [WF_iff] at hww
        obtain ⟨hidx', -⟩ := hww
        omega
      refine ⟨c1, c2, c3, by omega, c4, c5, c6, ?_, c8, c9, c10, c11, ?_⟩
      · intro f' hf'
        cases hf'
        refine ⟨by omega, ?_, ?_, ?_⟩
        · exact take_mono_eq default _ _ s.nextBlockIdx f c7 (by omega) (by omega) (by omega)
        · rw [getD_of_take_eq default _ _ s.nextBlockIdx f c7 hflt]
        · rw [getD_of_take_eq default _ _ s.nextBlockIdx f c7 hflt]
      · intro f' hf'
        exact Or.inr (Nat.le_refl _)
    · refine ⟨f, (s.blocks.getD f default).freePtr, ?_⟩
      obtain ⟨hb1, hb2, hb3, hb4, hb5, hb6, hb7, hb8⟩ := alloc_shape_nogrow s a f hfb hg
      have hmemf : s.blocks.getD f default ∈ s.blocks := by
        rw [List.getD_eq_getElem _ _ hfl]
        exact List.getElem_mem hfl
      have hle : (s.blocks.getD f default).freePtr + (a + s.hdr) ≤
          (s.blocks.getD f default).size := by
        have := hfs _ hmemf
        omega
      have htake : (s.alloc a).1.blocks.take f = s.blocks.take f := by
        rw [hb1]
        apply take_eq_of_getD default _ _ f (by rw [List.length_set]; omega) (by omega)
        intro j hj
        rw [getD_set_ne default _ _ _ _ (by omega)]
      have hgdf : (s.alloc a).1.blocks.getD f default =
          { s.blocks.getD f default with
            freePtr := (s.blocks.getD f default).freePtr + (a + s.hdr) } := by
        rw [hb1]
        exact getD_set_self default _ _ _ hfl
      have hWF' : (s.alloc a).1.WF := by
        rw [WF_iff]
        refine ⟨?_, ?_, ?_, ?_, ?_⟩
        · rw [hb2, hb1, List.length_set]
          exact hidx
        · rw [hb1]
          intro b hb
          rcases List.mem_or_eq_of_mem_set hb with h | h
          · exact hfs b h
          · subst h
            exact hle
        · rw [hb1, hb7]
          intro b hb
          rcases List.mem_or_eq_of_mem_set hb with h | h
          · exact hid b h
          · subst h
            show (s.blocks.getD f default).id < s.nextId
            exact hid _ hmemf
        · rw [hb1]
          have hmeq : ((s.blocks.set f
              { s.blocks.getD f default with
                freePtr := (s.blocks.getD f default).freePtr + (a + s.hdr) }).map (·.id)) =
              (s.blocks.map (·.id)) := by
            apply mapId_eq_of_getD _ _ (by rw [List.length_set])
            intro j hj
            rw [List.length_set] at hj
            by_cases hje : j = f
            · subst hje
              rw [getD_set_self default _ _ _ hfl]
            · rw [getD_set_ne default _ _ _ _ (fun h => hje h.symm)]
          rw [hmeq]
          exact hnd
        · rw [hb3]
          refine ⟨by rw [hb2]; exact hflt, ?_⟩
          intro i hi1 hi2
          rw [hb1] at hi2 ⊢
          rw [List.length_set] at hi2
          rw [getD_set_ne default _ _ _ _ (by omega)]
          exact hzafter i hi1 hi2
      refine ⟨hWF', hb3, by rw [hb2]; exact hflt, by rw [hb2], hb4, hb5, hb6,
        ?_, ?_, ?_, ?_, ?_, ?_⟩
      · intro f' hf'
        cases hf'
        refine ⟨Nat.le_refl _, htake, by rw [hgdf], by rw [hgdf]; exact Nat.le_add_right _ _⟩
      · rw [hb8, hgdf]
      · rw [hb8]
      · rw [hgdf]
      · have hlen' : f ≤ (s.alloc a).1.blocks.length := by
          rw [hb1, List.length_set]
          omega
        have hto : (s.alloc a).1.offsets.take f = s.offsets.take f :=
          offsets_take_eq _ s f htake f (Nat.le_refl _) (by omega) hlen'
        rw [hto]
        apply padEq_take_zero
        · exact Or.inl ⟨by rw [offsets_length]; omega, by rw [offsets_getD]⟩
        · intro i hi1 hi2
          rw [offsets_length] at hi2
          rw [offsets_getD]
          exact hzafter i (by omega) hi2
      · intro f' hf'
        cases hf'
        exact Or.inl ⟨rfl, rfl⟩

theorem WF_congr (s t : State) (hb : t.blocks = s.blocks)
    (hn : t.nextBlockIdx = s.nextBlockIdx) (hf : t.freeBlock = s.freeBlock)
    (hi : t.nextId = s.nextId) (h : s.WF) : t.WF := by
  rw [WF_iff] at h ⊢
  rw [hb, hn, hf, hi]
  exact h

theorem offsets_congr (s t : State) (hb : t.blocks = s.blocks) : t.offsets = s.offsets := by
  unfold State.offsets
  rw [hb]

theorem MarkInv_congr (s t : State) (q : Ptr) (k F : Nat) (base : List Nat)
    (hb : t.blocks = s.blocks) (hn : t.nextBlockIdx = s.nextBlockIdx)
    (hf : t.freeBlock = s.freeBlock) (hi : t.nextId = s.nextId) (hd : t.dbg = s.dbg)
    (h : s.MarkInv q k F base) : t.MarkInv q k F base := by
  rw [MarkInv_iff] at h ⊢
  obtain ⟨h1, h2, h3, h4, h5, h6, h7⟩ := h
  refine ⟨WF_congr s t hb hn hf hi h1, by rw [hn]; exact h2, by rw [hf]; exact h3,
    by rw [hb]; exact h4, by rw [hdr_eq_of_dbg hd]; exact h5,
    by rw [hb, hdr_eq_of_dbg hd]; exact h6, ?_⟩
  rw [offsets_congr s t hb]
  exact h7

/-- A `markFrame` checkpoint survives any later `alloc`. -/
theorem MI_alloc (s : State) (a : Nat) (q : Ptr) (k F0 : Nat) (base : List Nat)
    (hMI : s.MarkInv q k F0 base) : (s.alloc a).1.MarkInv q k F0 base := by
  have hMI' := hMI
  rw [MarkInv_iff] at hMI'
  obtain ⟨hWF, hk, ⟨f, hfb, hkf⟩, hidq, hoff, hfp, hpad⟩ := hMI'
  obtain ⟨j, F, hA⟩ := alloc_spec s a hWF
    (fun h => by rw [h] at hfb; exact Option.noConfusion hfb)
  obtain ⟨hWF', hfb', hjlt, hnle, hdbg, hbs, hlf, hpre, hbid, hoff', hfp', hpadn,
    hcase⟩ := hA
  obtain ⟨hfj, htake, hid, hmono⟩ := hpre f hfb
  have hwf2 := hWF'
  rw [WF_iff] at hwf2
  obtain ⟨hidx', -⟩ := hwf2
  have hWF0 := hWF
  rw [WF_iff] at hWF0
  obtain ⟨hidx, -, -, -, h5⟩ := hWF0
  simp only [hfb] at h5
  obtain ⟨hflt, hzafter⟩ := h5
  rw [MarkInv_iff]
  refine ⟨hWF', by omega, ⟨j, hfb', by omega⟩, ?_, ?_, ?_, ?_⟩
  · by_cases hke : k = f
    · subst hke
      rw [hid]
      exact hidq
    · rw [getD_of_take_eq default _ _ f k htake (by omega)]
      exact hidq
  · rw [hoff, hdr_eq_of_dbg hdbg]
  · rw [hdr_eq_of_dbg hdbg]
    by_cases hke : k = f
    · subst hke
      exact Nat.le_trans hfp hmono
    · rw [getD_of_take_eq default _ _ f k htake (by omega)]
      exact hfp
  · have hto : (s.alloc a).1.offsets.take k = s.offsets.take k :=
      offsets_take_eq _ s f htake k hkf (by omega) (by omega)
    rw [hto]
    exact hpad

theorem markFrame_shape (s : State) :
    (s.markFrame).1.blocks = (s.alloc szWord).1.blocks ∧
    (s.markFrame).1.nextBlockIdx = (s.alloc szWord).1.nextBlockIdx ∧
    (s.markFrame).1.freeBlock = (s.alloc szWord).1.freeBlock ∧
    (s.markFrame).1.dbg = (s.alloc szWord).1.dbg ∧
    (s.markFrame).1.blockSize = (s.alloc szWord).1.blockSize ∧
    (s.markFrame).1.nextId = (s.alloc szWord).1.nextId ∧
    (s.markFrame).1.lastFrame = (s.markFrame).2 :: (s.alloc szWord).1.lastFrame ∧
    (s.markFrame).2 = (s.alloc szWord).2 := by
  rcases he : s.alloc szWord with ⟨s1, p⟩
  unfold State.markFrame
  rw [he]
  and_intros <;> rfl

/-- `markFrame` creates a checkpoint satisfying the mark invariant
anchored at the pre-call free-offset state, and every older checkpoint
keeps its invariant and sits strictly below the new one. -/
theorem markFrame_MI (s : State) (hWF : s.WF) :
    ∃ k F, (s.markFrame).1.MarkInv (s.markFrame).2 k F s.offsets ∧
      (s.markFrame).1.lastFrame = (s.markFrame).2 :: s.lastFrame ∧
      (s.markFrame).1.dbg = s.dbg ∧
      (s.markFrame).1.blockSize = s.blockSize ∧
      ∀ q k0 F0 base0, s.MarkInv q k0 F0 base0 →
        (s.markFrame).1.MarkInv q k0 F0 base0 ∧ Below k0 F0 k F s.hdr := by
  obtain ⟨j, F, hA⟩ := alloc_spec s szWord hWF (fun _ => by norm_num [szWord])
  obtain ⟨hWF', hfb', hjlt, hnle, hdbg, hbs, hlf, hpre, hbid, hoff, hfp, hpadn,
    hcase⟩ := hA
  obtain ⟨m1, m2, m3, m4, m5, m6, m7, m8⟩ := markFrame_shape s
  refine ⟨j, F, ?_, ?_, by rw [m4]; exact hdbg, by rw [m5]; exact hbs, ?_⟩
  · rw [MarkInv_iff]
    refine ⟨WF_congr _ _ m1 m2 m3 m6 hWF', by rw [m2]; exact hjlt,
      ⟨j, by rw [m3]; exact hfb', Nat.le_refl _⟩, ?_, ?_, ?_, ?_⟩
    · rw [m1, m8]
      exact hbid.symm
    · rw [m8, hoff, show (s.markFrame).1.hdr = s.hdr from
        hdr_eq_of_dbg (by rw [m4]; exact hdbg)]
    · rw [m1, hfp, show (s.markFrame).1.hdr = s.hdr from
        hdr_eq_of_dbg (by rw [m4]; exact hdbg)]
      omega
    · rw [offsets_congr _ _ m1]
      exact hpadn
  · rw [m7, hlf, m8]
  · intro q k0 F0 b0 hMI0
    constructor
    · exact MarkInv_congr _ _ q k0 F0 b0 m1 m2 m3 m6 m4
        (MI_alloc s szWord q k0 F0 b0 hMI0)
    · have hMI0' := hMI0
      rw [MarkInv_iff] at hMI0'
      obtain ⟨hW0, hk0, ⟨fb0, hfb0, hk0f⟩, hid0, hoff0, hfp0, hpad0⟩ := hMI0'
      rcases hcase fb0 hfb0 with ⟨hjf, hFf⟩ | hnbi
      · by_cases hk0e : k0 = j
        · refine Or.inr ⟨hk0e, ?_⟩
          rw [hFf, show fb0 = k0 by omega]
          exact hfp0
        · exact Or.inl (by omega)
      · refine Or.inl ?_
        have hfblt : fb0 < s.nextBlockIdx := by
          have hW := hWF
          rw [WF_iff] at hW
          obtain ⟨-, -, -, -, h5⟩ := hW
          simp only [hfb0] at h5
          exact h5.1
        omega

/-- Full characterisation of the clear walk when the checkpoint's block
`k` lies below the start index `i` and no block above `k` shares its id:
the blocks above `k` (up to `i`) are emptied, block `k` is trimmed to
`fOff`, everything else is untouched, and the returned next index and
freed count follow the source's accounting. -/
theorem clearWalk_spec (bid fOff k : Nat) :
    ∀ (i : Nat) (blocks : List MemBlock) (numFreed : Nat),
      k ≤ i → i < blocks.length →
      (blocks.getD k default).id = bid →
      (∀ j, k < j → j ≤ i → (blocks.getD j default).id ≠ bid) →
      (clearWalk bid fOff i blocks (i + 1) numFreed).1.length = blocks.length ∧
      (∀ j, j < k → (clearWalk bid fOff i blocks (i + 1) numFreed).1.getD j default
        = blocks.getD j default) ∧
      (∀ j, i < j → (clearWalk bid fOff i blocks (i + 1) numFreed).1.getD j default
        = blocks.getD j default) ∧
      (clearWalk bid fOff i blocks (i + 1) numFreed).1.getD k default
        = { blocks.getD k default with freePtr := fOff } ∧
      (∀ j, k < j → j ≤ i → (clearWalk bid fOff i blocks (i + 1) numFreed).1.getD j default
        = { blocks.getD j default with freePtr := 0 }) ∧
      (clearWalk bid fOff i blocks (i + 1) numFreed).2.2
        = numFreed + (i - k) + (if fOff = 0 then 1 else 0) ∧
      (clearWalk bid fOff i blocks (i + 1) numFreed).2.1
        = (if fOff = 0 ∧ 1 < numFreed + (i - k) + 1 then k else k + 1) := by
  intro i
  induction i with
  | zero =>
    intro blocks numFreed hk hlen hid huniq
    have hk0 : k = 0 := by omega
    subst hk0
    rw [clearWalk]
    dsimp only
    rw [if_pos hid]
    by_cases hf0 : fOff = 0
    · rw [if_pos hf0]
      by_cases hnf : 1 < numFreed + 1
      · rw [if_pos hnf]
        refine ⟨List.length_set _ _ _, ?_, ?_, getD_set_self default _ _ _ hlen, ?_, ?_, ?_⟩
        · intro j hj
          omega
        · intro j hj
          exact getD_set_ne default _ _ _ _ (by omega)
        · intro j h1 h2
          omega
        · rw [if_pos hf0]
        · rw [if_pos ⟨hf0, by omega⟩]
      · rw [if_neg hnf]
        refine ⟨List.length_set _ _ _, ?_, ?_, getD_set_self default _ _ _ hlen, ?_, ?_, ?_⟩
        · intro j hj
          omega
        · intro j hj
          exact getD_set_ne default _ _ _ _ (by omega)
        · intro j h1 h2
          omega
        · rw [if_pos hf0]
        · rw [if_neg (by omega : ¬(fOff = 0 ∧ 1 < numFreed + (0 - 0) + 1))]
    · rw [if_neg hf0]
      refine ⟨List.length_set _ _ _, ?_, ?_, getD_set_self default _ _ _ hlen, ?_, ?_, ?_⟩
      · intro j hj
        omega
      · intro j hj
        exact getD_set_ne default _ _ _ _ (by omega)
      · intro j h1 h2
        omega
      · rw [if_neg hf0]
        rfl
      · rw [if_neg (fun h => hf0 h.1)]
  | succ i1 ih =>
    intro blocks numFreed hk hlen hid huniq
    by_cases hki : k = i1 + 1
    · subst hki
      rw [clearWalk]
      dsimp only
      rw [if_pos hid]
      by_cases hf0 : fOff = 0
      · rw [if_pos hf0]
        by_cases hnf : 1 < numFreed + 1
        · rw [if_pos hnf]
          refine ⟨List.length_set _ _ _, ?_, ?_, getD_set_self default _ _ _ hlen, ?_, ?_, ?_⟩
          · intro j hj
            exact getD_set_ne default _ _ _ _ (by omega)
          · intro j hj
            exact getD_set_ne default _ _ _ _ (by omega)
          · intro j h1 h2
            omega
          · rw [if_pos hf0]
            show numFreed + 1 = _
            omega
          · rw [if_pos ⟨hf0, by omega⟩]
        · rw [if_neg hnf]
          refine ⟨List.length_set _ _ _, ?_, ?_, getD_set_self default _ _ _ hlen, ?_, ?_, ?_⟩
          · intro j hj
            exact getD_set_ne default _ _ _ _ (by omega)
          · intro j hj
            exact getD_set_ne default _ _ _ _ (by omega)
          · intro j h1 h2
            omega
          · rw [if_pos hf0]
            show numFreed + 1 = _
            omega
          · rw [if_neg (by omega : ¬(fOff = 0 ∧ 1 < numFreed + (i1 + 1 - (i1 + 1)) + 1))]
      · rw [if_neg hf0]
        refine ⟨List.length_set _ _ _, ?_, ?_, getD_set_self default _ _ _ hlen, ?_, ?_, ?_⟩
        · intro j hj
          exact getD_set_ne default _ _ _ _ (by omega)
        · intro j hj
          exact getD_set_ne default _ _ _ _ (by omega)
        · intro j h1 h2
          omega
        · rw [if_neg hf0]
          show numFreed = _
          omega
        · rw [if_neg (fun h => hf0 h.1)]
    · have hki2 : k ≤ i1 := by omega
      have hneq : ¬((blocks.getD (i1 + 1) default).id = bid) :=
        huniq (i1 + 1) (by omega) (Nat.le_refl _)
      rw [clearWalk]
      dsimp only
      rw [if_neg hneq]
      obtain ⟨q1, q2, q3, q4, q5, q6, q7⟩ := ih
        (blocks.set (i1 + 1) { blocks.getD (i1 + 1) default with freePtr := 0 })
        (numFreed + 1) hki2 (by rw [List.length_set]; omega)
        (by rw [getD_set_ne default _ _ _ _ (by omega)]; exact hid)
        (by intro j hj1 hj2
            rw [getD_set_ne default _ _ _ _ (by omega)]
            exact huniq j hj1 (by omega))
      refine ⟨?_, ?_, ?_, ?_, ?_, ?_, ?_⟩
      · rw [q1, List.length_set]
      · intro j hj
        rw [q2 j hj, getD_set_ne default _ _ _ _ (by omega)]
      · intro j hj
        rw [q3 j (by omega), getD_set_ne default _ _ _ _ (by omega)]
      · rw [q4, getD_set_ne default _ _ _ _ (by omega)]
      · intro j hj1 hj2
        by_cases hje : j = i1 + 1
        · subst hje
          rw [q3 _ (by omega), getD_set_self default _ _ _ hlen]
        · rw [q5 j hj1 (by omega), getD_set_ne default _ _ _ _ (by omega)]
      · rw [q6]
        have harith : numFreed + 1 + (i1 - k) = numFreed + (i1 + 1 - k) := by omega
        rw [harith]
      · rw [q7]
        have harith : numFreed + 1 + (i1 - k) + 1 = numFreed + (i1 + 1 - k) + 1 := by omega
        rw [harith]

/-- The effect of `FrameAlloc::clear` on the newest outstanding
checkpoint `(k, F)`: the pool is trimmed back to offset `F` of block
`k` (everything above is emptied, and possibly merged into one pooled
block), so the free-offset state becomes `take k ++ [F]` up to trailing
empty blocks; every strictly older checkpoint keeps its invariant. -/
theorem clear_mark_spec (s : State) (p : Ptr) (k F : Nat) (base : List Nat)
    (rest : List Ptr) (hMI : s.MarkInv p k F base) (hlf : s.lastFrame = p :: rest) :
    ∃ s', s.clear = some s' ∧
      s'.WF ∧
      s'.lastFrame = rest ∧
      s'.dbg = s.dbg ∧
      s'.blockSize = s.blockSize ∧
      padEq s'.offsets (s.offsets.take k ++ [F]) ∧
      (∀ q k0 F0 base0, s.MarkInv q k0 F0 base0 → Below k0 F0 k F s.hdr →
        s'.MarkInv q k0 F0 base0) := by
  rw [MarkInv_iff] at hMI
  obtain ⟨hWF, hk, ⟨f, hfb, hkf⟩, hidp, hoff, hfp, hpad⟩ := hMI
  have hWF0 := hWF
  rw [WF_iff] at hWF0
  obtain ⟨hidx, hfs, hids, hnd, h5⟩ := hWF0
  simp only [hfb] at h5
  obtain ⟨hflt, hzafter⟩ := h5
  have hnz : ¬(s.nextBlockIdx = 0) := by omega
  have hilen : s.nextBlockIdx - 1 < s.blocks.length := by omega
  have hkL : k < s.blocks.length := by omega
  have hfoff : p.off - s.hdr = F := by
    rw [hoff]
    omega
  have huniq : ∀ j, k < j → j ≤ s.nextBlockIdx - 1 →
      (s.blocks.getD j default).id ≠ p.bid := by
    intro j h1 h2
    rw [← hidp]
    exact nodup_id_getD_ne s.blocks hnd j k (by omega) hkL (by omega)
  obtain ⟨w1, w2, w3, w4, w5, w6, w7⟩ := clearWalk_spec p.bid F k
    (s.nextBlockIdx - 1) s.blocks 0 (by omega) hilen hidp huniq
  obtain ⟨hf1, hf2, hf3, hf4, hf5, hf6, hf7, hf8⟩ := free_fields s p
  have hwEq : clearWalk p.bid F (s.nextBlockIdx - 1) s.blocks s.nextBlockIdx 0 =
      clearWalk p.bid F (s.nextBlockIdx - 1) s.blocks ((s.nextBlockIdx - 1) + 1) 0 := by
    rw [show (s.nextBlockIdx - 1) + 1 = s.nextBlockIdx from by omega]
  simp only [State.clear, hlf]
  rw [if_neg hnz, hfoff, hwEq]
  set W := clearWalk p.bid F (s.nextBlockIdx - 1) s.blocks ((s.nextBlockIdx - 1) + 1) 0
    with hWdef
  -- pointwise facts about the walked pool
  have hidgd : ∀ j, (W.1.getD j default).id = (s.blocks.getD j default).id := by
    intro j
    by_cases hjL : j < s.blocks.length
    · rcases Nat.lt_trichotomy j k with h | h | h
      · rw [w2 j h]
      · subst h
        rw [w4]
      · by_cases hji : j ≤ s.nextBlockIdx - 1
        · rw [w5 j h hji]
        · rw [w3 j (by omega)]
    · have hb1 : s.blocks.length ≤ j := by omega
      have hb2 : W.1.length ≤ j := by rw [w1]; omega
      rw [List.getD_eq_default _ _ hb2, List.getD_eq_default _ _ hb1]
  have hzW : ∀ j, k < j → j < s.blocks.length → (W.1.getD j default).freePtr = 0 := by
    intro j h1 h2
    by_cases hji : j ≤ s.nextBlockIdx - 1
    · rw [w5 j h1 hji]
    · rw [w3 j (by omega)]
      exact hzafter j (by omega) h2
  have hWk : (W.1.getD k default).freePtr = F := by
    rw [w4]
  have hWlow : ∀ j, j < k → (W.1.getD j default).freePtr = (s.blocks.getD j default).freePtr := by
    intro j hj
    rw [w2 j hj]
  have hfsW : ∀ b ∈ W.1, b.freePtr ≤ b.size := by
    apply forall_mem_of_getD
    intro j hj
    rw [w1] at hj
    rcases Nat.lt_trichotomy j k with h | h | h
    · rw [w2 j h]
      exact hfs _ (by rw [List.getD_eq_getElem _ _ hj]; exact List.getElem_mem hj)
    · subst h
      rw [w4]
      show F ≤ (s.blocks.getD j default).size
      have := hfs (s.blocks.getD j default)
        (by rw [List.getD_eq_getElem _ _ hj]; exact List.getElem_mem hj)
      omega
    · by_cases hji : j ≤ s.nextBlockIdx - 1
      · rw [w5 j h hji]
        exact Nat.zero_le _
      · rw [w3 j (by omega)]
        exact hfs _ (by rw [List.getD_eq_getElem _ _ hj]; exact List.getElem_mem hj)
  have hidW : W.1.map (·.id) = s.blocks.map (·.id) :=
    mapId_eq_of_getD _ _ (by rw [w1]) (fun j _ => hidgd j)
  have hndW : (W.1.map (·.id)).Nodup := by
    rw [hidW]
    exact hnd
  have hidBW : ∀ b ∈ W.1, b.id < s.nextId := by
    apply forall_mem_of_getD
    intro j hj
    rw [w1] at hj
    rw [hidgd j]
    exact hids _ (by rw [List.getD_eq_getElem _ _ hj]; exact List.getElem_mem hj)
  have hprelen : (s.offsets.take k).length = k :=
    List.length_take_of_le (by rw [offsets_length]; omega)
  by_cases hmerge : 1 < W.2.2
  · -- merge path
    rw [if_pos hmerge]
    have hc21 : (W.2.1 = k + 1 ∧ ¬(F = 0)) ∨ (W.2.1 = k ∧ F = 0) := by
      by_cases hF0 : F = 0
      · refine Or.inr ⟨?_, hF0⟩
        rw [w6, if_pos hF0] at hmerge
        rw [w7, if_pos ⟨hF0, by omega⟩]
      · exact Or.inl ⟨by rw [w7, if_neg (fun h => hF0 h.1)], hF0⟩
    have hk21 : k ≤ W.2.1 ∧ W.2.1 ≤ k + 1 := by
      rcases hc21 with ⟨h, -⟩ | ⟨h, -⟩ <;> omega
    have hspan : W.2.1 + W.2.2 = s.nextBlockIdx := by
      rcases hc21 with ⟨h1, h2⟩ | ⟨h1, h2⟩
      · rw [h1, w6, if_neg h2]
        omega
      · rw [h1, w6, if_pos h2]
        omega
    have hdropW : W.1.drop s.nextBlockIdx = s.blocks.drop s.nextBlockIdx :=
      drop_eq_of_getD default _ _ _ (by rw [w1]) (fun j hj1 hj2 => w3 j (by omega))
    set s2 : State := { s.free p with
      blocks := W.1.take W.2.1 ++ W.1.drop (W.2.1 + W.2.2),
      nextBlockIdx := W.2.1, lastFrame := rest } with hs2
    have hs2idx : s2.nextBlockIdx = W.2.1 := rfl
    have hs2blocks : s2.blocks = W.1.take W.2.1 ++ s.blocks.drop s.nextBlockIdx := by
      show W.1.take W.2.1 ++ W.1.drop (W.2.1 + W.2.2) = _
      rw [hspan, hdropW]
    have htklen : (W.1.take W.2.1).length = W.2.1 :=
      List.length_take_of_le (by rw [w1]; omega)
    have hsub2 : List.Sublist s2.blocks W.1 := by
      rw [hs2blocks, ← hdropW]
      have h1 : W.1.drop s.nextBlockIdx =
          (W.1.drop W.2.1).drop (s.nextBlockIdx - W.2.1) := by
        rw [List.drop_drop, show W.2.1 + (s.nextBlockIdx - W.2.1) = s.nextBlockIdx
          from by omega]
      rw [h1]
      have h2 := List.Sublist.append_left
        (List.drop_sublist (s.nextBlockIdx - W.2.1) (W.1.drop W.2.1)) (W.1.take W.2.1)
      rwa [List.take_append_drop] at h2
    have hg2 : ∀ j, j < W.2.1 → s2.blocks.getD j default = W.1.getD j default := by
      intro j hj
      rw [hs2blocks, List.getD_append _ _ _ _ (by omega), getD_take_lt default _ _ _ hj]
    -- allocBlock preconditions on s2
    have hidx2 : s2.nextBlockIdx ≤ s2.blocks.length := by
      show W.2.1 ≤ _
      rw [hs2blocks, List.length_append, htklen]
      omega
    have hfz2 : ∀ b ∈ s2.blocks.drop s2.nextBlockIdx, b.freePtr = 0 := by
      show ∀ b ∈ s2.blocks.drop W.2.1, b.freePtr = 0
      have hdl : s2.blocks.drop W.2.1 = s.blocks.drop s.nextBlockIdx := by
        rw [hs2blocks]
        exact List.drop_left' htklen
      rw [hdl]
      exact drop_zero_of_after s.blocks s.nextBlockIdx
        (fun i h1 h2 => hzafter i (by omega) h2)
    have hfs2 : ∀ b ∈ s2.blocks, b.freePtr ≤ b.size :=
      fun b hb => hfsW b (hsub2.subset hb)
    have hid2 : ∀ b ∈ s2.blocks, b.id < s2.nextId := by
      intro b hb
      show b.id < (s.free p).nextId
      rw [hf7]
      exact hidBW b (hsub2.subset hb)
    have hnd2 : (s2.blocks.map (·.id)).Nodup := ((hsub2.map _).nodup hndW)
    obtain ⟨hp1, hp2, hp3, hp4, hp5, hp6, hp7, hp8, hp9, hp10, hp11, hp12, hp13,
      hp14, hp15, hp16⟩ := allocBlock_pack s2
      (((W.1.drop W.2.1).take W.2.2).foldl (fun a b => a + b.size) 0)
      hidx2 hfz2 hfs2 hid2 hnd2
    set s3 : State := s2.allocBlock
      (((W.1.drop W.2.1).take W.2.2).foldl (fun a b => a + b.size) 0) with hs3
    -- s3 field facts through s2 and free
    have h3dbg : s3.dbg = s.dbg := by
      rw [hp12]
      show (s.free p).dbg = s.dbg
      exact hf5
    have h3bs : s3.blockSize = s.blockSize := by
      rw [hp13]
      show (s.free p).blockSize = s.blockSize
      exact hf6
    have h3lf : s3.lastFrame = rest := by
      rw [hp14]
    have h3idx : s3.nextBlockIdx = W.2.1 + 1 := hp2
    have hg3 : ∀ j, j < W.2.1 → s3.blocks.getD j default = W.1.getD j default := by
      intro j hj
      rw [getD_of_take_eq default _ _ _ j hp1 hj]
      exact hg2 j hj
    have h3len : W.2.1 < s3.blocks.length := hp4
    -- offsets of s3, pointwise
    have hoff3 : ∀ j, (s3.offsets.getD j 0 = if j < k then s.offsets.getD j 0
        else if j = k then F else 0) := by
      intro j
      rw [offsets_getD]
      by_cases hjk : j < k
      · rw [if_pos hjk, offsets_getD, hg3 j (by omega), hWlow j hjk]
      · rw [if_neg hjk]
        by_cases hje : j = k
        · rw [if_pos hje]
          rcases hc21 with ⟨h1, h2⟩ | ⟨h1, h2⟩
          · rw [hje, hg3 k (by omega), hWk]
          · rw [hje, show k = s2.nextBlockIdx from by show k = W.2.1; omega, hp5]
            exact h2.symm
        · rw [if_neg hje]
          by_cases hjl : j < s3.blocks.length
          · by_cases hje2 : j = s2.nextBlockIdx
            · rw [hje2]
              exact hp5
            · have hge : s2.nextBlockIdx ≤ j := by
                show W.2.1 ≤ j
                omega
              exact hp7 j hge hjl
          · rw [List.getD_eq_default _ _ (by omega)]
            rfl
    have hlen3k : k + 1 ≤ s3.blocks.length := by
      omega
    have hpadEq3 : padEq s3.offsets (s.offsets.take k ++ [F]) := by
      apply padEq_of_pointwise
      · rw [hprelen, offsets_length]
        omega
      · intro j hj
        rw [hprelen] at hj
        rw [hoff3 j, if_pos hj, getD_take_lt 0 _ _ _ hj]
      · rw [hprelen, hoff3 k, if_neg (by omega), if_pos rfl]
      · intro j h1 h2
        rw [hprelen] at h1
        rw [hoff3 j, if_neg (by omega), if_neg (by omega)]
    -- WF pieces valid for any freeBlock choice fb' with k0-range handled separately
    have h3fs : ∀ b ∈ s3.blocks, b.freePtr ≤ b.size := hp8
    have h3ids : ∀ b ∈ s3.blocks, b.id < s3.nextId := hp9
    have h3nd : (s3.blocks.map (·.id)).Nodup := hp10
    by_cases hpos : 0 < W.2.1
    · rw [if_pos hpos]
      refine ⟨_, rfl, ?_, ?_, ?_, ?_, ?_, ?_⟩
      · -- WF
        rw [WF_iff]
        refine ⟨?_, ?_, ?_, ?_, ?_⟩
        · show s3.nextBlockIdx ≤ s3.blocks.length
          omega
        · show ∀ b ∈ s3.blocks, b.freePtr ≤ b.size
          exact h3fs
        · show ∀ b ∈ s3.blocks, b.id < s3.nextId
          exact h3ids
        · show (s3.blocks.map (·.id)).Nodup
          exact h3nd
        · show W.2.1 - 1 < s3.nextBlockIdx ∧ ∀ i, W.2.1 - 1 < i → i < s3.blocks.length →
            (s3.blocks.getD i default).freePtr = 0
          refine ⟨by omega, ?_⟩
          intro i h1 h2
          by_cases hie : i = W.2.1
          · rw [hie]
            exact hp5
          · exact hp7 i (by show W.2.1 ≤ i; omega) h2
      · show s3.lastFrame = rest
        exact h3lf
      · show s3.dbg = s.dbg
        exact h3dbg
      · show s3.blockSize = s.blockSize
        exact h3bs
      · show padEq s3.offsets _
        exact hpadEq3
      · intro q k0 F0 base0 hMI0 hbelow
        rw [MarkInv_iff] at hMI0
        obtain ⟨hW0, hk0, ⟨fb0, hfb0, hk0f⟩, hid0, hoff0, hfp0, hpad0⟩ := hMI0
        have hk0k : k0 ≤ k := by
          rcases hbelow with h | ⟨h, -⟩ <;> omega
        have hk0lt : k0 < W.2.1 := by
          rcases hc21 with ⟨h1, h2⟩ | ⟨h1, h2⟩
          · omega
          · rcases hbelow with h | ⟨he, hle⟩
            · omega
            · exfalso
              have : 0 < szWord := by norm_num [szWord]
              omega
        have hg3k0 : s3.blocks.getD k0 default = W.1.getD k0 default := hg3 k0 hk0lt
        rw [MarkInv_iff]
        refine ⟨?_, ?_, ?_, ?_, ?_, ?_, ?_⟩
        · rw [WF_iff]
          refine ⟨by show s3.nextBlockIdx ≤ s3.blocks.length; omega,
            h3fs, h3ids, h3nd, ?_⟩
          show W.2.1 - 1 < s3.nextBlockIdx ∧ ∀ i, W.2.1 - 1 < i → i < s3.blocks.length →
            (s3.blocks.getD i default).freePtr = 0
          refine ⟨by omega, ?_⟩
          intro i h1 h2
          by_cases hie : i = W.2.1
          · rw [hie]
            exact hp5
          · exact hp7 i (by show W.2.1 ≤ i; omega) h2
        · show k0 < s3.nextBlockIdx
          omega
        · exact ⟨W.2.1 - 1, rfl, by omega⟩
        · show (s3.blocks.getD k0 default).id = q.bid
          rw [hg3k0]
          by_cases hke : k0 = k
          · subst hke
            rw [hidgd k0]
            exact hid0
          · rw [w2 k0 (by omega)]
            exact hid0
        · show q.off = F0 + _
          rw [show ({ s3 with freeBlock := some (W.2.1 - 1) } : State).hdr = s.hdr from
            hdr_eq_of_dbg h3dbg]
          exact hoff0
        · show F0 + szWord + _ ≤ (s3.blocks.getD k0 default).freePtr
          rw [show ({ s3 with freeBlock := some (W.2.1 - 1) } : State).hdr = s.hdr from
            hdr_eq_of_dbg h3dbg, hg3k0]
          by_cases hke : k0 = k
          · rcases hbelow with h | ⟨-, hle⟩
            · omega
            · rw [hke, hWk]
              exact hle
          · rw [w2 k0 (by omega)]
            exact hfp0
        · have hto : ({ s3 with freeBlock := some (W.2.1 - 1) } : State).offsets.take k0 =
              s.offsets.take k0 := by
            apply take_eq_of_getD 0 _ _ k0 (by rw [offsets_length]; show k0 ≤ s3.blocks.length; omega)
              (by rw [offsets_length]; omega)
            intro j hj
            show ({ s3 with freeBlock := some (W.2.1 - 1) } : State).offsets.getD j 0 = _
            rw [show ({ s3 with freeBlock := some (W.2.1 - 1) } : State).offsets = s3.offsets
              from offsets_congr _ _ rfl, hoff3 j, if_pos (by omega)]
          rw [hto]
          exact hpad0
    · rw [if_neg hpos]
      have hW210 : W.2.1 = 0 := by omega
      refine ⟨_, rfl, ?_, h3lf, h3dbg, h3bs, hpadEq3, ?_⟩
      · rw [WF_iff]
        refine ⟨by omega, h3fs, h3ids, h3nd, ?_⟩
        rw [hp3]
        show s2.nextBlockIdx < s3.nextBlockIdx ∧ ∀ i, s2.nextBlockIdx < i →
          i < s3.blocks.length → (s3.blocks.getD i default).freePtr = 0
        refine ⟨by omega, ?_⟩
        intro i h1 h2
        exact hp7 i (by omega) h2
      · intro q k0 F0 base0 hMI0 hbelow
        exfalso
        have hkz : k = 0 := by
          rcases hc21 with ⟨h1, -⟩ | ⟨h1, -⟩ <;> omega
        have hF0z : F = 0 := by
          rcases hc21 with ⟨h1, -⟩ | ⟨-, h2⟩
          · omega
          · exact h2
        rcases hbelow with h | ⟨-, hle⟩
        · omega
        · have : 0 < szWord := by norm_num [szWord]
          omega
  · -- non-merge path
    rw [if_neg hmerge]
    have hW21 : W.2.1 = k + 1 := by
      rw [w7, if_neg]
      rintro ⟨hf0, hgt⟩
      rw [w6, if_pos hf0] at hmerge
      omega
    refine ⟨_, rfl, ?_, rfl, ?_, ?_, ?_, ?_⟩
    · rw [WF_iff]
      refine ⟨?_, ?_, ?_, ?_, ?_⟩
      · show W.2.1 ≤ W.1.length
        rw [hW21, w1]
        omega
      · show ∀ b ∈ W.1, b.freePtr ≤ b.size
        exact hfsW
      · show ∀ b ∈ W.1, b.id < (s.free p).nextId
        rw [hf7]
        exact hidBW
      · show (W.1.map (·.id)).Nodup
        exact hndW
      · show W.2.1 - 1 < W.2.1 ∧ ∀ i, W.2.1 - 1 < i → i < W.1.length →
          (W.1.getD i default).freePtr = 0
        refine ⟨by omega, ?_⟩
        intro i h1 h2
        rw [w1] at h2
        exact hzW i (by omega) h2
    · show (s.free p).dbg = s.dbg
      exact hf5
    · show (s.free p).blockSize = s.blockSize
      exact hf6
    · show padEq ({ s.free p with
        blocks := W.1, nextBlockIdx := W.2.1,
        freeBlock := some (W.2.1 - 1), lastFrame := rest } : State).offsets
        (s.offsets.take k ++ [F])
      have hoffW : ∀ j, (({ s.free p with
          blocks := W.1, nextBlockIdx := W.2.1,
          freeBlock := some (W.2.1 - 1), lastFrame := rest } : State).offsets.getD j 0 =
          (W.1.getD j default).freePtr) := by
        intro j
        rw [offsets_getD]
      apply padEq_of_pointwise
      · rw [hprelen, offsets_length]
        show k + 1 ≤ W.1.length
        rw [w1]
        omega
      · intro j hj
        rw [hprelen] at hj
        rw [hoffW j, hWlow j hj, getD_take_lt 0 _ _ _ hj, offsets_getD]
      · rw [hprelen, hoffW k, hWk]
      · intro j h1 h2
        rw [hprelen] at h1
        rw [offsets_length] at h2
        rw [hoffW j]
        exact hzW j h1 (by rw [← w1]; exact h2)
    · intro q k0 F0 base0 hMI0 hbelow
      rw [MarkInv_iff] at hMI0
      obtain ⟨hW0, hk0, ⟨fb0, hfb0, hk0f⟩, hid0, hoff0, hfp0, hpad0⟩ := hMI0
      have hk0k : k0 ≤ k := by
        rcases hbelow with h | ⟨h, -⟩ <;> omega
      rw [MarkInv_iff]
      refine ⟨?_, ?_, ?_, ?_, ?_, ?_, ?_⟩
      · rw [WF_iff]
        refine ⟨by show W.2.1 ≤ W.1.length; rw [hW21, w1]; omega, hfsW,
          by show ∀ b ∈ W.1, b.id < (s.free p).nextId; rw [hf7]; exact hidBW, hndW, ?_⟩
        show W.2.1 - 1 < W.2.1 ∧ ∀ i, W.2.1 - 1 < i → i < W.1.length →
          (W.1.getD i default).freePtr = 0
        refine ⟨by omega, ?_⟩
        intro i h1 h2
        rw [w1] at h2
        exact hzW i (by omega) h2
      · show k0 < W.2.1
        omega
      · exact ⟨W.2.1 - 1, rfl, by omega⟩
      · show (W.1.getD k0 default).id = q.bid
        rw [hidgd k0]
        exact hid0
      · show q.off = F0 + _
        rw [show ({ s.free p with
          blocks := W.1, nextBlockIdx := W.2.1,
          freeBlock := some (W.2.1 - 1), lastFrame := rest } : State).hdr = s.hdr from
          hdr_eq_of_dbg hf5]
        exact hoff0
      · show F0 + szWord + _ ≤ (W.1.getD k0 default).freePtr
        rw [show ({ s.free p with
          blocks := W.1, nextBlockIdx := W.2.1,
          freeBlock := some (W.2.1 - 1), lastFrame := rest } : State).hdr = s.hdr from
          hdr_eq_of_dbg hf5]
        by_cases hke : k0 = k
        · rcases hbelow with h | ⟨-, hle⟩
          · omega
          · rw [hke, hWk]
            exact hle
        · rw [hWlow k0 (by omega)]
          exact hfp0
      · have hto : ({ s.free p with
            blocks := W.1, nextBlockIdx := W.2.1,
            freeBlock := some (W.2.1 - 1), lastFrame := rest } : State).offsets.take k0 =
            s.offsets.take k0 := by
          apply take_eq_of_getD 0 _ _ k0
            (by rw [offsets_length]; show k0 ≤ W.1.length; rw [w1]; omega)
            (by rw [offsets_length]; omega)
          intro j hj
          rw [offsets_getD, offsets_getD]
          show (W.1.getD j default).freePtr = _
          exact hWlow j (by omega)
        rw [hto]
        exact hpad0

theorem allocBlock_fields (s : State) (w : Nat) :
    (s.allocBlock w).lastFrame = s.lastFrame ∧ (s.allocBlock w).dbg = s.dbg := by
  simp only [State.allocBlock]
  split
  · exact ⟨rfl, rfl⟩
  · exact ⟨rfl, rfl⟩

theorem alloc_lastFrame (s : State) (a : Nat) : (s.alloc a).1.lastFrame = s.lastFrame := by
  simp only [State.alloc]
  split
  · exact (allocBlock_fields s _).1
  · rfl

theorem alloc_dbg (s : State) (a : Nat) : (s.alloc a).1.dbg = s.dbg := by
  simp only [State.alloc]
  split
  · exact (allocBlock_fields s _).2
  · rfl

/-- Claim C4, counterexample to the literal reading: on a fresh
release-mode arena with 1024-byte blocks, the bracket
`markFrame; alloc 1000; markFrame; alloc 1024; clear; clear` (both
sizes within the block capacity) grows the pool, and the two `clear`
calls merge the emptied blocks into one pooled block: the per-block
free-offset list goes from `[]` to `[0, 0]`, so it is not restored
*exactly* — only up to trailing empty blocks. -/
theorem markClear_offsets_not_exact :
    ((((((State.init false 1024 0).markFrame).1.alloc 1000).1.markFrame).1.alloc
        1024).1.clear.bind State.clear).map State.offsets = some [0, 0] ∧
    (State.init false 1024 0).offsets = [] ∧
    1000 ≤ 1024 ∧ 1024 ≤ 1024 := by
  decide

/-- Claim C4 as amended: on every well-formed frame allocator state and
for all allocation sizes `x` and `y` (even beyond the block capacity),
the bracket `markFrame(); alloc(x); markFrame(); alloc(y); clear();
clear()` succeeds and restores the arena's free-offset state up to
trailing empty pooled blocks — every surviving block keeps its exact
free offset, and all blocks beyond the original high-water mark are
empty.  Exact equality of the per-block offset lists fails when the
bracket grows or merges the pool (see the counterexample). -/
theorem markClear_roundtrip (s : State) (x y : Nat) (hWF : s.WF) :
    ∃ s5 s6,
      ((((s.markFrame).1.alloc x).1.markFrame).1.alloc y).1.clear = some s5 ∧
      s5.clear = some s6 ∧
      padEq s6.offsets s.offsets := by
  obtain ⟨k1, F1, hMI1, hlf1, hdbg1, hbs1, hpres1⟩ := markFrame_MI s hWF
  set s1 := (s.markFrame).1 with hs1
  have hMI1x : (s1.alloc x).1.MarkInv (s.markFrame).2 k1 F1 s.offsets :=
    MI_alloc s1 x _ k1 F1 s.offsets hMI1
  set s2 := (s1.alloc x).1 with hs2
  have hWF2 : s2.WF := ((MarkInv_iff _ _ _ _ _).1 hMI1x).1
  have hlf2 : s2.lastFrame = (s.markFrame).2 :: s.lastFrame := by
    rw [hs2, alloc_lastFrame, hlf1]
  have hdbg2 : s2.dbg = s.dbg := by
    rw [hs2, alloc_dbg, hdbg1]
  obtain ⟨k2, F2, hMI2, hlf3, hdbg3, hbs3, hpres2⟩ := markFrame_MI s2 hWF2
  obtain ⟨hMI1b, hBelow⟩ := hpres2 _ k1 F1 s.offsets hMI1x
  set s3 := (s2.markFrame).1 with hs3
  have hMI2y : (s3.alloc y).1.MarkInv (s2.markFrame).2 k2 F2 s2.offsets :=
    MI_alloc s3 y _ k2 F2 s2.offsets hMI2
  have hMI1c : (s3.alloc y).1.MarkInv (s.markFrame).2 k1 F1 s.offsets :=
    MI_alloc s3 y _ k1 F1 s.offsets hMI1b
  set s4 := (s3.alloc y).1 with hs4
  have hlf4 : s4.lastFrame = (s2.markFrame).2 :: ((s.markFrame).2 :: s.lastFrame) := by
    rw [hs4, alloc_lastFrame, hlf3, hlf2]
  have hhdr42 : s4.hdr = s2.hdr := by
    apply hdr_eq_of_dbg
    rw [hs4, alloc_dbg, hdbg3]
  obtain ⟨s5, hc5, hWF5, hlf5, hdbg5, hbs5, hpad5, hpres5⟩ :=
    clear_mark_spec s4 (s2.markFrame).2 k2 F2 s2.offsets
      ((s.markFrame).2 :: s.lastFrame) hMI2y hlf4
  have hMI1d : s5.MarkInv (s.markFrame).2 k1 F1 s.offsets :=
    hpres5 _ k1 F1 s.offsets hMI1c (by rw [hhdr42]; exact hBelow)
  obtain ⟨s6, hc6, hWF6, hlf6, hdbg6, hbs6, hpad6, hpres6⟩ :=
    clear_mark_spec s5 (s.markFrame).2 k1 F1 s.offsets s.lastFrame hMI1d hlf5
  refine ⟨s5, s6, hc5, hc6, ?_⟩
  rw [MarkInv_iff] at hMI1d
  obtain ⟨-, -, -, -, -, -, hpadm⟩ := hMI1d
  exact padEq_trans hpad6 (padEq_symm hpadm)

/-- Witness for `markClear_roundtrip`: a fresh release-mode allocator,
with the second allocation spilling past the first block. -/
theorem markClear_roundtrip_witness :
    ∃ s5 s6,
      (((((State.init false 1024 0).markFrame).1.alloc 1000).1.markFrame).1.alloc
        1024).1.clear = some s5 ∧
      s5.clear = some s6 ∧
      padEq s6.offsets (State.init false 1024 0).offsets :=
  markClear_roundtrip (State.init false 1024 0) 1000 1024
    ⟨Nat.le_refl 0, by simp [State.init], by simp [State.init],
      by simp [State.init], ⟨rfl, rfl⟩⟩

end FrameAlloc

namespace Quadtree

/-- Claim C10: iterating an empty tree (or any node holding no
elements) is safe.  A `BoxIntersectIterator` over a freshly constructed
quadtree answers `false` on the first `moveNext()`, and an
`ElementIterator` over any well-formed node with element count 0 (its
group list is then empty) answers `false` immediately, without touching
element or bound storage. -/
theorem empty_iteration_safe (o : QOpts) (cx cy ext : Scalar) (q : Rect2) (fuel : Nat)
    (hfuel : 2 ≤ fuel) (n : QNode) (hwf : n.elems.WF o) (hcount : n.elems.count = 0)
    (hmax : 0 < o.maxElementsPerNode) :
    (biMoveNext o fuel (BIState.ofTree (QTree.init o cx cy ext) q)).map Prod.fst =
      some false ∧
    ((EIState.ofNode o n).moveNext o).1 = false := by
  constructor
  · obtain ⟨k, rfl⟩ : ∃ k, fuel = k + 2 := ⟨fuel - 2, by omega⟩
    simp [biMoveNext, BIState.ofTree, QTree.init, QNode.leaf, EIState.moveNext,
      EIState.ofNode, QNode.elems, QNode.child, List.finRange,
      List.filter, NodeChildRange.containsChild]
  · have hval : n.elems.values = [] := by
      have h1 := hwf.1
      rw [hcount] at h1
      have : divideAndRoundUp 0 o.maxElementsPerNode = 0 := by
        unfold divideAndRoundUp
        exact Nat.div_eq_of_lt (by omega)
      rw [this] at h1
      exact List.eq_nil_of_length_eq_zero h1
    simp [EIState.moveNext, EIState.ofNode, hval]

/-- Witness for `empty_iteration_safe` at a concrete empty tree and
node. -/
theorem empty_iteration_safe_witness :
    (biMoveNext ⟨16, 1, 4, 4, fun _ => ⟨0, 0, 1, 1⟩⟩ 2
        (BIState.ofTree (QTree.init ⟨16, 1, 4, 4, fun _ => ⟨0, 0, 1, 1⟩⟩ 0 0 100)
          ⟨0, 0, 100, 100⟩)).map Prod.fst = some false ∧
    ((EIState.ofNode ⟨16, 1, 4, 4, fun _ => ⟨0, 0, 1, 1⟩⟩ QNode.leaf).moveNext
        ⟨16, 1, 4, 4, fun _ => ⟨0, 0, 1, 1⟩⟩).1 = false := by
  have h := empty_iteration_safe ⟨16, 1, 4, 4, fun _ => ⟨0, 0, 1, 1⟩⟩ 0 0 100
    ⟨0, 0, 100, 100⟩ 2 (by omega) QNode.leaf (by unfold QNode.leaf; exact ⟨by decide, by decide, by decide, by decide, by decide⟩)
    (by decide) (by decide)
  exact h

theorem leafOk_mk (e : NodeElements) (t : Nat) (l : Bool) (c0 c1 c2 c3 : Option QNode) :
    (QNode.mk e t l c0 c1 c2 c3).leafOk ↔
      ((l = true → c0 = none ∧ c1 = none ∧ c2 = none ∧ c3 = none) ∧
       (match c0 with | none => True | some n => n.leafOk) ∧
       (match c1 with | none => True | some n => n.leafOk) ∧
       (match c2 with | none => True | some n => n.leafOk) ∧
       (match c3 with | none => True | some n => n.leafOk)) := by
  rw [QNode.leafOk.eq_def]

theorem leafOk_leaf : QNode.leaf.leafOk := by
  rw [QNode.leaf, leafOk_mk]
  exact ⟨fun _ => ⟨rfl, rfl, rfl, rfl⟩, trivial, trivial, trivial, trivial⟩

theorem leafOk_withElems (n : QNode) (e : NodeElements) :
    (n.withElems e).leafOk ↔ n.leafOk := by
  cases n with
  | mk e0 t l c0 c1 c2 c3 => rw [QNode.withElems, leafOk_mk, leafOk_mk]

theorem leafOk_withTotal (n : QNode) (t : Nat) :
    (n.withTotal t).leafOk ↔ n.leafOk := by
  cases n with
  | mk e0 t0 l c0 c1 c2 c3 => rw [QNode.withTotal, leafOk_mk, leafOk_mk]

theorem isLeaf_withTotal (n : QNode) (t : Nat) : (n.withTotal t).isLeaf = n.isLeaf := by
  cases n with
  | mk e0 t0 l c0 c1 c2 c3 => rfl

theorem leafOk_child (n : QNode) (i : Fin 4) (c : QNode) (h : n.leafOk)
    (hc : n.child i = some c) : c.leafOk := by
  cases n with
  | mk e t l c0 c1 c2 c3 =>
    rw [leafOk_mk] at h
    obtain ⟨-, h0, h1, h2, h3⟩ := h
    fin_cases i <;> simp only [QNode.child] at hc <;> subst hc
    · exact h0
    · exact h1
    · exact h2
    · exact h3

theorem isLeaf_false_of_child (n : QNode) (i : Fin 4) (c : QNode) (h : n.leafOk)
    (hc : n.child i = some c) : n.isLeaf = false := by
  cases n with
  | mk e t l c0 c1 c2 c3 =>
    cases l with
    | false => rfl
    | true =>
      exfalso
      rw [leafOk_mk] at h
      obtain ⟨hnone, -⟩ := h
      obtain ⟨h0, h1, h2, h3⟩ := hnone rfl
      subst h0 h1 h2 h3
      fin_cases i <;> simp only [QNode.child] at hc <;> exact Option.noConfusion hc

theorem leafOk_setChild (n : QNode) (i : Fin 4) (c : QNode) (h : n.leafOk)
    (hl : n.isLeaf = false) (hc : c.leafOk) : (n.setChild i (some c)).leafOk := by
  cases n with
  | mk e t l c0 c1 c2 c3 =>
    rw [leafOk_mk] at h
    obtain ⟨-, h0, h1, h2, h3⟩ := h
    simp only [QNode.isLeaf] at hl
    subst hl
    fin_cases i <;> simp only [QNode.setChild] <;> rw [leafOk_mk]
    · exact ⟨fun hh => Bool.noConfusion hh, hc, h1, h2, h3⟩
    · exact ⟨fun hh => Bool.noConfusion hh, h0, hc, h2, h3⟩
    · exact ⟨fun hh => Bool.noConfusion hh, h0, h1, hc, h3⟩
    · exact ⟨fun hh => Bool.noConfusion hh, h0, h1, h2, hc⟩

theorem leafOk_split_node (n : QNode) (h : n.leafOk) :
    (((n.withElems default).withLeaf false).withTotal 0).leafOk := by
  cases n with
  | mk e t l c0 c1 c2 c3 =>
    rw [leafOk_mk] at h
    obtain ⟨-, h0, h1, h2, h3⟩ := h
    rw [QNode.withElems, QNode.withLeaf, QNode.withTotal, leafOk_mk]
    exact ⟨fun hh => Bool.noConfusion hh, h0, h1, h2, h3⟩

/-- `addListToNode` preserves the leaf invariant. -/
theorem addListToNode_leafOk (o : QOpts) (mne : Scalar) :
    ∀ fuel l (node node' : QNode) (nb : NodeBounds), node.leafOk →
      addListToNode o mne fuel l node nb = some node' → node'.leafOk := by
  intro fuel
  induction fuel with
  | zero =>
    intro l node node' nb h hr
    cases l with
    | nil => rw [addListToNode] at hr; cases hr; exact h
    | cons v rest => rw [addListToNode] at hr; exact Option.noConfusion hr
  | succ fuel ih =>
    intro l node node' nb h hr
    cases l with
    | nil => rw [addListToNode] at hr; cases hr; exact h
    | cons v rest =>
      simp only [addListToNode] at hr
      have hnd : (node.withTotal (node.total + 1)).leafOk := (leafOk_withTotal _ _).2 h
      split at hr
      next hone => exact Option.noConfusion hr
      next node1 hone =>
        refine ih _ _ _ _ ?_ hr
        split at hone
        next hleaf =>
          split at hone
          next hsplit =>
            split at hone
            next => exact Option.noConfusion hone
            next node2 hre =>
              exact ih _ _ _ _ (ih _ _ _ _ (leafOk_split_node _ hnd) hre) hone
          next hsplit =>
            cases hone
            exact (leafOk_withElems _ _).2 hnd
        next hleaf =>
          split at hone
          next hfc =>
            cases hone
            exact (leafOk_withElems _ _).2 hnd
          next i hfc =>
            split at hone
            next => exact Option.noConfusion hone
            next c hrc =>
              cases hone
              have hcok : (((node.withTotal (node.total + 1)).child i).getD QNode.leaf).leafOk := by
                cases hci : (node.withTotal (node.total + 1)).child i with
                | none => exact leafOk_leaf
                | some cc => exact leafOk_child _ _ _ hnd hci
              exact leafOk_setChild _ _ _ hnd (by simpa using hleaf) (ih _ _ _ _ hcok hrc)

/-- `updateAt` preserves the leaf invariant whenever the update function
does. -/
theorem updateAt_leafOk (f : QNode → Option QNode)
    (hf : ∀ m m', m.leafOk → f m = some m' → m'.leafOk) :
    ∀ (path : List (Fin 4)) (node node' : QNode), node.leafOk →
      node.updateAt path f = some node' → node'.leafOk := by
  intro path
  induction path with
  | nil => intro node node' h hr; exact hf _ _ h hr
  | cons i rest ih =>
    intro node node' h hr
    rw [QNode.updateAt] at hr
    cases hci : node.child i with
    | none => simp only [hci] at hr; exact Option.noConfusion hr
    | some c =>
      simp only [hci] at hr
      cases hru : c.updateAt rest f with
      | none => simp only [hru, Option.map] at hr; exact Option.noConfusion hr
      | some c1 =>
        simp only [hru, Option.map] at hr
        cases hr
        exact leafOk_setChild _ _ _ h (isLeaf_false_of_child _ _ _ h hci)
          (ih _ _ (leafOk_child _ _ _ h hci) hru)

/-- `decTotalsAlong` preserves the leaf invariant. -/
theorem decTotalsAlong_leafOk (o : QOpts) :
    ∀ (path : List (Fin 4)) (node : QNode) (res : QNode × Bool), node.leafOk →
      decTotalsAlong o node path = some res → res.1.leafOk := by
  intro path
  induction path with
  | nil =>
    intro node res h hr
    rw [decTotalsAlong] at hr
    cases hr
    exact (leafOk_withTotal _ _).2 h
  | cons i rest ih =>
    intro node res h hr
    rw [decTotalsAlong] at hr
    cases hci : node.child i with
    | none => simp only [hci] at hr; exact Option.noConfusion hr
    | some c =>
      simp only [hci] at hr
      cases hrd : decTotalsAlong o c rest with
      | none => simp only [hrd] at hr; exact Option.noConfusion hr
      | some cp =>
        obtain ⟨c1, fl⟩ := cp
        simp only [hrd] at hr
        cases hr
        have hnl : (node.withTotal (node.total - 1)).isLeaf = false := by
          rw [isLeaf_withTotal]
          exact isLeaf_false_of_child _ _ _ h hci
        exact leafOk_setChild _ _ _ ((leafOk_withTotal _ _).2 h) hnl
          (ih _ _ (leafOk_child _ _ _ h hci) hrd)

/-- A collapsed node satisfies the leaf invariant outright: it is marked
a leaf and its child pointers are nulled in the same breath. -/
theorem collapseNode_leafOk (o : QOpts) (fuel : Nat) (n n' : QNode)
    (hr : collapseNode o fuel n = some n') : n'.leafOk := by
  unfold collapseNode at hr
  cases hc : collectDesc o fuel [n] with
  | none => simp only [hc, Option.map] at hr; exact Option.noConfusion hr
  | some pairs =>
    simp only [hc, Option.map] at hr
    cases hr
    rw [leafOk_mk]
    exact ⟨fun _ => ⟨rfl, rfl, rfl, rfl⟩, trivial, trivial, trivial, trivial⟩

/-- Claim C3 as amended: after any sequence of successful `addElement`
and `removeElement` calls on a fresh quadtree, every node whose
`m_isLeaf` flag is set has no allocated children, anywhere in the tree.
(The converse direction of the original claim is refuted by the
counterexample theorem: a node can be a non-leaf with four null
children.) -/
theorem reach_leafOk (o : QOpts) (t : QTree) (h : QTree.Reach o t) : t.root.leafOk := by
  induction h with
  | init cx cy ext => exact leafOk_leaf
  | add t fuel v t' _ hadd ih =>
    unfold QTree.addElement addElementToNode at hadd
    cases hr : addListToNode o t.minNodeExtent (fuel + 1) [v] t.root t.rootBounds with
    | none => simp only [hr, Option.map] at hadd; exact Option.noConfusion hadd
    | some r =>
      simp only [hr, Option.map] at hadd
      cases hadd
      exact addListToNode_leafOk o t.minNodeExtent (fuel + 1) [v] t.root r t.rootBounds ih hr
  | remove t fuel path idx t' _ hrem ih =>
    rw [QTree.removeElement] at hrem
    cases hn : t.root.nodeAt path with
    | none => simp only [hn] at hrem; exact Option.noConfusion hrem
    | some n =>
      simp only [hn] at hrem
      by_cases hcnt : n.elems.count ≤ idx
      · rw [if_pos hcnt] at hrem; exact Option.noConfusion hrem
      · rw [if_neg hcnt] at hrem
        cases hu : t.root.updateAt path
            (fun m => some (m.withElems (m.elems.pop o idx).1)) with
        | none => simp only [hu] at hrem; exact Option.noConfusion hrem
        | some root1 =>
          simp only [hu] at hrem
          have h1 : root1.leafOk := updateAt_leafOk _
            (fun m m' hm hfr => by cases hfr; exact (leafOk_withElems _ _).2 hm)
            path t.root root1 ih hu
          cases hd : decTotalsAlong o root1 path with
          | none => simp only [hd] at hrem; exact Option.noConfusion hrem
          | some rp =>
            obtain ⟨root2, flagged⟩ := rp
            simp only [hd] at hrem
            have h2 : root2.leafOk :=
              decTotalsAlong_leafOk o path root1 (root2, flagged) h1 hd
            by_cases hflag : flagged = true
            · rw [if_pos hflag] at hrem
              cases hc : root2.updateAt path (collapseNode o fuel) with
              | none => simp only [hc, Option.map] at hrem; exact Option.noConfusion hrem
              | some r =>
                simp only [hc, Option.map] at hrem
                cases hrem
                exact updateAt_leafOk _ (fun m m' _ => collapseNode_leafOk o fuel m m')
                  path root2 r h2 hc
            · rw [if_neg hflag] at hrem
              cases hrem
              exact h2

/-- Witness for `reach_leafOk`: the invariant holds of a freshly
constructed tree. -/
theorem reach_leafOk_witness :
    (QTree.init ⟨16, 1, 2, 4, fun _ => ⟨0, 0, 10, 10⟩⟩ 0 0 100).root.leafOk :=
  reach_leafOk ⟨16, 1, 2, 4, fun _ => ⟨0, 0, 10, 10⟩⟩ _ (QTree.Reach.init 0 0 100)

/-! ### Scalar–rational transfer (for the C7 geometry) -/

theorem Scalar.lt_def (a b : Scalar) :
    a < b ↔ a.num * (b.den : Int) < b.num * (a.den : Int) := Iff.rfl

theorem Scalar.le_def (a b : Scalar) :
    a ≤ b ↔ a.num * (b.den : Int) ≤ b.num * (a.den : Int) := Iff.rfl

theorem Scalar.add_def (a b : Scalar) :
    a + b = ⟨a.num * (b.den : Int) + b.num * (a.den : Int), a.den * b.den⟩ := rfl

theorem Scalar.sub_def (a b : Scalar) :
    a - b = ⟨a.num * (b.den : Int) - b.num * (a.den : Int), a.den * b.den⟩ := rfl

theorem Scalar.mul_def (a b : Scalar) :
    a * b = ⟨a.num * b.num, a.den * b.den⟩ := rfl

theorem Scalar.neg_def (a : Scalar) : -a = ⟨-a.num, a.den⟩ := rfl

theorem Scalar.pden_add (a b : Scalar) (ha : a.pden) (hb : b.pden) : (a + b).pden := by
  unfold Scalar.pden at *
  rw [Scalar.add_def]
  exact Nat.mul_pos ha hb

theorem Scalar.pden_sub (a b : Scalar) (ha : a.pden) (hb : b.pden) : (a - b).pden := by
  unfold Scalar.pden at *
  rw [Scalar.sub_def]
  exact Nat.mul_pos ha hb

theorem Scalar.pden_mul (a b : Scalar) (ha : a.pden) (hb : b.pden) : (a * b).pden := by
  unfold Scalar.pden at *
  rw [Scalar.mul_def]
  exact Nat.mul_pos ha hb

theorem Scalar.pden_neg (a : Scalar) (ha : a.pden) : (-a).pden := ha

theorem Scalar.pden_qabs (a : Scalar) (ha : a.pden) : a.qabs.pden := ha

theorem Scalar.pden_ofNat (n : Nat) : (OfNat.ofNat n : Scalar).pden := Nat.one_pos

theorem Scalar.pden_div_pos (a b : Scalar) (ha : a.pden) (hb : 0 < b.num) :
    (a / b).pden := by
  unfold Scalar.pden at *
  show 0 < (if 0 ≤ b.num then (⟨a.num * (b.den : Int), a.den * b.num.toNat⟩ : Scalar)
    else ⟨-(a.num * (b.den : Int)), a.den * (-b.num).toNat⟩).den
  rw [if_pos (le_of_lt hb)]
  exact Nat.mul_pos ha (by omega)

theorem Scalar.pden_qmin (a b : Scalar) (ha : a.pden) (hb : b.pden) : (a.qmin b).pden := by
  unfold Scalar.qmin
  split
  · exact ha
  · exact hb

theorem Scalar.den_cast_pos (a : Scalar) (ha : a.pden) : (0 : ℚ) < (a.den : ℚ) := by
  exact_mod_cast ha

theorem Scalar.toRat_lt (a b : Scalar) (ha : a.pden) (hb : b.pden) :
    a < b ↔ a.toRat < b.toRat := by
  rw [Scalar.lt_def]
  unfold Scalar.toRat
  rw [div_lt_div_iff₀ (Scalar.den_cast_pos a ha) (Scalar.den_cast_pos b hb)]
  constructor
  · intro h
    exact_mod_cast h
  · intro h
    exact_mod_cast h

theorem Scalar.toRat_le (a b : Scalar) (ha : a.pden) (hb : b.pden) :
    a ≤ b ↔ a.toRat ≤ b.toRat := by
  rw [Scalar.le_def]
  unfold Scalar.toRat
  rw [div_le_div_iff₀ (Scalar.den_cast_pos a ha) (Scalar.den_cast_pos b hb)]
  constructor
  · intro h
    exact_mod_cast h
  · intro h
    exact_mod_cast h

theorem Scalar.toRat_add (a b : Scalar) (ha : a.pden) (hb : b.pden) :
    (a + b).toRat = a.toRat + b.toRat := by
  have ha' := Scalar.den_cast_pos a ha
  have hb' := Scalar.den_cast_pos b hb
  rw [Scalar.add_def]
  unfold Scalar.toRat
  push_cast
  field_simp

theorem Scalar.toRat_sub (a b : Scalar) (ha : a.pden) (hb : b.pden) :
    (a - b).toRat = a.toRat - b.toRat := by
  have ha' := Scalar.den_cast_pos a ha
  have hb' := Scalar.den_cast_pos b hb
  rw [Scalar.sub_def]
  unfold Scalar.toRat
  push_cast
  field_simp
  ring

theorem Scalar.toRat_mul (a b : Scalar) (ha : a.pden) (hb : b.pden) :
    (a * b).toRat = a.toRat * b.toRat := by
  have ha' := Scalar.den_cast_pos a ha
  have hb' := Scalar.den_cast_pos b hb
  rw [Scalar.mul_def]
  unfold Scalar.toRat
  push_cast
  field_simp

theorem Scalar.toRat_neg (a : Scalar) : (-a).toRat = -a.toRat := by
  rw [Scalar.neg_def]
  unfold Scalar.toRat
  push_cast
  ring

theorem Scalar.toRat_div_pos (a b : Scalar) (ha : a.pden) (hbp : b.pden)
    (hb : 0 < b.num) : (a / b).toRat = a.toRat / b.toRat := by
  have ha' := Scalar.den_cast_pos a ha
  have hbp' := Scalar.den_cast_pos b hbp
  have hd : a / b = ⟨a.num * (b.den : Int), a.den * b.num.toNat⟩ := by
    show (if 0 ≤ b.num then (⟨a.num * (b.den : Int), a.den * b.num.toNat⟩ : Scalar)
      else ⟨-(a.num * (b.den : Int)), a.den * (-b.num).toNat⟩) = _
    rw [if_pos (le_of_lt hb)]
  rw [hd]
  unfold Scalar.toRat
  have hbn : ((b.num.toNat : ℚ)) = (b.num : ℚ) := by
    exact_mod_cast Int.toNat_of_nonneg (le_of_lt hb)
  have hbn0 : (0 : ℚ) < (b.num : ℚ) := by exact_mod_cast hb
  push_cast
  rw [hbn]
  field_simp

theorem Scalar.toRat_qabs (a : Scalar) (ha : a.pden) : a.qabs.toRat = |a.toRat| := by
  unfold Scalar.qabs Scalar.toRat
  rw [abs_div, abs_of_pos (Scalar.den_cast_pos a ha)]
  congr 1
  rw [Int.cast_natCast, Int.cast_natAbs]
  exact Int.cast_abs

theorem Scalar.toRat_qmin (a b : Scalar) (ha : a.pden) (hb : b.pden) :
    (a.qmin b).toRat = min a.toRat b.toRat := by
  unfold Scalar.qmin
  split
  next h =>
    rw [Scalar.toRat_lt a b ha hb] at h
    rw [min_eq_left (le_of_lt h)]
  next h =>
    rw [Scalar.toRat_lt a b ha hb] at h
    rw [min_eq_right (le_of_not_lt h)]

theorem Scalar.toRat_ofNat (n : Nat) : (OfNat.ofNat n : Scalar).toRat = (n : ℚ) := by
  show ((n : Int) : ℚ) / ((1 : Nat) : ℚ) = _
  norm_num

theorem Scalar.toRat_zero : (0 : Scalar).toRat = 0 := by
  rw [Scalar.toRat_ofNat]
  norm_num

theorem Scalar.toRat_one : (1 : Scalar).toRat = 1 := by
  rw [Scalar.toRat_ofNat]
  norm_num

theorem Scalar.toRat_negOne : (-1 : Scalar).toRat = -1 := by
  rw [Scalar.toRat_neg, Scalar.toRat_one]

theorem ofRect_bounds (o : QOpts) (r : Rect2) : (NodeBounds.ofRect o r).bounds = r := rfl

theorem ofRect_childExtent (o : QOpts) (r : Rect2) :
    (NodeBounds.ofRect o r).childExtent = r.ex * chldExtentScl o := rfl

theorem ofRect_childOffset (o : QOpts) (r : Rect2) :
    (NodeBounds.ofRect o r).childOffset = r.ex - r.ex * chldExtentScl o := rfl

theorem chldExtentScl_facts (o : QOpts) (h : o.sane) :
    (chldExtentScl o).pden ∧ 0 < (chldExtentScl o).toRat ∧ (chldExtentScl o).toRat ≤ 1 := by
  unfold QOpts.sane at h
  obtain ⟨hmax, hpd, hp1⟩ := h
  have h2num : (0 : Int) < (2 : Scalar).num := by decide
  have hpnum : 0 < o.loosePadding.num := by
    have h1 := hp1
    rw [Scalar.le_def] at h1
    have hd : ((1 : Scalar).num) = 1 := rfl
    have hd2 : ((1 : Scalar).den) = 1 := rfl
    rw [hd, hd2] at h1
    have hdp : (0 : Nat) < o.loosePadding.den := hpd
    omega
  have hpadR : 1 ≤ o.loosePadding.toRat := by
    have h2 := (Scalar.toRat_le 1 o.loosePadding (Scalar.pden_ofNat 1) hpd).1 hp1
    rwa [Scalar.toRat_one] at h2
  have hpadR0 : 0 < o.loosePadding.toRat := lt_of_lt_of_le one_pos hpadR
  have hhalf : ((1 : Scalar)/2).pden :=
    Scalar.pden_div_pos 1 2 (Scalar.pden_ofNat 1) h2num
  have hinv : ((1 : Scalar)/o.loosePadding).pden :=
    Scalar.pden_div_pos 1 o.loosePadding (Scalar.pden_ofNat 1) hpnum
  have hsum : ((1 : Scalar) + 1/o.loosePadding).pden :=
    Scalar.pden_add _ _ (Scalar.pden_ofNat 1) hinv
  have h2R : (2 : Scalar).toRat = 2 := by
    rw [Scalar.toRat_ofNat]
    norm_num
  have hR : (chldExtentScl o).toRat = 1/2 * (1 + 1/o.loosePadding.toRat) := by
    unfold chldExtentScl
    rw [Scalar.toRat_mul _ _ hhalf hsum,
        Scalar.toRat_div_pos 1 2 (Scalar.pden_ofNat 1) (Scalar.pden_ofNat 2) h2num,
        Scalar.toRat_add _ _ (Scalar.pden_ofNat 1) hinv,
        Scalar.toRat_div_pos 1 o.loosePadding (Scalar.pden_ofNat 1) hpd hpnum,
        Scalar.toRat_one, h2R]
  refine ⟨Scalar.pden_mul _ _ hhalf hsum, ?_, ?_⟩
  · rw [hR]
    have ht : 0 < 1/o.loosePadding.toRat := by positivity
    linarith
  · rw [hR]
    have ht : 1/o.loosePadding.toRat ≤ 1 := by
      rw [div_le_one hpadR0]
      exact hpadR
    linarith

theorem NBWf_derived (o : QOpts) (nb : NodeBounds) (h : NBWf o nb) :
    nb.childExtent = nb.bounds.ex * chldExtentScl o ∧
    nb.childOffset = nb.bounds.ex - nb.childExtent := by
  unfold NBWf at h
  obtain ⟨h1, -, -⟩ := h
  have he := congrArg NodeBounds.childExtent h1
  rw [ofRect_childExtent] at he
  have ho := congrArg NodeBounds.childOffset h1
  rw [ofRect_childOffset, ← he] at ho
  exact ⟨he, ho⟩

/-- The real-number view of a good node-bounds handle: denominators of
the derived scalars are positive, the child extent is positive and at
most the node extent, the child offset is their difference, and the
`covers` inequalities hold over `ℚ`. -/
theorem GoodNB_reals (o : QOpts) (q : Rect2) (nb : NodeBounds)
    (hs : o.sane) (hq : q.pdens) (h : GoodNB o q nb) :
    nb.childExtent.pden ∧ nb.childOffset.pden ∧
    0 < nb.childExtent.toRat ∧ nb.childExtent.toRat ≤ nb.bounds.ex.toRat ∧
    nb.childOffset.toRat = nb.bounds.ex.toRat - nb.childExtent.toRat ∧
    0 < nb.bounds.ex.toRat ∧
    nb.bounds.ey.toRat = nb.bounds.ex.toRat ∧
    q.cx.toRat - q.ex.toRat ≤ nb.bounds.cx.toRat - nb.bounds.ex.toRat ∧
    nb.bounds.cx.toRat + nb.bounds.ex.toRat ≤ q.cx.toRat + q.ex.toRat ∧
    q.cy.toRat - q.ey.toRat ≤ nb.bounds.cy.toRat - nb.bounds.ex.toRat ∧
    nb.bounds.cy.toRat + nb.bounds.ex.toRat ≤ q.cy.toRat + q.ey.toRat := by
  obtain ⟨hsclp, hscl0, hscl1⟩ := chldExtentScl_facts o hs
  unfold Rect2.pdens at hq
  obtain ⟨hqcx, hqcy, hqex, hqey⟩ := hq
  unfold GoodNB at h
  obtain ⟨hwf, hcov, hcx, hcy, hex⟩ := h
  obtain ⟨hce, hoff⟩ := NBWf_derived o nb hwf
  unfold NBWf at hwf
  obtain ⟨-, heysc, hexpos⟩ := hwf
  have hcep : nb.childExtent.pden := by
    rw [hce]
    exact Scalar.pden_mul _ _ hex hsclp
  have hoffp : nb.childOffset.pden := by
    rw [hoff]
    exact Scalar.pden_sub _ _ hex hcep
  have heyp : nb.bounds.ey.pden := by
    rw [heysc]
    exact hex
  have hex0 : 0 < nb.bounds.ex.toRat := by
    have h0 := (Scalar.toRat_lt 0 nb.bounds.ex (Scalar.pden_ofNat 0) hex).1 hexpos
    rwa [Scalar.toRat_zero] at h0
  have hceR : nb.childExtent.toRat = nb.bounds.ex.toRat * (chldExtentScl o).toRat := by
    rw [hce, Scalar.toRat_mul _ _ hex hsclp]
  have hoffR : nb.childOffset.toRat = nb.bounds.ex.toRat - nb.childExtent.toRat := by
    rw [hoff, Scalar.toRat_sub _ _ hex hcep]
  have heyR : nb.bounds.ey.toRat = nb.bounds.ex.toRat := by
    rw [heysc]
  unfold covers at hcov
  obtain ⟨hc1, hc2, hc3, hc4⟩ := hcov
  have hC1 := (Scalar.toRat_le _ _ (Scalar.pden_sub _ _ hqcx hqex)
    (Scalar.pden_sub _ _ hcx hex)).1 hc1
  rw [Scalar.toRat_sub _ _ hqcx hqex, Scalar.toRat_sub _ _ hcx hex] at hC1
  have hC2 := (Scalar.toRat_le _ _ (Scalar.pden_add _ _ hcx hex)
    (Scalar.pden_add _ _ hqcx hqex)).1 hc2
  rw [Scalar.toRat_add _ _ hcx hex, Scalar.toRat_add _ _ hqcx hqex] at hC2
  have hC3 := (Scalar.toRat_le _ _ (Scalar.pden_sub _ _ hqcy hqey)
    (Scalar.pden_sub _ _ hcy heyp)).1 hc3
  rw [Scalar.toRat_sub _ _ hqcy hqey, Scalar.toRat_sub _ _ hcy heyp, heyR] at hC3
  have hC4 := (Scalar.toRat_le _ _ (Scalar.pden_add _ _ hcy heyp)
    (Scalar.pden_add _ _ hqcy hqey)).1 hc4
  rw [Scalar.toRat_add _ _ hcy heyp, Scalar.toRat_add _ _ hqcy hqey, heyR] at hC4
  refine ⟨hcep, hoffp, ?_, ?_, hoffR, hex0, heyR, hC1, hC2, hC3, hC4⟩
  · rw [hceR]
    positivity
  · rw [hceR]
    nlinarith

/-- Inside a covering query every child-quadrant mask bit is set: the
four half-plane tests of `findIntersectingChildren` all pass. -/
theorem findIntersectingChildren_all (o : QOpts) (q : Rect2) (nb : NodeBounds)
    (hs : o.sane) (hq : q.pdens) (h : GoodNB o q nb) (i : Fin 4) :
    ((nb.findIntersectingChildren q).containsChild i) = true := by
  obtain ⟨hcep, hoffp, hce0, hcee, hoffR, hex0, heyR, hC1, hC2, hC3, hC4⟩ :=
    GoodNB_reals o q nb hs hq h
  have hq' := hq
  unfold Rect2.pdens at hq'
  obtain ⟨hqcx, hqcy, hqex, hqey⟩ := hq'
  have h' := h
  unfold GoodNB at h'
  obtain ⟨-, -, hcx, hcy, hex⟩ := h'
  have hcyp : nb.bounds.cy.pden := hcy
  have hposX : (nb.findIntersectingChildren q).posX = true := by
    simp only [NodeBounds.findIntersectingChildren, Rect2.centerF4, Rect2.extentsF4,
      F4.add, F4.sub, F4.splat]
    rw [decide_eq_true_eq]
    rw [Scalar.toRat_lt _ _ (Scalar.pden_sub _ _ (Scalar.pden_add _ _ hcx hoffp) hcep)
      (Scalar.pden_add _ _ hqcx hqex),
      Scalar.toRat_sub _ _ (Scalar.pden_add _ _ hcx hoffp) hcep,
      Scalar.toRat_add _ _ hcx hoffp, Scalar.toRat_add _ _ hqcx hqex]
    linarith
  have hposY : (nb.findIntersectingChildren q).posY = true := by
    simp only [NodeBounds.findIntersectingChildren, Rect2.centerF4, Rect2.extentsF4,
      F4.add, F4.sub, F4.splat]
    rw [decide_eq_true_eq]
    rw [Scalar.toRat_lt _ _ (Scalar.pden_sub _ _ (Scalar.pden_add _ _ hcyp hoffp) hcep)
      (Scalar.pden_add _ _ hqcy hqey),
      Scalar.toRat_sub _ _ (Scalar.pden_add _ _ hcyp hoffp) hcep,
      Scalar.toRat_add _ _ hcyp hoffp, Scalar.toRat_add _ _ hqcy hqey]
    linarith
  have hnegX : (nb.findIntersectingChildren q).negX = true := by
    simp only [NodeBounds.findIntersectingChildren, Rect2.centerF4, Rect2.extentsF4,
      F4.add, F4.sub, F4.splat]
    rw [decide_eq_true_eq]
    rw [Scalar.toRat_le _ _ (Scalar.pden_sub _ _ hqcx hqex)
      (Scalar.pden_add _ _ (Scalar.pden_sub _ _ hcx hoffp) hcep),
      Scalar.toRat_sub _ _ hqcx hqex,
      Scalar.toRat_add _ _ (Scalar.pden_sub _ _ hcx hoffp) hcep,
      Scalar.toRat_sub _ _ hcx hoffp]
    linarith
  have hnegY : (nb.findIntersectingChildren q).negY = true := by
    simp only [NodeBounds.findIntersectingChildren, Rect2.centerF4, Rect2.extentsF4,
      F4.add, F4.sub, F4.splat]
    rw [decide_eq_true_eq]
    rw [Scalar.toRat_le _ _ (Scalar.pden_sub _ _ hqcy hqey)
      (Scalar.pden_add _ _ (Scalar.pden_sub _ _ hcyp hoffp) hcep),
      Scalar.toRat_sub _ _ hqcy hqey,
      Scalar.toRat_add _ _ (Scalar.pden_sub _ _ hcyp hoffp) hcep,
      Scalar.toRat_sub _ _ hcyp hoffp]
    linarith
  unfold NodeChildRange.containsChild
  split <;> split <;> simp [hposX, hposY, hnegX, hnegY]

/-- Children of a good node-bounds handle (any center-offset signs) are
good: the child box stays inside the parent box, hence inside the
query. -/
theorem ofChild_good (o : QOpts) (q : Rect2) (nb : NodeBounds)
    (hs : o.sane) (hq : q.pdens) (h : GoodNB o q nb) (mx my : Scalar)
    (hmx : mx = 1 ∨ mx = -1) (hmy : my = 1 ∨ my = -1) :
    GoodNB o q (NodeBounds.ofRect o
      ⟨nb.bounds.cx + nb.childOffset * mx, nb.bounds.cy + nb.childOffset * my,
       nb.childExtent, nb.childExtent⟩) := by
  obtain ⟨hcep, hoffp, hce0, hcee, hoffR, hex0, heyR, hC1, hC2, hC3, hC4⟩ :=
    GoodNB_reals o q nb hs hq h
  have hq' := hq
  unfold Rect2.pdens at hq'
  obtain ⟨hqcx, hqcy, hqex, hqey⟩ := hq'
  have h' := h
  unfold GoodNB at h'
  obtain ⟨-, -, hcx, hcy, hex⟩ := h'
  have hmxp : mx.pden := by
    rcases hmx with hm | hm <;> rw [hm]
    · exact Scalar.pden_ofNat 1
    · exact Scalar.pden_neg _ (Scalar.pden_ofNat 1)
  have hmyp : my.pden := by
    rcases hmy with hm | hm <;> rw [hm]
    · exact Scalar.pden_ofNat 1
    · exact Scalar.pden_neg _ (Scalar.pden_ofNat 1)
  have hmxR : mx.toRat = 1 ∨ mx.toRat = -1 := by
    rcases hmx with hm | hm <;> rw [hm]
    · exact Or.inl Scalar.toRat_one
    · exact Or.inr Scalar.toRat_negOne
  have hmyR : my.toRat = 1 ∨ my.toRat = -1 := by
    rcases hmy with hm | hm <;> rw [hm]
    · exact Or.inl Scalar.toRat_one
    · exact Or.inr Scalar.toRat_negOne
  have hccxp : (nb.bounds.cx + nb.childOffset * mx).pden :=
    Scalar.pden_add _ _ hcx (Scalar.pden_mul _ _ hoffp hmxp)
  have hccyp : (nb.bounds.cy + nb.childOffset * my).pden :=
    Scalar.pden_add _ _ hcy (Scalar.pden_mul _ _ hoffp hmyp)
  have hccxR : (nb.bounds.cx + nb.childOffset * mx).toRat =
      nb.bounds.cx.toRat + nb.childOffset.toRat * mx.toRat := by
    rw [Scalar.toRat_add _ _ hcx (Scalar.pden_mul _ _ hoffp hmxp),
      Scalar.toRat_mul _ _ hoffp hmxp]
  have hccyR : (nb.bounds.cy + nb.childOffset * my).toRat =
      nb.bounds.cy.toRat + nb.childOffset.toRat * my.toRat := by
    rw [Scalar.toRat_add _ _ hcy (Scalar.pden_mul _ _ hoffp hmyp),
      Scalar.toRat_mul _ _ hoffp hmyp]
  unfold GoodNB
  refine ⟨⟨rfl, rfl, ?_⟩, ⟨?_, ?_, ?_, ?_⟩, hccxp, hccyp, hcep⟩
  · rw [ofRect_bounds]
    show (0 : Scalar) < nb.childExtent
    rw [Scalar.toRat_lt _ _ (Scalar.pden_ofNat 0) hcep, Scalar.toRat_zero]
    exact hce0
  · rw [ofRect_bounds]
    show q.cx - q.ex ≤ (nb.bounds.cx + nb.childOffset * mx) - nb.childExtent
    rw [Scalar.toRat_le _ _ (Scalar.pden_sub _ _ hqcx hqex)
      (Scalar.pden_sub _ _ hccxp hcep),
      Scalar.toRat_sub _ _ hqcx hqex, Scalar.toRat_sub _ _ hccxp hcep, hccxR]
    rcases hmxR with hm | hm <;> rw [hm] <;> linarith
  · rw [ofRect_bounds]
    show (nb.bounds.cx + nb.childOffset * mx) + nb.childExtent ≤ q.cx + q.ex
    rw [Scalar.toRat_le _ _ (Scalar.pden_add _ _ hccxp hcep)
      (Scalar.pden_add _ _ hqcx hqex),
      Scalar.toRat_add _ _ hccxp hcep, Scalar.toRat_add _ _ hqcx hqex, hccxR]
    rcases hmxR with hm | hm <;> rw [hm] <;> linarith
  · rw [ofRect_bounds]
    show q.cy - q.ey ≤ (nb.bounds.cy + nb.childOffset * my) - nb.childExtent
    rw [Scalar.toRat_le _ _ (Scalar.pden_sub _ _ hqcy hqey)
      (Scalar.pden_sub _ _ hccyp hcep),
      Scalar.toRat_sub _ _ hqcy hqey, Scalar.toRat_sub _ _ hccyp hcep, hccyR]
    rcases hmyR with hm | hm <;> rw [hm] <;> linarith
  · rw [ofRect_bounds]
    show (nb.bounds.cy + nb.childOffset * my) + nb.childExtent ≤ q.cy + q.ey
    rw [Scalar.toRat_le _ _ (Scalar.pden_add _ _ hccyp hcep)
      (Scalar.pden_add _ _ hqcy hqey),
      Scalar.toRat_add _ _ hccyp hcep, Scalar.toRat_add _ _ hqcy hqey, hccyR]
    rcases hmyR with hm | hm <;> rw [hm] <;> linarith

/-- `getChild` of a good handle is good, for every child index. -/
theorem getChild_good (o : QOpts) (q : Rect2) (nb : NodeBounds) (i : Fin 4)
    (hs : o.sane) (hq : q.pdens) (h : GoodNB o q nb) :
    GoodNB o q (nb.getChild o i) := by
  have hmx : (if i.val % 2 = 1 then (1 : Scalar) else -1) = 1 ∨
      (if i.val % 2 = 1 then (1 : Scalar) else -1) = -1 := by
    split
    · exact Or.inl rfl
    · exact Or.inr rfl
  have hmy : (if i.val / 2 = 1 then (1 : Scalar) else -1) = 1 ∨
      (if i.val / 2 = 1 then (1 : Scalar) else -1) = -1 := by
    split
    · exact Or.inl rfl
    · exact Or.inr rfl
  exact ofChild_good o q nb hs hq h _ _ hmx hmy

theorem dar_zero (m : Nat) (hm : 0 < m) : divideAndRoundUp 0 m = 0 := by
  unfold divideAndRoundUp
  rw [Nat.zero_add, Nat.div_eq_of_lt (by omega)]

theorem dar_succ (m c : Nat) (hm : 0 < m) :
    divideAndRoundUp (c + 1) m = c / m + 1 := by
  unfold divideAndRoundUp
  rw [show c + 1 + m - 1 = c + m from by omega, Nat.add_div_right c hm]

theorem dar_of_dvd (m c : Nat) (hm : 0 < m) (h : c % m = 0) :
    divideAndRoundUp c m = c / m := by
  unfold divideAndRoundUp
  have hd := Nat.div_add_mod c m
  rw [h, Nat.add_zero] at hd
  conv_lhs => rw [← hd]
  rw [Nat.mul_comm m (c / m)]
  rw [show c / m * m + m - 1 = (m - 1) + c / m * m from by
    generalize c / m * m = A
    omega]
  rw [Nat.add_mul_div_right _ _ hm, Nat.div_eq_of_lt (by omega), Nat.zero_add]

theorem dar_of_not_dvd (m c : Nat) (hm : 0 < m) (h : c % m ≠ 0) :
    divideAndRoundUp c m = c / m + 1 := by
  unfold divideAndRoundUp
  have hd := Nat.div_add_mod c m
  have hd' : c / m * m + c % m = c := by
    rw [Nat.mul_comm m (c / m)] at hd
    exact hd
  have hlt : c % m < m := Nat.mod_lt c hm
  have hpos : 0 < c % m := Nat.pos_of_ne_zero h
  rw [show c + m - 1 = (c % m - 1) + (c / m + 1) * m from by
    rw [Nat.add_mul, Nat.one_mul]
    generalize c / m * m = A at hd' ⊢
    omega]
  rw [Nat.add_mul_div_right _ _ hm, Nat.div_eq_of_lt (by omega), Nat.zero_add]

theorem eig_succ_zero (m c : Nat) (hm : 0 < m) (h : c % m = 0) :
    (c + 1) - (divideAndRoundUp (c + 1) m - 1) * m = 1 := by
  rw [dar_succ m c hm, Nat.add_sub_cancel]
  have hd := Nat.div_add_mod c m
  rw [h, Nat.add_zero, Nat.mul_comm] at hd
  generalize c / m * m = A at hd ⊢
  omega

theorem eig_succ_pos (m c : Nat) (hm : 0 < m) (_h : c % m ≠ 0) :
    (c + 1) - (divideAndRoundUp (c + 1) m - 1) * m = c % m + 1 := by
  rw [dar_succ m c hm, Nat.add_sub_cancel]
  have hd := Nat.div_add_mod c m
  rw [Nat.mul_comm m (c / m)] at hd
  have hlt : c % m < m := Nat.mod_lt c hm
  generalize c / m * m = A at hd ⊢
  omega

theorem eig_of_not_dvd (m c : Nat) (hm : 0 < m) (h : c % m ≠ 0) :
    c - (divideAndRoundUp c m - 1) * m = c % m := by
  rw [dar_of_not_dvd m c hm h, Nat.add_sub_cancel]
  have hd := Nat.div_add_mod c m
  rw [Nat.mul_comm m (c / m)] at hd
  generalize c / m * m = A at hd ⊢
  omega

theorem eig_of_dvd_pos (m c : Nat) (hm : 0 < m) (h : c % m = 0) (hc : 0 < c) :
    c - (divideAndRoundUp c m - 1) * m = m := by
  rw [dar_of_dvd m c hm h, Nat.sub_one_mul]
  have hd := Nat.div_add_mod c m
  rw [h, Nat.add_zero, Nat.mul_comm] at hd
  have hq : 0 < c / m := by
    rcases Nat.eq_zero_or_pos (c / m) with h0 | h0
    · rw [h0, Nat.zero_mul] at hd
      omega
    · exact h0
  have hmle : m ≤ c / m * m := by
    calc m = 1 * m := (Nat.one_mul m).symm
    _ ≤ c / m * m := Nat.mul_le_mul_right m hq
  generalize c / m * m = A at hd hmle ⊢
  omega

theorem dar_pos_facts (m c : Nat) (hm : 0 < m) (hc : 0 < c) :
    0 < divideAndRoundUp c m ∧ divideAndRoundUp c m ≤ c ∧
    (divideAndRoundUp c m - 1) * m ≤ c ∧
    0 < c - (divideAndRoundUp c m - 1) * m ∧
    c - (divideAndRoundUp c m - 1) * m ≤ m := by
  by_cases h : c % m = 0
  · have he := eig_of_dvd_pos m c hm h hc
    have hq : 0 < c / m := by
      rcases Nat.eq_zero_or_pos (c / m) with h0 | h0
      · have hd := Nat.div_add_mod c m
        rw [h, Nat.add_zero, h0, Nat.mul_zero] at hd
        omega
      · exact h0
    rw [dar_of_dvd m c hm h] at he ⊢
    have hds := Nat.div_le_self c m
    generalize (c / m - 1) * m = X at he ⊢
    omega
  · have he := eig_of_not_dvd m c hm h
    have hlt : c % m < m := Nat.mod_lt c hm
    have hpos : 0 < c % m := Nat.pos_of_ne_zero h
    have hm2 : 2 ≤ m := by
      rcases Nat.lt_or_ge m 2 with h2 | h2
      · have hm1 : m = 1 := by omega
        rw [hm1, Nat.mod_one] at h
        exact absurd rfl h
      · exact h2
    have hdlt : c / m < c := Nat.div_lt_self hc (by omega)
    have hXle : (c / m + 1 - 1) * m ≤ c := by
      rw [Nat.add_sub_cancel]
      exact Nat.div_mul_le_self c m
    have hq1 : 0 < c / m + 1 := Nat.succ_pos (c / m)
    rw [dar_of_not_dvd m c hm h] at he ⊢
    generalize (c / m + 1 - 1) * m = X at he hXle ⊢
    omega

theorem elemsInFirstGroup_eq (o : QOpts) (c : Nat) :
    elemsInFirstGroup o c =
      c - (divideAndRoundUp c o.maxElementsPerNode - 1) * o.maxElementsPerNode := rfl

theorem set_take_succ {α : Type} (l : List α) (i : Nat) (v : α) (h : i < l.length) :
    (l.set i v).take (i + 1) = l.take i ++ [v] := by
  induction l generalizing i with
  | nil => simp at h
  | cons x xs ih =>
    cases i with
    | zero => simp
    | succ j =>
      rw [List.set_cons_succ, List.take_succ_cons, List.take_succ_cons,
        ih j (by simpa using h), List.cons_append]

theorem setGrp_cons_zero {α : Type} (x : List α) (rest : List (List α)) (j : Nat) (v : α) :
    setGrp (x :: rest) 0 j v = (x.set j v) :: rest := rfl

theorem push_eq_fresh (o : QOpts) (vals : List (List Nat)) (bnds : List (List Rect2))
    (cnt : Nat) (v : Nat) (b : Rect2) (h : cnt % o.maxElementsPerNode = 0) :
    NodeElements.push o ⟨vals, bnds, cnt⟩ v b =
      (⟨setGrp (List.replicate o.maxElementsPerNode 0 :: vals) 0 0 v,
        setGrp (List.replicate o.maxElementsPerNode default :: bnds) 0 0 b,
        cnt + 1⟩, cnt) := by
  simp [NodeElements.push, h]

theorem push_eq_stay (o : QOpts) (vals : List (List Nat)) (bnds : List (List Rect2))
    (cnt : Nat) (v : Nat) (b : Rect2) (h : cnt % o.maxElementsPerNode ≠ 0) :
    NodeElements.push o ⟨vals, bnds, cnt⟩ v b =
      (⟨setGrp vals 0 (cnt % o.maxElementsPerNode) v,
        setGrp bnds 0 (cnt % o.maxElementsPerNode) b, cnt + 1⟩, cnt) := by
  simp [NodeElements.push, h]

theorem NodeElements_WF_iff (o : QOpts) (es : NodeElements) :
    es.WF o ↔
      es.values.length = divideAndRoundUp es.count o.maxElementsPerNode ∧
      es.bounds.length = es.values.length ∧
      (∀ g ∈ es.values, g.length = o.maxElementsPerNode) ∧
      (∀ b ∈ es.bounds, b.length = o.maxElementsPerNode) ∧
      es.count < 2 ^ 32 := Iff.rfl

/-- A node's storage holds exactly `count` pairs in iteration order. -/
theorem iterPairs_length (o : QOpts) (es : NodeElements)
    (hm : 0 < o.maxElementsPerNode) (hwf : es.WF o) :
    (iterPairs o es).length = es.count := by
  obtain ⟨vals, bnds, cnt⟩ := es
  rw [NodeElements_WF_iff] at hwf
  obtain ⟨hvl, hbl, hgv, hgb, hlt⟩ := hwf
  dsimp only at hvl hbl hgv hgb hlt
  unfold iterPairs
  dsimp only
  cases vals with
  | nil =>
    have hc0 : cnt = 0 := by
      by_contra hc
      have := (dar_pos_facts o.maxElementsPerNode cnt hm (Nat.pos_of_ne_zero hc)).1
      simp at hvl
      omega
    simp [hc0]
  | cons g gs =>
    cases bnds with
    | nil => simp at hbl
    | cons bb bs =>
      have hcpos : 0 < cnt := by
        by_contra hc
        have hc0 : cnt = 0 := by omega
        rw [hc0, dar_zero _ hm] at hvl
        simp at hvl
      obtain ⟨hd1, hd2, hd3, hd4, hd5⟩ := dar_pos_facts o.maxElementsPerNode cnt hm hcpos
      have hgl : g.length = o.maxElementsPerNode := hgv g (List.mem_cons_self g gs)
      have hbbl : bb.length = o.maxElementsPerNode := hgb bb (List.mem_cons_self bb bs)
      rw [List.length_append, List.length_flatMap]
      have hfirst : (((g.take (elemsInFirstGroup o cnt)).zip
          (bb.take (elemsInFirstGroup o cnt)))).length = elemsInFirstGroup o cnt := by
        rw [List.length_zip, List.length_take, List.length_take, hgl, hbbl]
        rw [elemsInFirstGroup_eq]
        omega
      have hmap : ((gs.zip bs).map (List.length ∘ fun p =>
          (p.1.take o.maxElementsPerNode).zip (p.2.take o.maxElementsPerNode))) =
          (gs.zip bs).map (fun _ => o.maxElementsPerNode) := by
        apply List.map_congr_left
        intro p hp
        obtain ⟨hp1, hp2⟩ := List.of_mem_zip hp
        have h1 : p.1.length = o.maxElementsPerNode := hgv p.1 (List.mem_cons_of_mem g hp1)
        have h2 : p.2.length = o.maxElementsPerNode := hgb p.2 (List.mem_cons_of_mem bb hp2)
        simp [List.length_zip, List.length_take, h1, h2]
      rw [hfirst, hmap, List.map_const', List.sum_replicate, smul_eq_mul]
      have hzl : (gs.zip bs).length = gs.length := by
        rw [List.length_zip]
        simp at hbl hvl
        omega
      rw [hzl]
      have hgsl : gs.length = divideAndRoundUp cnt o.maxElementsPerNode - 1 := by
        simp at hvl
        omega
      rw [hgsl, elemsInFirstGroup_eq]
      omega

/-- `pushElement`'s storage effect: well-formedness is preserved, the
count increments, and the stored pairs gain exactly the new element (a
permutation: the source writes it into the first group's free slot,
which sits in the middle of the iteration order). -/
theorem push_spec (o : QOpts) (es : NodeElements) (v : Nat) (b : Rect2)
    (hm : 0 < o.maxElementsPerNode) (hwf : es.WF o) (hcap : es.count + 1 < 2 ^ 32) :
    (es.push o v b).1.WF o ∧ (es.push o v b).1.count = es.count + 1 ∧
    (iterPairs o (es.push o v b).1).Perm ((v, b) :: iterPairs o es) := by
  obtain ⟨vals, bnds, cnt⟩ := es
  rw [NodeElements_WF_iff] at hwf
  obtain ⟨hvl, hbl, hgv, hgb, hlt⟩ := hwf
  dsimp only at hvl hbl hgv hgb hlt hcap
  by_cases hfr : cnt % o.maxElementsPerNode = 0
  · rw [push_eq_fresh o vals bnds cnt v b hfr]
    obtain ⟨m', hm'⟩ : ∃ m', o.maxElementsPerNode = m' + 1 :=
      ⟨o.maxElementsPerNode - 1, by omega⟩
    have hrep : (List.replicate o.maxElementsPerNode (0 : Nat)).set 0 v =
        v :: List.replicate m' 0 := by
      rw [hm', List.replicate_succ]
      rfl
    have hrepb : (List.replicate o.maxElementsPerNode (default : Rect2)).set 0 b =
        b :: List.replicate m' default := by
      rw [hm', List.replicate_succ]
      rfl
    rw [setGrp_cons_zero, setGrp_cons_zero, hrep, hrepb]
    have hdar : divideAndRoundUp (cnt + 1) o.maxElementsPerNode =
        divideAndRoundUp cnt o.maxElementsPerNode + 1 := by
      rw [dar_succ _ _ hm, dar_of_dvd _ _ hm hfr]
    refine ⟨?_, rfl, ?_⟩
    · rw [NodeElements_WF_iff]
      refine ⟨?_, ?_, ?_, ?_, hcap⟩
      · dsimp only
        rw [List.length_cons, hvl, hdar]
      · dsimp only
        rw [List.length_cons, List.length_cons, hbl]
      · intro g hg
        rcases List.mem_cons.1 hg with hg | hg
        · rw [hg, List.length_cons, List.length_replicate, hm']
        · exact hgv g hg
      · intro g hg
        rcases List.mem_cons.1 hg with hg | hg
        · rw [hg, List.length_cons, List.length_replicate, hm']
        · exact hgb g hg
    · have heig : elemsInFirstGroup o (cnt + 1) = 1 := by
        rw [elemsInFirstGroup_eq]
        exact eig_succ_zero _ _ hm hfr
      cases vals with
      | nil =>
        cases bnds with
        | nil =>
          unfold iterPairs
          dsimp only
          rw [heig]
          simp
        | cons bb bs => simp at hbl
      | cons g gs =>
        cases bnds with
        | nil => simp at hbl
        | cons bb bs =>
          have hcpos : 0 < cnt := by
            by_contra hc
            have hc0 : cnt = 0 := by omega
            rw [hc0, dar_zero _ hm] at hvl
            simp at hvl
          have heigold : elemsInFirstGroup o cnt = o.maxElementsPerNode := by
            rw [elemsInFirstGroup_eq]
            exact eig_of_dvd_pos _ _ hm hfr hcpos
          have hgl : g.length = o.maxElementsPerNode := hgv g (List.mem_cons_self g gs)
          have hbbl : bb.length = o.maxElementsPerNode := hgb bb (List.mem_cons_self bb bs)
          unfold iterPairs
          dsimp only
          rw [heig, heigold]
          simp only [List.take_succ_cons, List.take_zero, List.zip_cons_cons,
            List.zip_nil_right, List.flatMap_cons]
          rw [List.singleton_append]
  · rw [push_eq_stay o vals bnds cnt v b hfr]
    have hcpos : 0 < cnt := by
      by_contra hc
      have hc0 : cnt = 0 := by omega
      rw [hc0, Nat.zero_mod] at hfr
      exact hfr rfl
    have hmodlt : cnt % o.maxElementsPerNode < o.maxElementsPerNode :=
      Nat.mod_lt cnt hm
    cases vals with
    | nil =>
      exfalso
      have := (dar_pos_facts o.maxElementsPerNode cnt hm hcpos).1
      simp at hvl
      omega
    | cons g gs =>
      cases bnds with
      | nil => simp at hbl
      | cons bb bs =>
        rw [setGrp_cons_zero, setGrp_cons_zero]
        have hgl : g.length = o.maxElementsPerNode := hgv g (List.mem_cons_self g gs)
        have hbbl : bb.length = o.maxElementsPerNode := hgb bb (List.mem_cons_self bb bs)
        have hdar : divideAndRoundUp (cnt + 1) o.maxElementsPerNode =
            divideAndRoundUp cnt o.maxElementsPerNode := by
          rw [dar_succ _ _ hm, dar_of_not_dvd _ _ hm hfr]
        refine ⟨?_, rfl, ?_⟩
        · rw [NodeElements_WF_iff]
          refine ⟨?_, ?_, ?_, ?_, hcap⟩
          · dsimp only
            rw [List.length_cons, hdar, ← hvl, List.length_cons]
          · dsimp only
            rw [List.length_cons, List.length_cons]
            simp at hbl
            omega
          · intro g1 hg1
            rcases List.mem_cons.1 hg1 with hg1 | hg1
            · rw [hg1, List.length_set]
              exact hgl
            · exact hgv g1 (List.mem_cons_of_mem g hg1)
          · intro g1 hg1
            rcases List.mem_cons.1 hg1 with hg1 | hg1
            · rw [hg1, List.length_set]
              exact hbbl
            · exact hgb g1 (List.mem_cons_of_mem bb hg1)
        · unfold iterPairs
          dsimp only
          have heig : elemsInFirstGroup o (cnt + 1) = cnt % o.maxElementsPerNode + 1 := by
            rw [elemsInFirstGroup_eq]
            exact eig_succ_pos _ _ hm hfr
          have heigold : elemsInFirstGroup o cnt = cnt % o.maxElementsPerNode := by
            rw [elemsInFirstGroup_eq]
            exact eig_of_not_dvd _ _ hm hfr
          rw [heig, heigold]
          rw [set_take_succ g _ v (by omega), set_take_succ bb _ b (by omega)]
          rw [List.zip_append (by
            rw [List.length_take, List.length_take, hgl, hbbl])]
          rw [List.append_assoc]
          exact List.perm_middle

theorem sub32_exact (a b : Nat) (h1 : b ≤ a) (h2 : a < 2 ^ 32) : sub32 a b = a - b := by
  unfold sub32
  rw [Nat.mod_eq_of_lt h2, Nat.mod_eq_of_lt (lt_of_le_of_lt h1 h2)]
  rw [show a + 2 ^ 32 - b = (a - b) + 2 ^ 32 from by omega, Nat.add_mod_right]
  exact Nat.mod_eq_of_lt (by omega)

theorem ofNode_eig_raw (o : QOpts) (c : Nat) (hm : 0 < o.maxElementsPerNode)
    (hcap : c < 2 ^ 32) (hc : 0 < c) :
    sub32 c (sub32 (divideAndRoundUp c o.maxElementsPerNode) 1 * o.maxElementsPerNode) =
      elemsInFirstGroup o c := by
  obtain ⟨hd1, hd2, hd3, hd4, hd5⟩ := dar_pos_facts o.maxElementsPerNode c hm hc
  rw [sub32_exact _ 1 hd1 (by omega), sub32_exact _ _ hd3 hcap, elemsInFirstGroup_eq]

theorem count_pos_of_values_ne (o : QOpts) (es : NodeElements) (hm : 0 < o.maxElementsPerNode)
    (hwf : es.WF o) (hne : es.values ≠ []) : 0 < es.count := by
  obtain ⟨hvl, -, -, -, -⟩ := (NodeElements_WF_iff o es).1 hwf
  by_contra hc
  have hc0 : es.count = 0 := by omega
  rw [hc0, dar_zero _ hm] at hvl
  exact hne (List.eq_nil_of_length_eq_zero hvl)

/-- The `ElementIterator(node)` constructor establishes the iterator
invariant. -/
theorem EIInv_ofNode (o : QOpts) (n : QNode) (hm : 0 < o.maxElementsPerNode)
    (hwf : n.elems.WF o) : EIInv o (EIState.ofNode o n) := by
  obtain ⟨hvl, hbl, hgv, hgb, hlt⟩ := (NodeElements_WF_iff o n.elems).1 hwf
  unfold EIInv EIState.ofNode
  dsimp only
  refine ⟨hbl, hgv, hgb, ?_⟩
  intro hne
  have hc : 0 < n.elems.count := count_pos_of_values_ne o n.elems hm hwf hne
  rw [ofNode_eig_raw o _ hm hlt hc]
  obtain ⟨-, -, hd3, hd4, hd5⟩ := dar_pos_facts o.maxElementsPerNode n.elems.count hm hc
  rw [elemsInFirstGroup_eq]
  refine ⟨hd5, hd4, by omega, by omega⟩

/-- A fresh element iterator has the whole node storage pending. -/
theorem eiPend_ofNode (o : QOpts) (n : QNode) (hm : 0 < o.maxElementsPerNode)
    (hwf : n.elems.WF o) : eiPend o (EIState.ofNode o n) = iterPairs o n.elems := by
  obtain ⟨hvl, hbl, hgv, hgb, hlt⟩ := (NodeElements_WF_iff o n.elems).1 hwf
  unfold eiPend iterPairs EIState.ofNode
  dsimp only
  cases hv : n.elems.values with
  | nil => rfl
  | cons g gs =>
    cases hb : n.elems.bounds with
    | nil => rfl
    | cons bb bs =>
      have hc : 0 < n.elems.count :=
        count_pos_of_values_ne o n.elems hm hwf (by rw [hv]; exact List.cons_ne_nil g gs)
      rw [ofNode_eig_raw o _ hm hlt hc]
      dsimp only
      rw [show ((-1 : Int) + 1).toNat = 0 from by omega, List.drop_zero]

/-- One `ElementIterator::moveNext` step: on success the invariant is
maintained and the pending list loses exactly the pair the iterator now
points at; on failure nothing was pending. -/
theorem ei_step (o : QOpts) (ei : EIState) (hm : 0 < o.maxElementsPerNode)
    (hinv : EIInv o ei) :
    ((ei.moveNext o).1 = true →
      EIInv o (ei.moveNext o).2 ∧
      eiPend o ei = ((ei.moveNext o).2.curElem, (ei.moveNext o).2.curBounds) ::
        eiPend o (ei.moveNext o).2) ∧
    ((ei.moveNext o).1 = false → eiPend o ei = []) := by
  obtain ⟨cur, groups, bgroups, eig⟩ := ei
  unfold EIInv at hinv
  dsimp only at hinv
  obtain ⟨hbl, hgv, hgb, hne⟩ := hinv
  cases groups with
  | nil =>
    constructor
    · intro h
      unfold EIState.moveNext at h
      exact Bool.noConfusion h
    · intro h
      rfl
  | cons g gs =>
    obtain ⟨hele, hele0, hlo, hhi⟩ := hne (List.cons_ne_nil g gs)
    have hgl : g.length = o.maxElementsPerNode := hgv g (List.mem_cons_self g gs)
    cases bgroups with
    | nil =>
      exfalso
      simp only [List.length_cons, List.length_nil] at hbl
      omega
    | cons bb bs =>
      have hbbl : bb.length = o.maxElementsPerNode := hgb bb (List.mem_cons_self bb bs)
      unfold EIState.moveNext
      dsimp only
      by_cases hidx : cur + 1 = (eig : Int)
      · rw [if_pos hidx]
        have hdropnil :
            (((g.take eig).zip (bb.take eig)).drop (cur + 1).toNat) = [] := by
          apply List.drop_eq_nil_of_le
          rw [List.length_zip, List.length_take, List.length_take, hgl, hbbl]
          omega
        cases gs with
        | nil =>
          dsimp only
          constructor
          · intro h
            exact Bool.noConfusion h
          · intro h
            unfold eiPend
            dsimp only
            rw [hdropnil, List.zip_nil_left, List.flatMap_nil, List.append_nil]
        | cons g1 gs' =>
          dsimp only
          constructor
          · intro h
            have hg1l : g1.length = o.maxElementsPerNode :=
              hgv g1 (List.mem_cons_of_mem g (List.mem_cons_self g1 gs'))
            cases bs with
            | nil =>
              exfalso
              simp only [List.length_cons, List.length_nil] at hbl
              omega
            | cons b1 bs' =>
              have hb1l : b1.length = o.maxElementsPerNode :=
                hgb b1 (List.mem_cons_of_mem bb (List.mem_cons_self b1 bs'))
              constructor
              · unfold EIInv
                dsimp only
                refine ⟨?_, ?_, ?_, ?_⟩
                · simp only [List.length_cons, List.tail_cons] at hbl ⊢
                  omega
                · intro g2 hg2
                  exact hgv g2 (List.mem_cons_of_mem g hg2)
                · intro b2 hb2
                  exact hgb b2 (List.mem_cons_of_mem bb hb2)
                · intro h2
                  refine ⟨Nat.le_refl _, hm, by omega, by omega⟩
              · unfold eiPend EIState.curElem EIState.curBounds
                simp only [List.headD_cons, List.tail_cons]
                rw [hdropnil, List.nil_append]
                have h0 : 0 < ((g1.take o.maxElementsPerNode).zip
                    (b1.take o.maxElementsPerNode)).length := by
                  rw [List.length_zip, List.length_take, List.length_take, hg1l, hb1l]
                  omega
                have hdec := List.drop_eq_getElem_cons h0
                rw [List.drop_zero] at hdec
                have hhead : ((g1.take o.maxElementsPerNode).zip
                    (b1.take o.maxElementsPerNode)).get ⟨0, h0⟩ =
                    (g1.getD (0 : Int).toNat 0, b1.getD (0 : Int).toNat default) := by
                  rw [List.get_eq_getElem, List.getElem_zip]
                  rw [← List.getElem_take' g1 (by omega) (by omega : (0:Nat) < o.maxElementsPerNode)]
                  rw [← List.getElem_take' b1 (by omega) (by omega : (0:Nat) < o.maxElementsPerNode)]
                  rw [List.getD_eq_getElem g1 0 (by omega), List.getD_eq_getElem b1 default (by omega)]
                  rfl
                rw [List.get_eq_getElem] at hhead
                rw [hhead] at hdec
                rw [List.zip_cons_cons, List.flatMap_cons]
                conv_lhs => rw [hdec]
                rw [List.cons_append]
                rw [show ((0 : Int) + 1).toNat = 1 from by omega]
          · intro h
            exact Bool.noConfusion h
      · rw [if_neg hidx]
        dsimp only
        constructor
        · intro h
          constructor
          · unfold EIInv
            dsimp only
            refine ⟨hbl, hgv, hgb, ?_⟩
            intro h2
            refine ⟨hele, hele0, by omega, by omega⟩
          · unfold eiPend EIState.curElem EIState.curBounds
            simp only [List.headD_cons]
            have hZl : ((g.take eig).zip (bb.take eig)).length = eig := by
              rw [List.length_zip, List.length_take, List.length_take, hgl, hbbl]
              omega
            have hj : (cur + 1).toNat < ((g.take eig).zip (bb.take eig)).length := by
              rw [hZl]
              omega
            rw [show (cur + 1 + 1).toNat = (cur + 1).toNat + 1 from by omega]
            rw [List.drop_eq_getElem_cons hj, List.cons_append]
            have hjg : (cur + 1).toNat < g.length := by
              rw [hgl]
              omega
            have hjb : (cur + 1).toNat < bb.length := by
              rw [hbbl]
              omega
            have hhead : ((g.take eig).zip (bb.take eig)).get ⟨(cur + 1).toNat, hj⟩ =
                (g.getD (cur + 1).toNat 0, bb.getD (cur + 1).toNat default) := by
              rw [List.get_eq_getElem, List.getElem_zip]
              rw [← List.getElem_take' g hjg (by omega : (cur + 1).toNat < eig)]
              rw [← List.getElem_take' bb hjb (by omega : (cur + 1).toNat < eig)]
              rw [List.getD_eq_getElem g 0 hjg, List.getD_eq_getElem bb default hjb]
            rw [List.get_eq_getElem] at hhead
            rw [hhead]
        · intro h
          exact Bool.noConfusion h

theorem optStored_none (o : QOpts) : optStored o none = [] := rfl

theorem optStored_some (o : QOpts) (n : QNode) : optStored o (some n) = n.storedRev o := rfl

theorem storedRev_mk (o : QOpts) (e : NodeElements) (t : Nat) (l : Bool)
    (c0 c1 c2 c3 : Option QNode) :
    (QNode.mk e t l c0 c1 c2 c3).storedRev o =
      iterPairs o e ++
        (optStored o c3 ++ (optStored o c2 ++ (optStored o c1 ++ optStored o c0))) := by
  rw [QNode.storedRev.eq_def]
  cases c0 <;> cases c1 <;> cases c2 <;> cases c3 <;> rfl

theorem WF_mk (o : QOpts) (e : NodeElements) (t : Nat) (l : Bool)
    (c0 c1 c2 c3 : Option QNode) :
    (QNode.mk e t l c0 c1 c2 c3).WF o ↔
      e.WF o ∧ optWF o c0 ∧ optWF o c1 ∧ optWF o c2 ∧ optWF o c3 := by
  rw [QNode.WF.eq_def]
  cases c0 <;> cases c1 <;> cases c2 <;> cases c3 <;> rfl

theorem iterPairs_default (o : QOpts) : iterPairs o (default : NodeElements) = [] := rfl

theorem storedRev_leaf (o : QOpts) : QNode.leaf.storedRev o = [] := by
  rw [QNode.leaf, storedRev_mk]
  rfl

theorem default_NE_WF (o : QOpts) (hm : 0 < o.maxElementsPerNode) :
    (default : NodeElements).WF o := by
  rw [NodeElements_WF_iff]
  refine ⟨?_, rfl, ?_, ?_, by show (0 : Nat) < 2 ^ 32; norm_num⟩
  · show (0 : Nat) = divideAndRoundUp 0 o.maxElementsPerNode
    rw [dar_zero _ hm]
  · intro g hg
    exact absurd hg (List.not_mem_nil g)
  · intro b hb
    exact absurd hb (List.not_mem_nil b)

theorem leaf_WF (o : QOpts) (hm : 0 < o.maxElementsPerNode) : QNode.leaf.WF o := by
  rw [QNode.leaf, WF_mk]
  exact ⟨default_NE_WF o hm, trivial, trivial, trivial, trivial⟩

theorem optStored_getD (o : QOpts) (copt : Option QNode) :
    optStored o copt = ((copt.getD QNode.leaf).storedRev o) := by
  cases copt with
  | none => exact (storedRev_leaf o).symm
  | some c => rfl

theorem BdOk_of_perm (o : QOpts) (n n' : QNode) (l : List Nat)
    (hp : (n'.storedRev o).Perm ((l.map fun v => (v, o.getBounds v)) ++ n.storedRev o))
    (hb : BdOk o n) : BdOk o n' := by
  intro pr hpr
  have hmem := hp.mem_iff.1 hpr
  rcases List.mem_append.1 hmem with hmem | hmem
  · obtain ⟨v, -, hv⟩ := List.mem_map.1 hmem
    rw [← hv]
  · exact hb pr hmem

theorem map_pair_iterElems (o : QOpts) (e : NodeElements)
    (hb : ∀ pr ∈ iterPairs o e, pr.2 = o.getBounds pr.1) :
    (iterElems o e).map (fun v => (v, o.getBounds v)) = iterPairs o e := by
  unfold iterElems
  rw [List.map_map]
  conv_rhs => rw [← List.map_id (iterPairs o e)]
  apply List.map_congr_left
  intro p hp
  show (p.1, o.getBounds p.1) = p
  rw [← hb p hp]

theorem perm_slot3 (p : Nat × Rect2) (A S3 S2 S1 S0 S3' : List (Nat × Rect2))
    (h : S3'.Perm (p :: S3)) :
    (A ++ (S3' ++ (S2 ++ (S1 ++ S0)))).Perm (p :: (A ++ (S3 ++ (S2 ++ (S1 ++ S0))))) := by
  have h1 : (S3' ++ (S2 ++ (S1 ++ S0))).Perm (p :: (S3 ++ (S2 ++ (S1 ++ S0)))) :=
    h.append_right _
  exact (List.Perm.append_left A h1).trans List.perm_middle

theorem perm_slot2 (p : Nat × Rect2) (A S3 S2 S1 S0 S2' : List (Nat × Rect2))
    (h : S2'.Perm (p :: S2)) :
    (A ++ (S3 ++ (S2' ++ (S1 ++ S0)))).Perm (p :: (A ++ (S3 ++ (S2 ++ (S1 ++ S0))))) := by
  have h1 : (S2' ++ (S1 ++ S0)).Perm (p :: (S2 ++ (S1 ++ S0))) := h.append_right _
  have h2 : (S3 ++ (S2' ++ (S1 ++ S0))).Perm (p :: (S3 ++ (S2 ++ (S1 ++ S0)))) :=
    (List.Perm.append_left S3 h1).trans List.perm_middle
  exact (List.Perm.append_left A h2).trans List.perm_middle

theorem perm_slot1 (p : Nat × Rect2) (A S3 S2 S1 S0 S1' : List (Nat × Rect2))
    (h : S1'.Perm (p :: S1)) :
    (A ++ (S3 ++ (S2 ++ (S1' ++ S0)))).Perm (p :: (A ++ (S3 ++ (S2 ++ (S1 ++ S0))))) := by
  have h1 : (S1' ++ S0).Perm (p :: (S1 ++ S0)) := h.append_right _
  have h2 : (S2 ++ (S1' ++ S0)).Perm (p :: (S2 ++ (S1 ++ S0))) :=
    (List.Perm.append_left S2 h1).trans List.perm_middle
  have h3 : (S3 ++ (S2 ++ (S1' ++ S0))).Perm (p :: (S3 ++ (S2 ++ (S1 ++ S0)))) :=
    (List.Perm.append_left S3 h2).trans List.perm_middle
  exact (List.Perm.append_left A h3).trans List.perm_middle

theorem perm_slot0 (p : Nat × Rect2) (A S3 S2 S1 S0 S0' : List (Nat × Rect2))
    (h : S0'.Perm (p :: S0)) :
    (A ++ (S3 ++ (S2 ++ (S1 ++ S0')))).Perm (p :: (A ++ (S3 ++ (S2 ++ (S1 ++ S0))))) := by
  have h1 : (S1 ++ S0').Perm (p :: (S1 ++ S0)) :=
    (List.Perm.append_left S1 h).trans List.perm_middle
  have h2 : (S2 ++ (S1 ++ S0')).Perm (p :: (S2 ++ (S1 ++ S0))) :=
    (List.Perm.append_left S2 h1).trans List.perm_middle
  have h3 : (S3 ++ (S2 ++ (S1 ++ S0'))).Perm (p :: (S3 ++ (S2 ++ (S1 ++ S0)))) :=
    (List.Perm.append_left S3 h2).trans List.perm_middle
  exact (List.Perm.append_left A h3).trans List.perm_middle

theorem child_WF (o : QOpts) (e : NodeElements) (t : Nat) (lf : Bool)
    (c0 c1 c2 c3 : Option QNode) (i : Fin 4) (hm : 0 < o.maxElementsPerNode)
    (h : (QNode.mk e t lf c0 c1 c2 c3).WF o) :
    (((QNode.mk e t lf c0 c1 c2 c3).child i).getD QNode.leaf).WF o := by
  rw [WF_mk] at h
  obtain ⟨-, h0, h1, h2, h3⟩ := h
  fin_cases i <;> simp only [QNode.child]
  · cases c0 with
    | none => exact leaf_WF o hm
    | some cc => exact h0
  · cases c1 with
    | none => exact leaf_WF o hm
    | some cc => exact h1
  · cases c2 with
    | none => exact leaf_WF o hm
    | some cc => exact h2
  · cases c3 with
    | none => exact leaf_WF o hm
    | some cc => exact h3

theorem child_BdOk (o : QOpts) (e : NodeElements) (t : Nat) (lf : Bool)
    (c0 c1 c2 c3 : Option QNode) (i : Fin 4)
    (hbd : BdOk o (QNode.mk e t lf c0 c1 c2 c3)) :
    BdOk o (((QNode.mk e t lf c0 c1 c2 c3).child i).getD QNode.leaf) := by
  intro pr hpr
  rw [← optStored_getD] at hpr
  apply hbd
  rw [storedRev_mk]
  fin_cases i <;> simp only [QNode.child] at hpr <;>
    simp only [List.mem_append] <;> tauto

theorem child_stored_le (o : QOpts) (e : NodeElements) (t : Nat) (lf : Bool)
    (c0 c1 c2 c3 : Option QNode) (i : Fin 4) :
    ((((QNode.mk e t lf c0 c1 c2 c3).child i).getD QNode.leaf).storedRev o).length ≤
      ((QNode.mk e t lf c0 c1 c2 c3).storedRev o).length := by
  rw [storedRev_mk, ← optStored_getD]
  fin_cases i <;> simp only [QNode.child] <;>
    simp only [List.length_append] <;> omega

theorem push_node_step (o : QOpts) (e : NodeElements) (t t' : Nat) (lf lf' : Bool)
    (c0 c1 c2 c3 : Option QNode) (v : Nat) (hm : 0 < o.maxElementsPerNode)
    (he : e.WF o) (h0 : optWF o c0) (h1 : optWF o c1) (h2 : optWF o c2) (h3 : optWF o c3)
    (hcnt : e.count + 1 < 2 ^ 32) :
    (QNode.mk (e.push o v (o.getBounds v)).1 t' lf' c0 c1 c2 c3).WF o ∧
    ((QNode.mk (e.push o v (o.getBounds v)).1 t' lf' c0 c1 c2 c3).storedRev o).Perm
      ((v, o.getBounds v) :: (QNode.mk e t lf c0 c1 c2 c3).storedRev o) := by
  obtain ⟨hwfp, hcntp, hpermp⟩ := push_spec o e v (o.getBounds v) hm he hcnt
  constructor
  · rw [WF_mk]
    exact ⟨hwfp, h0, h1, h2, h3⟩
  · rw [storedRev_mk, storedRev_mk]
    exact (hpermp.append_right _).trans (by rw [List.cons_append])

/-- `addElementToNode` (as the work-list recursion `addListToNode`):
preserves node well-formedness and adds exactly the work list's
(element, bounds) pairs to the stored pairs, up to permutation. -/
theorem addList_spec (o : QOpts) (mne : Scalar) (hm : 0 < o.maxElementsPerNode) :
    ∀ (fuel : Nat) (l : List Nat) (node node' : QNode) (nb : NodeBounds),
      node.WF o → BdOk o node →
      (node.storedRev o).length + l.length < 2 ^ 32 →
      addListToNode o mne fuel l node nb = some node' →
      node'.WF o ∧
      (node'.storedRev o).Perm
        ((l.map (fun v => (v, o.getBounds v))) ++ node.storedRev o) := by
  intro fuel
  induction fuel with
  | zero =>
    intro l node node' nb hwf hbd hlen hr
    cases l with
    | nil =>
      rw [addListToNode] at hr
      cases hr
      refine ⟨hwf, ?_⟩
      simp
    | cons v rest =>
      rw [addListToNode] at hr
      exact Option.noConfusion hr
  | succ fuel ih =>
    intro l node0 node' nb hwf hbd hlen hr
    cases l with
    | nil =>
      rw [addListToNode] at hr
      cases hr
      refine ⟨hwf, ?_⟩
      simp
    | cons v rest =>
      cases node0 with
      | mk e t lf c0 c1 c2 c3 =>
        have hwf' := hwf
        rw [WF_mk] at hwf'
        obtain ⟨he, h0, h1, h2, h3⟩ := hwf'
        have hS : (QNode.mk e t lf c0 c1 c2 c3).storedRev o =
            iterPairs o e ++
              (optStored o c3 ++ (optStored o c2 ++ (optStored o c1 ++ optStored o c0))) :=
          storedRev_mk o e t lf c0 c1 c2 c3
        have hcnt : e.count + 1 < 2 ^ 32 := by
          have hle : (iterPairs o e).length ≤ ((QNode.mk e t lf c0 c1 c2 c3).storedRev o).length := by
            rw [hS, List.length_append]
            omega
          rw [← iterPairs_length o e hm he]
          simp only [List.length_cons] at hlen
          omega
        simp only [addListToNode, QNode.withTotal, QNode.isLeaf, QNode.elems, QNode.total,
          QNode.withElems, QNode.withLeaf] at hr
        split at hr
        next hone => exact Option.noConfusion hr
        next node1 hone =>
          have hstep : node1.WF o ∧ (node1.storedRev o).Perm
              ((v, o.getBounds v) :: (QNode.mk e t lf c0 c1 c2 c3).storedRev o) := by
            split at hone
            next hleaf =>
              split at hone
              next hsplit =>
                split at hone
                next => exact Option.noConfusion hone
                next node2 haddA =>
                  have hWF1x : (QNode.mk default 0 false c0 c1 c2 c3).WF o := by
                    rw [WF_mk]
                    exact ⟨default_NE_WF o hm, h0, h1, h2, h3⟩
                  have hsr1x : (QNode.mk default 0 false c0 c1 c2 c3).storedRev o =
                      optStored o c3 ++ (optStored o c2 ++ (optStored o c1 ++ optStored o c0)) := by
                    rw [storedRev_mk, iterPairs_default, List.nil_append]
                  have hBd1x : BdOk o (QNode.mk default 0 false c0 c1 c2 c3) := by
                    intro pr hpr
                    rw [hsr1x] at hpr
                    apply hbd
                    rw [hS]
                    exact List.mem_append.2 (Or.inr hpr)
                  have hlenA : ((QNode.mk default 0 false c0 c1 c2 c3).storedRev o).length +
                      (iterElems o e).length < 2 ^ 32 := by
                    rw [hsr1x]
                    unfold iterElems
                    rw [List.length_map]
                    have : ((QNode.mk e t lf c0 c1 c2 c3).storedRev o).length =
                        (iterPairs o e).length +
                        (optStored o c3 ++ (optStored o c2 ++
                          (optStored o c1 ++ optStored o c0))).length := by
                      rw [hS, List.length_append]
                    simp only [List.length_cons] at hlen
                    omega
                  obtain ⟨hWF2, hP2⟩ := ih (iterElems o e) _ node2 nb hWF1x hBd1x hlenA haddA
                  have hbdIter : ∀ pr ∈ iterPairs o e, pr.2 = o.getBounds pr.1 := by
                    intro pr hpr
                    apply hbd
                    rw [hS]
                    exact List.mem_append.2 (Or.inl hpr)
                  have hP2' : (node2.storedRev o).Perm
                      ((QNode.mk e t lf c0 c1 c2 c3).storedRev o) := by
                    rw [hS]
                    have := hP2
                    rw [map_pair_iterElems o e hbdIter, hsr1x] at this
                    exact this
                  have hBd2 : BdOk o node2 := BdOk_of_perm o _ node2 (iterElems o e) hP2 hBd1x
                  have hlenB : (node2.storedRev o).length + ([v] : List Nat).length < 2 ^ 32 := by
                    rw [hP2'.length_eq]
                    simp only [List.length_cons, List.length_nil] at hlen ⊢
                    omega
                  obtain ⟨hWF1, hP3⟩ := ih [v] node2 node1 nb hWF2 hBd2 hlenB hone
                  refine ⟨hWF1, ?_⟩
                  exact hP3.trans (hP2'.cons (v, o.getBounds v))
              next hsplit =>
                cases hone
                exact push_node_step o e t (t + 1) lf lf c0 c1 c2 c3 v hm he h0 h1 h2 h3 hcnt
            next hleaf =>
              split at hone
              next hfc =>
                cases hone
                exact push_node_step o e t (t + 1) lf lf c0 c1 c2 c3 v hm he h0 h1 h2 h3 hcnt
              next i hfc =>
                split at hone
                next => exact Option.noConfusion hone
                next c hrc =>
                  cases hone
                  have hWFc : (((QNode.mk e (t + 1) lf c0 c1 c2 c3).child i).getD
                      QNode.leaf).WF o :=
                    child_WF o e (t + 1) lf c0 c1 c2 c3 i hm
                      (by rw [WF_mk]; exact ⟨he, h0, h1, h2, h3⟩)
                  have hBdc : BdOk o (((QNode.mk e (t + 1) lf c0 c1 c2 c3).child i).getD
                      QNode.leaf) := by
                    apply child_BdOk o e (t + 1) lf c0 c1 c2 c3 i
                    intro pr hpr
                    apply hbd
                    rw [hS]
                    rw [storedRev_mk] at hpr
                    exact hpr
                  have hlenc : ((((QNode.mk e (t + 1) lf c0 c1 c2 c3).child i).getD
                      QNode.leaf).storedRev o).length + ([v] : List Nat).length < 2 ^ 32 := by
                    have hcl := child_stored_le o e (t + 1) lf c0 c1 c2 c3 i
                    have hsame : ((QNode.mk e (t + 1) lf c0 c1 c2 c3).storedRev o).length =
                        ((QNode.mk e t lf c0 c1 c2 c3).storedRev o).length := by
                      rw [storedRev_mk, storedRev_mk]
                    simp only [List.length_cons, List.length_nil] at hlen ⊢
                    omega
                  obtain ⟨hWFc', hPc⟩ := ih [v] _ c _ hWFc hBdc hlenc hrc
                  have hPc' : (c.storedRev o).Perm
                      ((v, o.getBounds v) :: optStored o
                        ((QNode.mk e (t + 1) lf c0 c1 c2 c3).child i)) := by
                    rw [optStored_getD]
                    exact hPc
                  constructor
                  · fin_cases i <;> simp only [QNode.setChild] <;> rw [WF_mk]
                    · exact ⟨he, hWFc', h1, h2, h3⟩
                    · exact ⟨he, h0, hWFc', h2, h3⟩
                    · exact ⟨he, h0, h1, hWFc', h3⟩
                    · exact ⟨he, h0, h1, h2, hWFc'⟩
                  · rw [hS]
                    fin_cases i <;>
                      simp only [QNode.setChild, QNode.child] at hPc' ⊢ <;>
                      rw [storedRev_mk]
                    · exact perm_slot0 _ _ _ _ _ _ _ hPc'
                    · exact perm_slot1 _ _ _ _ _ _ _ hPc'
                    · exact perm_slot2 _ _ _ _ _ _ _ hPc'
                    · exact perm_slot3 _ _ _ _ _ _ _ hPc'
          obtain ⟨hWF1, hP1⟩ := hstep
          have hlen1 : (node1.storedRev o).length + rest.length < 2 ^ 32 := by
            have hl1 := hP1.length_eq
            simp only [List.length_cons] at hl1 hlen
            omega
          have hBd1 : BdOk o node1 := by
            apply BdOk_of_perm o (QNode.mk e t lf c0 c1 c2 c3) node1 [v] ?_ hbd
            exact hP1
          obtain ⟨hWF', hP'⟩ := ih rest node1 node' nb hWF1 hBd1 hlen1 hr
          refine ⟨hWF', ?_⟩
          refine hP'.trans ((List.Perm.append_left _ hP1).trans ?_)
          rw [List.map_cons, List.cons_append]
          exact List.perm_middle

theorem WF_elems (o : QOpts) (n : QNode) (h : n.WF o) : n.elems.WF o := by
  cases n with
  | mk e t l c0 c1 c2 c3 =>
    rw [WF_mk] at h
    exact h.1

theorem childGetD_WF (o : QOpts) (n : QNode) (i : Fin 4) (hm : 0 < o.maxElementsPerNode)
    (h : n.WF o) : ((n.child i).getD QNode.leaf).WF o := by
  cases n with
  | mk e t l c0 c1 c2 c3 => exact child_WF o e t l c0 c1 c2 c3 i hm h

theorem wt_mk (o : QOpts) (e : NodeElements) (t : Nat) (l : Bool)
    (c0 c1 c2 c3 : Option QNode) :
    (QNode.mk e t l c0 c1 c2 c3).wt o =
      1 + (iterPairs o e).length +
        (optWt o c0 + (optWt o c1 + (optWt o c2 + optWt o c3))) := by
  rw [QNode.wt.eq_def]
  cases c0 <;> cases c1 <;> cases c2 <;> cases c3 <;> rfl

theorem wt_pos (o : QOpts) (n : QNode) : 0 < n.wt o := by
  cases n with
  | mk e t l c0 c1 c2 c3 =>
    rw [wt_mk]
    omega

theorem wt_getD_of_isSome (o : QOpts) (copt : Option QNode) (h : copt.isSome = true) :
    ((copt.getD QNode.leaf).wt o) = optWt o copt := by
  cases copt with
  | none => exact Bool.noConfusion h
  | some c => rfl

theorem flatMap_filter_none {α β : Type} (p : α → Bool) (f : α → List β) :
    ∀ (l : List α), (∀ a ∈ l, p a = false → f a = []) →
      (l.filter p).flatMap f = l.flatMap f := by
  intro l
  induction l with
  | nil => intro h; rfl
  | cons x xs ih =>
    intro h
    by_cases hp : p x = true
    · rw [List.filter_cons_of_pos hp, List.flatMap_cons, List.flatMap_cons,
        ih (fun a ha => h a (List.mem_cons_of_mem x ha))]
    · rw [List.filter_cons_of_neg hp, List.flatMap_cons,
        h x (List.mem_cons_self x xs) (by revert hp; cases p x <;> simp),
        List.nil_append, ih (fun a ha => h a (List.mem_cons_of_mem x ha))]

theorem sum_filter_none {α : Type} (p : α → Bool) (g : α → Nat) :
    ∀ (l : List α), (∀ a ∈ l, p a = false → g a = 0) →
      ((l.filter p).map g).sum = (l.map g).sum := by
  intro l
  induction l with
  | nil => intro h; rfl
  | cons x xs ih =>
    intro h
    by_cases hp : p x = true
    · rw [List.filter_cons_of_pos hp, List.map_cons, List.map_cons, List.sum_cons,
        List.sum_cons, ih (fun a ha => h a (List.mem_cons_of_mem x ha))]
    · rw [List.filter_cons_of_neg hp, List.map_cons, List.sum_cons,
        h x (List.mem_cons_self x xs) (by revert hp; cases p x <;> simp),
        Nat.zero_add, ih (fun a ha => h a (List.mem_cons_of_mem x ha))]

/-- `addElements` (repeated `addElement` calls) preserves
well-formedness and bounds-consistency of the root, keeps the tree
geometry, and stores exactly the given elements with their policy
bounds, up to permutation. -/
theorem addElements_spec (o : QOpts) (fuel : Nat) (hm : 0 < o.maxElementsPerNode) :
    ∀ (es : List Nat) (t t' : QTree),
      t.root.WF o → BdOk o t.root →
      (t.root.storedRev o).length + es.length < 2 ^ 32 →
      t.addElements o fuel es = some t' →
      t'.root.WF o ∧ t'.rootBounds = t.rootBounds ∧ t'.minNodeExtent = t.minNodeExtent ∧
      (t'.root.storedRev o).Perm
        ((es.map (fun v => (v, o.getBounds v))) ++ t.root.storedRev o) := by
  intro es
  induction es with
  | nil =>
    intro t t' hwf hbd hlen hr
    rw [QTree.addElements] at hr
    cases hr
    refine ⟨hwf, rfl, rfl, ?_⟩
    simp
  | cons v rest ih =>
    intro t t' hwf hbd hlen hr
    rw [QTree.addElements] at hr
    rw [QTree.addElement] at hr
    cases ha : addElementToNode o t.minNodeExtent fuel v t.root t.rootBounds with
    | none =>
      rw [ha] at hr
      exact Option.noConfusion hr
    | some r =>
      rw [ha] at hr
      rw [Option.map_some', Option.some_bind] at hr
      rw [addElementToNode] at ha
      have hlen1 : (t.root.storedRev o).length + ([v] : List Nat).length < 2 ^ 32 := by
        simp only [List.length_cons, List.length_nil] at hlen ⊢
        omega
      obtain ⟨hWFr, hPr⟩ :=
        addList_spec o t.minNodeExtent hm (fuel + 1) [v] t.root r t.rootBounds hwf hbd hlen1 ha
      have hBdr : BdOk o r := BdOk_of_perm o t.root r [v] hPr hbd
      have hlenr : (r.storedRev o).length + rest.length < 2 ^ 32 := by
        have hl := hPr.length_eq
        simp only [List.length_cons, List.length_nil, List.length_append,
          List.length_map] at hl hlen
        omega
      obtain ⟨hWF', hRB, hMNE, hP'⟩ := ih { t with root := r } t' hWFr hBdr hlenr hr
      refine ⟨hWF', hRB, hMNE, ?_⟩
      refine hP'.trans ((List.Perm.append_left _ hPr).trans ?_)
      exact List.perm_middle

theorem pendAll_def (o : QOpts) (st : BIState) :
    pendAll o st = eiPend o st.ei ++ st.stack.flatMap (fun h => h.1.storedRev o) := rfl

theorem msr_def (o : QOpts) (st : BIState) :
    msr o st = (eiPend o st.ei).length + (st.stack.map (fun h => h.1.wt o)).sum := rfl

theorem storedRev_child_decomp (o : QOpts) (n : QNode) :
    n.storedRev o = iterPairs o n.elems ++
      (optStored o (n.child 3) ++ (optStored o (n.child 2) ++
        (optStored o (n.child 1) ++ optStored o (n.child 0)))) := by
  cases n with
  | mk e t l c0 c1 c2 c3 =>
    rw [storedRev_mk]
    rfl

theorem wt_child_decomp (o : QOpts) (n : QNode) :
    n.wt o = 1 + (iterPairs o n.elems).length +
      (optWt o (n.child 0) + (optWt o (n.child 1) +
        (optWt o (n.child 2) + optWt o (n.child 3)))) := by
  cases n with
  | mk e t l c0 c1 c2 c3 =>
    rw [wt_mk]
    rfl

theorem pop_pushes (o : QOpts) (q : Rect2) (hs : o.sane) (hq : q.pdens)
    (n : QNode) (nb : NodeBounds) (hGood : GoodNB o q nb) :
    ((List.finRange 4).filter
        (fun i => (nb.findIntersectingChildren q).containsChild i && (n.child i).isSome)) =
      ((List.finRange 4).filter (fun i => (n.child i).isSome)) := by
  apply List.filter_congr
  intro i hi
  rw [findIntersectingChildren_all o q nb hs hq hGood i, Bool.true_and]

theorem finRange4_rev : (List.finRange 4).reverse = ([3, 2, 1, 0] : List (Fin 4)) := by
  decide

theorem flat_push_map (o : QOpts) (n : QNode) (nb : NodeBounds) :
    ∀ (l : List (Fin 4)),
      ((l.map (fun i => ((n.child i).getD QNode.leaf, nb.getChild o i))).flatMap
        (fun hh => hh.1.storedRev o)) = l.flatMap (fun i => optStored o (n.child i)) := by
  intro l
  induction l with
  | nil => rfl
  | cons x xs ihl =>
    rw [List.map_cons, List.flatMap_cons, List.flatMap_cons, ihl, optStored_getD]

theorem wt_push_map (o : QOpts) (n : QNode) (nb : NodeBounds) :
    ∀ (l : List (Fin 4)),
      (((l.map (fun i => ((n.child i).getD QNode.leaf, nb.getChild o i))).map
        (fun hh => hh.1.wt o)).sum) =
      ((l.map (fun i => ((n.child i).getD QNode.leaf).wt o)).sum) := by
  intro l
  induction l with
  | nil => rfl
  | cons x xs ihl =>
    rw [List.map_cons, List.map_cons, List.map_cons, List.sum_cons, List.sum_cons, ihl]

theorem pushes_flat (o : QOpts) (n : QNode) (nb : NodeBounds) :
    ((((List.finRange 4).filter (fun i => (n.child i).isSome)).reverse.map
        (fun i => ((n.child i).getD QNode.leaf, nb.getChild o i))).flatMap
      (fun hh => hh.1.storedRev o)) =
      (optStored o (n.child 3) ++ (optStored o (n.child 2) ++
        (optStored o (n.child 1) ++ optStored o (n.child 0)))) := by
  rw [flat_push_map, ← List.filter_reverse, finRange4_rev]
  rw [flatMap_filter_none _ _ _ ?_]
  · simp only [List.flatMap_cons, List.flatMap_nil, List.append_nil]
  · intro i hi hfalse
    cases hc : n.child i with
    | none => rfl
    | some c =>
      rw [hc] at hfalse
      exact Bool.noConfusion hfalse

theorem pushes_wtsum (o : QOpts) (n : QNode) (nb : NodeBounds) :
    (((((List.finRange 4).filter (fun i => (n.child i).isSome)).reverse.map
        (fun i => ((n.child i).getD QNode.leaf, nb.getChild o i))).map
      (fun hh => hh.1.wt o)).sum) =
      optWt o (n.child 0) + (optWt o (n.child 1) +
        (optWt o (n.child 2) + optWt o (n.child 3))) := by
  rw [wt_push_map]
  have hcongr : (((List.finRange 4).filter (fun i => (n.child i).isSome)).reverse.map
      (fun i => ((n.child i).getD QNode.leaf).wt o)) =
      (((List.finRange 4).filter (fun i => (n.child i).isSome)).reverse.map
        (fun i => optWt o (n.child i))) := by
    apply List.map_congr_left
    intro i hi
    rw [List.mem_reverse, List.mem_filter] at hi
    exact wt_getD_of_isSome o (n.child i) hi.2
  rw [hcongr, List.map_reverse, List.sum_reverse]
  rw [sum_filter_none _ _ _ ?_]
  · rw [show List.finRange 4 = ([0, 1, 2, 3] : List (Fin 4)) from by decide]
    simp only [List.map_cons, List.map_nil, List.sum_cons, List.sum_nil]
    omega
  · intro i hi hfalse
    cases hc : n.child i with
    | none => rfl
    | some c =>
      rw [hc] at hfalse
      exact Bool.noConfusion hfalse

/-- One `BoxIntersectIterator::moveNext` call (with its internal skip
and node-pop loops): fuel above the traversal measure suffices, the
invariants persist, and the pending pair list decomposes into skipped
non-overlapping pairs, the yielded overlapping pair, and the rest. -/
theorem biMoveNext_spec (o : QOpts) (q : Rect2) (hs : o.sane) (hq : q.pdens)
    (hm : 0 < o.maxElementsPerNode) :
    ∀ (fuel : Nat) (st : BIState), st.bounds = q →
      EIInv o st.ei → SInv o st → msr o st < fuel →
      ∃ res, biMoveNext o fuel st = some res ∧
        res.2.bounds = q ∧
        (res.1 = false → ∀ pr ∈ pendAll o st, pr.2.overlaps q = false) ∧
        (res.1 = true →
          EIInv o res.2.ei ∧ SInv o res.2 ∧ msr o res.2 < msr o st ∧
          res.2.ei.curBounds.overlaps q = true ∧
          ∃ skipped,
            pendAll o st =
              skipped ++ ((res.2.ei.curElem, res.2.ei.curBounds) :: pendAll o res.2) ∧
            ∀ pr ∈ skipped, pr.2.overlaps q = false) := by
  intro fuel
  induction fuel with
  | zero =>
    intro st hbq hEI hSI hmsr
    exact absurd hmsr (Nat.not_lt_zero _)
  | succ fuel ih =>
    intro st hbq hEI hSI hmsr
    obtain ⟨hmv_t, hmv_f⟩ := ei_step o st.ei hm hEI
    rcases hmv : st.ei.moveNext o with ⟨mvb, E1⟩
    rw [hmv] at hmv_t hmv_f
    dsimp only at hmv_t hmv_f
    cases mvb with
    | true =>
      obtain ⟨hEI1, hsplitPend⟩ := hmv_t rfl
      by_cases hov : E1.curBounds.overlaps st.bounds = true
      · refine ⟨(true, { st with ei := E1 }), ?_, hbq, ?_, ?_⟩
        · rw [biMoveNext, hmv]
          dsimp only
          rw [if_pos hov]
        · intro hfalse
          exact Bool.noConfusion hfalse
        · intro _
          refine ⟨hEI1, hSI, ?_, ?_, [], ?_, ?_⟩
          · rw [msr_def, msr_def]
            dsimp only
            rw [hsplitPend]
            simp only [List.length_cons]
            omega
          · rw [← hbq]
            exact hov
          · rw [pendAll_def, pendAll_def]
            dsimp only
            rw [hsplitPend, List.nil_append, List.cons_append]
          · intro pr hpr
            exact absurd hpr (List.not_mem_nil pr)
      · have hmsr1 : msr o { st with ei := E1 } < fuel := by
          have h1 : (eiPend o st.ei).length = (eiPend o E1).length + 1 := by
            rw [hsplitPend, List.length_cons]
          rw [msr_def] at hmsr ⊢
          dsimp only at hmsr ⊢
          omega
        obtain ⟨res, hres, hrb, hrf, hrt⟩ := ih { st with ei := E1 } hbq hEI1 hSI hmsr1
        have hov' : E1.curBounds.overlaps q = false := by
          rw [← hbq]
          revert hov
          cases E1.curBounds.overlaps st.bounds <;> simp
        refine ⟨res, ?_, hrb, ?_, ?_⟩
        · rw [biMoveNext, hmv]
          dsimp only
          rw [if_neg hov]
          exact hres
        · intro hfalse pr hpr
          rw [pendAll_def] at hpr
          rw [hsplitPend, List.cons_append] at hpr
          rcases List.mem_cons.1 hpr with hpr | hpr
          · rw [hpr]
            exact hov'
          · exact hrf hfalse pr (by rw [pendAll_def]; exact hpr)
        · intro htrue
          obtain ⟨hEIr, hSIr, hmsrr, hovr, skipped, hpendr, hskipr⟩ := hrt htrue
          refine ⟨hEIr, hSIr, ?_, hovr,
            ((E1.curElem, E1.curBounds) :: skipped), ?_, ?_⟩
          · have h2 : msr o { st with ei := E1 } < msr o st := by
              rw [msr_def, msr_def]
              dsimp only
              rw [hsplitPend]
              simp only [List.length_cons]
              omega
            omega
          · rw [pendAll_def, hsplitPend, List.cons_append]
            rw [pendAll_def] at hpendr
            dsimp only at hpendr
            rw [hpendr, List.cons_append]
          · intro pr hpr
            rcases List.mem_cons.1 hpr with hpr | hpr
            · rw [hpr]
              exact hov'
            · exact hskipr pr hpr
    | false =>
      have hpend0 : eiPend o st.ei = [] := hmv_f rfl
      cases hstk : st.stack with
      | nil =>
        refine ⟨(false, { st with ei := E1, cur := none }), ?_, hbq, ?_, ?_⟩
        · rw [biMoveNext, hmv]
          dsimp only
          rw [hstk]
        · intro _ pr hpr
          rw [pendAll_def, hpend0, hstk] at hpr
          simp at hpr
        · intro htrue
          exact Bool.noConfusion htrue
      | cons hd rest =>
        obtain ⟨hWFhd, hGoodhd⟩ := hSI hd (by rw [hstk]; exact List.mem_cons_self hd rest)
        have hqb : (st.bounds).pdens := by
          rw [hbq]
          exact hq
        have hWFe := WF_elems o hd.1 hWFhd
        have hEI2 : EIInv o (EIState.ofNode o hd.1) := EIInv_ofNode o hd.1 hm hWFe
        have hSI2 : SInv o { st with
            stack := (((List.finRange 4).filter
              (fun i => (hd.2.findIntersectingChildren st.bounds).containsChild i &&
                (hd.1.child i).isSome)).reverse.map
                (fun i => ((hd.1.child i).getD QNode.leaf, hd.2.getChild o i))) ++ rest,
            cur := some hd, ei := EIState.ofNode o hd.1 } := by
          intro hh hmem
          dsimp only at hmem ⊢
          rcases List.mem_append.1 hmem with hmem | hmem
          · obtain ⟨i, hi, hhe⟩ := List.mem_map.1 hmem
            rw [← hhe]
            dsimp only
            refine ⟨childGetD_WF o hd.1 i hm hWFhd, ?_⟩
            exact getChild_good o st.bounds hd.2 i hs hqb hGoodhd
          · exact hSI hh (by rw [hstk]; exact List.mem_cons_of_mem hd hmem)
        have hpendEq : pendAll o { st with
            stack := (((List.finRange 4).filter
              (fun i => (hd.2.findIntersectingChildren st.bounds).containsChild i &&
                (hd.1.child i).isSome)).reverse.map
                (fun i => ((hd.1.child i).getD QNode.leaf, hd.2.getChild o i))) ++ rest,
            cur := some hd, ei := EIState.ofNode o hd.1 } = pendAll o st := by
          rw [pendAll_def, pendAll_def]
          dsimp only
          rw [hpend0, List.nil_append, hstk, List.flatMap_cons]
          rw [eiPend_ofNode o hd.1 hm hWFe]
          rw [List.flatMap_append]
          rw [pop_pushes o st.bounds hs hqb hd.1 hd.2 hGoodhd]
          rw [pushes_flat o hd.1 hd.2]
          rw [storedRev_child_decomp o hd.1]
          simp only [List.append_assoc]
        have hmsrEq : msr o { st with
            stack := (((List.finRange 4).filter
              (fun i => (hd.2.findIntersectingChildren st.bounds).containsChild i &&
                (hd.1.child i).isSome)).reverse.map
                (fun i => ((hd.1.child i).getD QNode.leaf, hd.2.getChild o i))) ++ rest,
            cur := some hd, ei := EIState.ofNode o hd.1 } + 1 = msr o st := by
          rw [msr_def, msr_def]
          dsimp only
          rw [hpend0, hstk, List.map_cons, List.sum_cons]
          rw [eiPend_ofNode o hd.1 hm hWFe]
          rw [List.map_append, List.sum_append]
          rw [pop_pushes o st.bounds hs hqb hd.1 hd.2 hGoodhd]
          rw [pushes_wtsum o hd.1 hd.2]
          rw [wt_child_decomp o hd.1]
          simp only [List.length_nil]
          omega
        have hmsr2 : msr o { st with
            stack := (((List.finRange 4).filter
              (fun i => (hd.2.findIntersectingChildren st.bounds).containsChild i &&
                (hd.1.child i).isSome)).reverse.map
                (fun i => ((hd.1.child i).getD QNode.leaf, hd.2.getChild o i))) ++ rest,
            cur := some hd, ei := EIState.ofNode o hd.1 } < fuel := by
          omega
        obtain ⟨res, hres, hrb, hrf, hrt⟩ := ih { st with
            stack := (((List.finRange 4).filter
              (fun i => (hd.2.findIntersectingChildren st.bounds).containsChild i &&
                (hd.1.child i).isSome)).reverse.map
                (fun i => ((hd.1.child i).getD QNode.leaf, hd.2.getChild o i))) ++ rest,
            cur := some hd, ei := EIState.ofNode o hd.1 } hbq hEI2 hSI2 hmsr2
        refine ⟨res, ?_, hrb, ?_, ?_⟩
        · rw [biMoveNext, hmv]
          dsimp only
          rw [hstk]
          dsimp only
          exact hres
        · intro hfalse pr hpr
          exact hrf hfalse pr (by rw [hpendEq]; exact hpr)
        · intro htrue
          obtain ⟨hEIr, hSIr, hmsrr, hovr, skipped, hpendr, hskipr⟩ := hrt htrue
          refine ⟨hEIr, hSIr, by omega, hovr, skipped, ?_, hskipr⟩
          rw [← hpendEq]
          exact hpendr

/-- Driving the iterator to exhaustion with fuel above the measure
yields exactly the overlapping pending elements, in traversal order. -/
theorem biCollect_spec (o : QOpts) (q : Rect2) (hs : o.sane) (hq : q.pdens)
    (hm : 0 < o.maxElementsPerNode) :
    ∀ (fuel : Nat) (st : BIState), st.bounds = q →
      EIInv o st.ei → SInv o st → msr o st < fuel →
      biCollect o fuel st =
        some (((pendAll o st).filter (fun pr => pr.2.overlaps q)).map Prod.fst) := by
  intro fuel
  induction fuel with
  | zero =>
    intro st hbq hEI hSI hmsr
    exact absurd hmsr (Nat.not_lt_zero _)
  | succ fuel ih =>
    intro st hbq hEI hSI hmsr
    obtain ⟨res, hres, hrb, hrf, hrt⟩ :=
      biMoveNext_spec o q hs hq hm (fuel + 1) st hbq hEI hSI hmsr
    rw [biCollect, hres]
    rcases res with ⟨b, st1⟩
    cases b with
    | false =>
      dsimp only
      have hnil : (pendAll o st).filter (fun pr => pr.2.overlaps q) = [] := by
        apply List.filter_eq_nil_iff.2
        intro pr hpr
        rw [hrf rfl pr hpr]
        simp
      rw [hnil]
      rfl
    | true =>
      dsimp only
      obtain ⟨hEIr, hSIr, hmsrr, hovr, skipped, hpendr, hskipr⟩ := hrt rfl
      rw [ih st1 hrb hEIr hSIr (Nat.lt_of_lt_of_le hmsrr (Nat.lt_succ_iff.1 hmsr))]
      rw [Option.map_some']
      have hskipnil : skipped.filter (fun pr => pr.2.overlaps q) = [] :=
        List.filter_eq_nil_iff.2 (fun pr hpr => by rw [hskipr pr hpr]; simp)
      have hposc : (((st1.ei.curElem, st1.ei.curBounds) :: pendAll o st1).filter
          (fun pr => pr.2.overlaps q)) =
          (st1.ei.curElem, st1.ei.curBounds) ::
            ((pendAll o st1).filter (fun pr => pr.2.overlaps q)) :=
        List.filter_cons_of_pos hovr
      rw [hpendr, List.filter_append, hskipnil, List.nil_append, hposc, List.map_cons]

/-- Claim C7 as amended: for a quadtree freshly built by inserting any
element list (insertion succeeding, sane tuning options with
`loosePadding ≥ 1`, a positive square extent, all coordinates with
positive denominators, and an element count within `uint32` range), a
box-intersection iteration whose query rectangle encompasses the full
tree extent yields, in some order, exactly the inserted elements whose
policy bounds overlap the query rectangle — each exactly once.  The
literal claim (every inserted element, unconditionally) is false:
insertion does not clip to the tree extent, and an element whose bounds
lie outside the query rectangle is skipped (see the counterexample). -/
theorem query_covering_collects_all (o : QOpts) (cx cy ext : Scalar) (es : List Nat)
    (q : Rect2) (bfuel : Nat) (t : QTree)
    (hbuild : (QTree.init o cx cy ext).addElements o bfuel es = some t)
    (hsane : o.sane) (hq : q.pdens)
    (hcx : cx.pden) (hcy : cy.pden) (hext : ext.pden)
    (hpos : (0 : Scalar) < ext)
    (hcov : covers q ⟨cx, cy, ext, ext⟩)
    (hlen : es.length < 2 ^ 32) :
    ∃ fuel out, t.query o fuel q = some out ∧
      out.Perm (es.filter (fun v => ((o.getBounds v).overlaps q))) := by
  have hs' := hsane
  unfold QOpts.sane at hs'
  obtain ⟨hm, -, -⟩ := hs'
  have hrootWF : (QTree.init o cx cy ext).root.WF o := leaf_WF o hm
  have hrootBd : BdOk o (QTree.init o cx cy ext).root := by
    intro pr hpr
    rw [show (QTree.init o cx cy ext).root = QNode.leaf from rfl, storedRev_leaf] at hpr
    exact absurd hpr (List.not_mem_nil pr)
  have hrootLen : ((QTree.init o cx cy ext).root.storedRev o).length + es.length < 2 ^ 32 := by
    rw [show (QTree.init o cx cy ext).root = QNode.leaf from rfl, storedRev_leaf]
    simpa using hlen
  obtain ⟨hWFt, hRB, hMNE, hPerm⟩ :=
    addElements_spec o bfuel hm es (QTree.init o cx cy ext) t hrootWF hrootBd hrootLen hbuild
  rw [show (QTree.init o cx cy ext).root = QNode.leaf from rfl, storedRev_leaf,
    List.append_nil] at hPerm
  have hRBval : t.rootBounds = NodeBounds.ofRect o ⟨cx, cy, ext, ext⟩ := hRB
  have hGoodR : GoodNB o q t.rootBounds := by
    rw [hRBval]
    unfold GoodNB NBWf
    exact ⟨⟨rfl, rfl, hpos⟩, hcov, hcx, hcy, hext⟩
  have hEI0 : EIInv o (BIState.ofTree t q).ei := by
    unfold EIInv
    refine ⟨rfl, ?_, ?_, ?_⟩
    · intro g hg
      exact absurd hg (List.not_mem_nil g)
    · intro b hb
      exact absurd hb (List.not_mem_nil b)
    · intro hne
      exact absurd rfl hne
  have hSI0 : SInv o (BIState.ofTree t q) := by
    intro hh hmem
    rw [List.mem_singleton.1 hmem]
    exact ⟨hWFt, hGoodR⟩
  refine ⟨msr o (BIState.ofTree t q) + 1,
    ((pendAll o (BIState.ofTree t q)).filter (fun pr => pr.2.overlaps q)).map Prod.fst,
    ?_, ?_⟩
  · exact biCollect_spec o q hsane hq hm (msr o (BIState.ofTree t q) + 1)
      (BIState.ofTree t q) rfl hEI0 hSI0 (Nat.lt_succ_self _)
  · have hpend0 : pendAll o (BIState.ofTree t q) = t.root.storedRev o := by
      rw [pendAll_def]
      show [] ++ ((t.root.storedRev o) ++ []) = _
      rw [List.nil_append, List.append_nil]
    rw [hpend0]
    have h1 := (hPerm.filter (fun pr => pr.2.overlaps q)).map Prod.fst
    refine h1.trans ?_
    rw [List.filter_map, List.map_map]
    have hid : (Prod.fst ∘ (fun v : Nat => (v, o.getBounds v))) = id := rfl
    have hfeq : ((fun pr : Nat × Rect2 => pr.2.overlaps q) ∘
        (fun v : Nat => (v, o.getBounds v))) = (fun v => ((o.getBounds v).overlaps q)) := rfl
    rw [hid, List.map_id, hfeq]

/-- Witness for `query_covering_collects_all`: the collapse-scenario
options, one element at (50, 50) in a tree of extent 100 centered on
the origin, queried with the full extent. -/
theorem query_covering_collects_all_witness :
    ∃ fuel out,
      QTree.query optsCollapse fuel
        (((QTree.init optsCollapse 0 0 100).addElements optsCollapse 20 [1]).getD
          (QTree.init optsCollapse 0 0 100)) ⟨0, 0, 100, 100⟩ = some out ∧
      out.Perm ([1].filter
        (fun v => ((optsCollapse.getBounds v).overlaps ⟨0, 0, 100, 100⟩))) :=
  query_covering_collects_all optsCollapse 0 0 100 [1] ⟨0, 0, 100, 100⟩ 20 _
    (by rfl)
    (by unfold QOpts.sane; exact ⟨by decide, Scalar.pden_ofNat 16, by decide⟩)
    (by unfold Rect2.pdens
        exact ⟨Scalar.pden_ofNat 0, Scalar.pden_ofNat 0,
          Scalar.pden_ofNat 100, Scalar.pden_ofNat 100⟩)
    (Scalar.pden_ofNat 0) (Scalar.pden_ofNat 0) (Scalar.pden_ofNat 100)
    (by decide)
    (by unfold covers; exact ⟨by decide, by decide, by decide, by decide⟩)
    (by decide)


end Quadtree

end GeUtil
